import Mathlib

/-!
Verification of the Mini-SQLite Web Engine storage core.

This file gives a shallow embedding of the engine's row codec
(`Table.serializeRow` / `Table.deserializeRow` and the text helpers of
`src/lib/utils.ts`), of the virtual disk with its transaction buffers
(`src/lib/database.ts`), and of the paged B-tree (`src/lib/btree.ts`),
and proves the behavioural claims about them.

Modelling conventions:
* a JavaScript `Uint8Array` is a `List Nat` whose entries are bytes
  (writes wrap values modulo 256, as typed arrays do);
* a JavaScript string is a `List Nat` of Unicode code points
  (`TextEncoder` / `TextDecoder` are modelled by an explicit UTF-8
  codec);
* JavaScript numbers that reach the storage layer are integers, so they
  are modelled by `Int` (resp. `Nat` for page ids and counters);
  `DataView.setUint32` / `setInt32` wrap modulo 2^32 exactly as the
  platform does;
* exceptions are modelled by `Except`; every stateful operation returns
  its (possibly partially mutated) state together with the result, so
  that an operation that throws after some writes is modelled
  faithfully.
-/

deriving instance DecidableEq for Except

namespace MiniSql

/-! ### Byte-level helpers

`byteAt l i` models reading byte `i` of a `Uint8Array` (out-of-range
reads of the zero-backed page model give 0); `getU16`/`getU32` model
`DataView.getUint16`/`getUint32` (big-endian, the `DataView` default
used throughout the source); `be16`/`be32` model the corresponding
`set` calls, which wrap their argument.  -/

def byteAt (l : List Nat) (i : Nat) : Nat := l.getD i 0

def getU16 (l : List Nat) (i : Nat) : Nat :=
  byteAt l i * 256 + byteAt l (i + 1)

def getU32 (l : List Nat) (i : Nat) : Nat :=
  byteAt l i * 16777216 + byteAt l (i + 1) * 65536 +
    byteAt l (i + 2) * 256 + byteAt l (i + 3)

def be16 (n : Nat) : List Nat := [n / 256 % 256, n % 256]

def be32 (n : Nat) : List Nat :=
  [n / 16777216 % 256, n / 65536 % 256, n / 256 % 256, n % 256]

/-- `DataView.setUint32` applied to a JavaScript number: the value is
converted with ToUint32 (wrap modulo 2^32) and laid out big-endian. -/
def be32I (k : Int) : List Nat := be32 ((k % 4294967296).toNat)

/-- Signed reading of a 32-bit big-endian value (`DataView.getInt32`). -/
def i32OfU32 (u : Nat) : Int :=
  if u < 2147483648 then (u : Int) else (u : Int) - 4294967296

/-- `arr.slice(off, off + len)` / `arr.subarray(off, off + len)`:
clamped at the end of the array. -/
def listSlice (l : List Nat) (off len : Nat) : List Nat :=
  (l.drop off).take len

/-- Pages are 4096-byte buffers; a freshly-constructed `Uint8Array` is
zero-filled, so a page built by writing a prefix is that prefix padded
with zeros. -/
def pad4096 (l : List Nat) : List Nat :=
  l ++ List.replicate (4096 - l.length) 0

/-- Pointwise update of a function, used for page stores and metadata
stores. -/
def setF {α : Type} (f : Nat → α) (i : Nat) (v : α) : Nat → α :=
  fun j => if j = i then v else f j

def setS {α : Type} (f : String → α) (k : String) (v : α) : String → α :=
  fun j => if j = k then v else f j

/-! ### UTF-8 codec

`stringToBytes` is `TextEncoder.encode`; `bytesToString` is
`TextDecoder.decode` followed by `.replace(/\0/g, '')` (see
`src/lib/utils.ts`).  The decoder follows the WHATWG UTF-8 decoder:
strict continuation-byte ranges (rejecting overlong forms and encoded
surrogates) with U+FFFD on error; error recovery resumes after the
longest valid prefix of the failed sequence, which is what the theorems
below (which only evaluate the decoder on valid encodings or filter its
output) depend on. -/

def utf8EncodeChar (c : Nat) : List Nat :=
  if c < 128 then [c]
  else if c < 2048 then [192 + c / 64, 128 + c % 64]
  else if c < 65536 then [224 + c / 4096, 128 + c / 64 % 64, 128 + c % 64]
  else [240 + c / 262144, 128 + c / 4096 % 64, 128 + c / 64 % 64, 128 + c % 64]

def utf8Encode (s : List Nat) : List Nat := s.flatMap utf8EncodeChar

/-- A Unicode scalar value: what a well-formed JavaScript string's code
points range over once lone surrogates are excluded (the encoder
replaces lone surrogates, so strings are modelled as scalar sequences). -/
def IsScalar (c : Nat) : Prop := c < 1114112 ∧ ¬ (55296 ≤ c ∧ c ≤ 57343)

instance (c : Nat) : Decidable (IsScalar c) := by
  unfold IsScalar; infer_instance

/-- One step of the WHATWG UTF-8 decoder: given the first byte and the
remaining bytes, return the decoded code point (U+FFFD = 65533 on
error) and how many additional bytes were consumed. -/
def utf8Step (b : Nat) (rest : List Nat) : Nat × Nat :=
  if b < 128 then (b, 0)
  else if 194 ≤ b ∧ b ≤ 223 then
    match rest with
    | b2 :: _ =>
      if 128 ≤ b2 ∧ b2 ≤ 191 then ((b - 192) * 64 + (b2 - 128), 1)
      else (65533, 0)
    | [] => (65533, 0)
  else if 224 ≤ b ∧ b ≤ 239 then
    match rest with
    | b2 :: rest2 =>
      if (if b = 224 then 160 else 128) ≤ b2 ∧ b2 ≤ (if b = 237 then 159 else 191) then
        match rest2 with
        | b3 :: _ =>
          if 128 ≤ b3 ∧ b3 ≤ 191 then
            ((b - 224) * 4096 + (b2 - 128) * 64 + (b3 - 128), 2)
          else (65533, 1)
        | [] => (65533, 1)
      else (65533, 0)
    | [] => (65533, 0)
  else if 240 ≤ b ∧ b ≤ 244 then
    match rest with
    | b2 :: rest2 =>
      if (if b = 240 then 144 else 128) ≤ b2 ∧ b2 ≤ (if b = 244 then 143 else 191) then
        match rest2 with
        | b3 :: rest3 =>
          if 128 ≤ b3 ∧ b3 ≤ 191 then
            match rest3 with
            | b4 :: _ =>
              if 128 ≤ b4 ∧ b4 ≤ 191 then
                ((b - 240) * 262144 + (b2 - 128) * 4096 + (b3 - 128) * 64 + (b4 - 128), 3)
              else (65533, 2)
            | [] => (65533, 2)
          else (65533, 1)
        | [] => (65533, 1)
      else (65533, 0)
    | [] => (65533, 0)
  else (65533, 0)

/-- The decoding loop, structurally recursive on a fuel that
`utf8Decode` seeds with the list length (every step consumes at least
one byte, so the fuel never runs out). -/
def utf8DecodeGo : Nat → List Nat → List Nat
  | _, [] => []
  | 0, _ :: _ => []
  | fuel + 1, b :: rest =>
    (utf8Step b rest).1 :: utf8DecodeGo fuel (rest.drop (utf8Step b rest).2)

def utf8Decode (l : List Nat) : List Nat := utf8DecodeGo l.length l

/-- `stringToBytes` from `src/lib/utils.ts`: `TextEncoder.encode`. -/
def stringToBytes (s : List Nat) : List Nat := utf8Encode s

/-- `bytesToString` from `src/lib/utils.ts`:
`decoder.decode(bytes).replace(/\0/g, '')` — decode, then remove every
NUL character. -/
def bytesToString (bs : List Nat) : List Nat :=
  (utf8Decode bs).filter (fun c => c ≠ 0)

/-! ### Errors

One inductive for every exception message the storage core can throw
(`throw new Error(...)` in the source); the constructor names follow the
messages. -/

inductive DbErr where
  /-- "Duplicate primary key: k" (`BTree.insertIntoLeaf`). -/
  | duplicateKey (k : Int)
  /-- "Key k not found" (`BTree.delete`). -/
  | keyNotFound (k : Int)
  /-- "Index page full - implementation limited for demo" (`BTree.insertIntoInternal`). -/
  | indexPageFull
  /-- A typed-array / DataView access out of the 4096-byte page bounds
  (a JavaScript `RangeError`). -/
  | rangeError
  /-- Recursion-depth bound of the model exceeded (the source would loop
  on such a cyclic page graph; never hit on reachable states). -/
  | fuelExhausted
  /-- "Column ... cannot be null" (`Table.insert`). -/
  | nullValue (col : String)
  /-- "Invalid Primary Key value: ..." (`Table.insert`). -/
  | invalidPk
  /-- "Invalid type for column ..." (`Table.insert` / `Table.update`). -/
  | typeMismatch (col : String)
  /-- "Column count doesn't match value count" / "Column count mismatch" (`Table.insert`). -/
  | columnCountMismatch
  /-- "Column ... not found" (`Table.insert`). -/
  | columnNotFound (col : String)
  /-- "Serialize Error: Value for ... is missing" (`Table.serializeRow`). -/
  | serializeMissing (col : String)
  /-- "Primary Key could not be determined" (`Table.insert`). -/
  | noPk
  /-- "No transaction active" / "Transaction already active" (`VirtualDisk`). -/
  | txError
deriving DecidableEq

/-! ### Rows and schemas -/

inductive ColType where
  | integer
  | text
deriving DecidableEq

/-- A column of a table schema (`ColumnDefinition` in `src/types.ts`). -/
structure Column where
  name : String
  type : ColType
  isPrimaryKey : Bool := false
deriving DecidableEq

/-- A dynamically typed scalar cell value: the JavaScript
`string | number` union stored in a `Row`.  Numbers reaching the codec
are integers (see the file header). -/
inductive Value where
  | int (i : Int)
  | str (s : List Nat)
deriving DecidableEq

/-- A decoded row: a JavaScript object, i.e. an insertion-ordered list
of bindings with unique keys. -/
abbrev Row : Type := List (String × Value)

/-- `row[name] = v` on a JavaScript object: replace the existing binding
in place, or append a new one. -/
def rowSet : Row → String → Value → Row
  | [], k, v => [(k, v)]
  | (k', v') :: rest, k, v =>
    if k' = k then (k', v) :: rest else (k', v') :: rowSet rest k v

/-- `row[name]` on a JavaScript object. -/
def rowGet (r : Row) (k : String) : Option Value :=
  match r with
  | [] => none
  | (k', v) :: rest => if k' = k then some v else rowGet rest k

/-- Models JavaScript `Number(s)` on a canonical decimal integer string
(optional minus sign, then digits).  Exotic numeral forms (leading
whitespace, hex, exponents, fractional values) are not modelled; no
theorem in this file depends on them. -/
def decDigitsVal : List Nat → Option Nat
  | [] => none
  | l =>
    if l.all (fun c => 48 ≤ c ∧ c ≤ 57) then
      some (l.foldl (fun acc c => acc * 10 + (c - 48)) 0)
    else none

def jsCanonicalInt : List Nat → Option Int
  | 45 :: rest => (decDigitsVal rest).map (fun n => -(n : Int))
  | s => (decDigitsVal s).map (fun n => (n : Int))

/-- JavaScript `String(i)` for an integer: its decimal numeral as code
points. -/
def intToDecimalStr (i : Int) : List Nat :=
  (toString i).toList.map Char.toNat

/-- `validateType` from `src/lib/utils.ts`: for INTEGER,
`!isNaN(parseInt(v)) && Number.isInteger(Number(v))` (true for every
integral number, and for strings that are canonical integer numerals);
for TEXT, `typeof v === 'string'`. -/
def validateType (v : Value) (t : ColType) : Bool :=
  match t with
  | .integer =>
    match v with
    | .int _ => true
    | .str s => (jsCanonicalInt s).isSome
  | .text =>
    match v with
    | .str _ => true
    | .int _ => false

/-! ### Row codec (`Table.serializeRow` / `Table.deserializeRow`) -/

/-- The value bytes of one column record: INTEGER columns get
`setInt32(0, Number(val))` (4 big-endian two's-complement bytes), TEXT
columns get the UTF-8 encoding of `String(val)`. -/
def serializeCol (t : ColType) (v : Value) : List Nat :=
  match t with
  | .integer =>
    be32I (match v with
      | .int i => i
      | .str s => (jsCanonicalInt s).getD 0)
  | .text =>
    stringToBytes (match v with
      | .str s => s
      | .int i => intToDecimalStr i)

/-- One serialized column record: a big-endian `uint16` length
(`setUint16` wraps modulo 2^16) followed by the value bytes. -/
def encCell (t : ColType) (v : Value) : List Nat :=
  be16 (serializeCol t v).length ++ serializeCol t v

def serializeRowAux (row : Row) : List Column → Except DbErr (List Nat)
  | [] => .ok []
  | c :: cs =>
    match rowGet row c.name with
    | none => .error (.serializeMissing c.name)
    | some v => (serializeRowAux row cs).map (fun rest => encCell c.type v ++ rest)

/-- `Table.serializeRow`: concatenate the per-column records in schema
order; a missing value for any column is an error. -/
def serializeRow (cols : List Column) (row : Row) : Except DbErr (List Nat) :=
  serializeRowAux row cols

/-- The decoding loop of `Table.deserializeRow`: a `forEach` over the
schema columns threading the running offset.  A `return` inside a
JavaScript `forEach` callback skips only the current column, so both
bounds checks continue with the next column (the first check without
advancing the offset, the second after the 2-byte length was consumed).
`DataView.getInt32` throws when fewer than 4 bytes remain. -/
def deserAux (data : List Nat) : List Column → Nat → Row → Except DbErr Row
  | [], _, row => .ok row
  | c :: cs, off, row =>
    if data.length < off + 2 then deserAux data cs off row
    else
      letI len := getU16 data off
      if data.length < off + 2 + len then deserAux data cs (off + 2) row
      else
        match c.type with
        | .integer =>
          if off + 2 + 4 ≤ data.length then
            deserAux data cs (off + 2 + len)
              (rowSet row c.name (.int (i32OfU32 (getU32 data (off + 2)))))
          else .error .rangeError
        | .text =>
          deserAux data cs (off + 2 + len)
            (rowSet row c.name (.str (bytesToString (listSlice data (off + 2) len))))

/-- `Table.deserializeRow`: empty input decodes to the empty row,
otherwise run the schema-driven loop from offset 0. -/
def deserializeRow (cols : List Column) (data : List Nat) : Except DbErr Row :=
  if data.length = 0 then .ok [] else deserAux data cols 0 []

/-! ### Virtual disk (`VirtualDisk` in `src/lib/database.ts`)

The block device is the browser's `localStorage`, modelled by the
`store*` fields (pages under `minisql_<id>`, metadata under
`minisql_meta_<key>`, and the persisted allocation counter under
`minisql_meta`).  On top of it sit the in-memory page cache, the
in-memory `maxPageId` counter, and the optional transaction buffers.
JavaScript `Map`s are modelled by insertion-ordered association lists
(`aSet`/`aGet`), which matters for the iteration order of `commit`. -/

def aSet {κ α : Type} [DecidableEq κ] : List (κ × α) → κ → α → List (κ × α)
  | [], k, v => [(k, v)]
  | (k', v') :: rest, k, v =>
    if k' = k then (k', v) :: rest else (k', v') :: aSet rest k v

def aGet {κ α : Type} [DecidableEq κ] (l : List (κ × α)) (k : κ) : Option α :=
  match l with
  | [] => none
  | (k', v) :: rest => if k' = k then some v else aGet rest k

structure VDisk (μ : Type) where
  storePages : Nat → Option (List Nat)
  storeMeta : String → Option μ
  storeMax : Option Nat
  cache : Nat → Option (List Nat)
  maxPageId : Nat
  txPages : Option (List (Nat × List Nat))
  txMeta : Option (List (String × μ))

variable {μ : Type}

/-- `load()`: read the persisted `{ maxPageId }` blob; if none was ever
persisted the in-memory counter keeps its current value. -/
def vdLoad (d : VDisk μ) : VDisk μ :=
  { d with maxPageId := d.storeMax.getD d.maxPageId }

/-- The cache/block-device part of `readPage` (after the transaction
buffer was consulted): cache hit, else load from the block device into
the cache, else a fresh zero page (not cached). -/
def vdReadCore (d : VDisk μ) (id : Nat) : List Nat × VDisk μ :=
  match d.cache id with
  | some p => (p, d)
  | none =>
    match d.storePages id with
    | some bytes => (bytes, { d with cache := setF d.cache id (some bytes) })
    | none => (List.replicate 4096 0, d)

def vdReadPage (d : VDisk μ) (id : Nat) : List Nat × VDisk μ :=
  match d.txPages with
  | some tx =>
    match aGet tx id with
    | some p => (p, d)
    | none => vdReadCore d id
  | none => vdReadCore d id

/-- `writeToDisk`: update the cache and the block device; if the id
exceeds `maxPageId`, advance and persist the counter. -/
def vdWriteToDisk (d : VDisk μ) (id : Nat) (data : List Nat) : VDisk μ :=
  let d1 := { d with
    cache := setF d.cache id (some data),
    storePages := setF d.storePages id (some data) }
  if d1.maxPageId < id then { d1 with maxPageId := id, storeMax := some id } else d1

/-- `writePage`: during a transaction, store a defensive copy in the
transaction page buffer only; otherwise write through. -/
def vdWritePage (d : VDisk μ) (id : Nat) (data : List Nat) : VDisk μ :=
  match d.txPages with
  | some tx => { d with txPages := some (aSet tx id data) }
  | none => vdWriteToDisk d id data

/-- `allocatePage`: increment `maxPageId`; persist the counter only
outside a transaction. -/
def vdAllocatePage (d : VDisk μ) : Nat × VDisk μ :=
  (d.maxPageId + 1,
   { d with
     maxPageId := d.maxPageId + 1,
     storeMax := if d.txPages.isSome then d.storeMax else some (d.maxPageId + 1) })

def vdGetMeta (d : VDisk μ) (k : String) : Option μ :=
  match d.txMeta with
  | some tm =>
    match aGet tm k with
    | some v => some v
    | none => d.storeMeta k
  | none => d.storeMeta k

def vdSetMeta (d : VDisk μ) (k : String) (v : μ) : VDisk μ :=
  match d.txMeta with
  | some tm => { d with txMeta := some (aSet tm k v) }
  | none => { d with storeMeta := setS d.storeMeta k (some v) }

def vdBegin (d : VDisk μ) : Except DbErr Unit × VDisk μ :=
  if d.txPages.isSome then (.error .txError, d)
  else (.ok (), { d with txPages := some [], txMeta := some [] })

/-- `commit`: flush every buffered page through `writeToDisk` in
insertion order, then every buffered metadata entry, then persist the
counter, then drop the buffers. -/
def vdCommit (d : VDisk μ) : Except DbErr Unit × VDisk μ :=
  match d.txPages, d.txMeta with
  | some tx, some tm =>
    let d1 := tx.foldl (fun acc (p : Nat × List Nat) => vdWriteToDisk acc p.1 p.2) d
    let d2 := { d1 with
      storeMeta := tm.foldl (fun f (p : String × μ) => setS f p.1 (some p.2)) d1.storeMeta }
    (.ok (), { d2 with storeMax := some d2.maxPageId, txPages := none, txMeta := none })
  | _, _ => (.error .txError, d)

/-- `rollback`: discard both buffers, clear the cache, and run `load()`
(see `vdLoad` for the fresh-disk caveat). -/
def vdRollback (d : VDisk μ) : Except DbErr Unit × VDisk μ :=
  if d.txPages.isSome then
    (.ok (), vdLoad { d with txPages := none, txMeta := none, cache := fun _ => none })
  else (.error .txError, d)

/-- The value a `readPage` query observes (ignoring its cache-filling
side effect). -/
def vdObsPage (d : VDisk μ) (id : Nat) : List Nat := (vdReadPage d id).1

abbrev vdObsMeta (d : VDisk μ) (k : String) : Option μ := vdGetMeta d k

/-- The state-affecting operations a command can perform on the virtual
disk between `BEGIN` and `ROLLBACK`. -/
inductive Mutation (μ : Type) where
  | writePage (id : Nat) (data : List Nat)
  | allocatePage
  | setMeta (k : String) (v : μ)
  | readPage (id : Nat)
  | getMeta (k : String)

def applyMut (d : VDisk μ) : Mutation μ → VDisk μ
  | .writePage id data => vdWritePage d id data
  | .allocatePage => (vdAllocatePage d).2
  | .setMeta k v => vdSetMeta d k v
  | .readPage id => (vdReadPage d id).2
  | .getMeta _ => d

def applyMuts (d : VDisk μ) (ms : List (Mutation μ)) : VDisk μ :=
  ms.foldl applyMut d

/-- Cache coherence: every cached page equals its persisted copy.  This
holds for every disk state the engine can be in outside a transaction,
because the cache is only filled by `writeToDisk` (which writes both)
and by `readPage` misses (which copy from the store). -/
def CacheCoherent (d : VDisk μ) : Prop :=
  ∀ id p, d.cache id = some p → d.storePages id = some p

/-! ### B-tree pages (`src/lib/btree.ts`)

A page is a 4096-byte buffer with a 7-byte header
(`type:u8 | num_cells:u16 | parent:u32`, big-endian).  Keys handed to
the B-tree are JavaScript numbers: routing and duplicate checks compare
the raw number, while `setUint32` wraps it modulo 2^32 on write, so
keys are modelled as `Int` and wrapped only at the byte level
(`be32I`).  Cells parsed from a page carry both the stored size field
(`len`) and the actual bytes obtained by the (clamping) `slice`. -/

structure Cell where
  key : Int
  len : Nat
  val : List Nat
deriving DecidableEq

/-- The bytes `writeCellsToLeaf` emits for one cell: key, then
`cell.v.length` as the size field, then the value bytes. -/
def cellBytes (c : Cell) : List Nat :=
  be32I c.key ++ be32 c.val.length ++ c.val.map (fun b => b % 256)

/-- The bytes the copying loops of `insertIntoLeaf` and `delete` emit
for one cell: the size field is the stored field `len`, and the data
region spans `len` bytes (zero-filled past the end of the clamped
source slice, because the destination buffer starts out zeroed). -/
def copyCellBytes (c : Cell) : List Nat :=
  be32I c.key ++ be32 c.len ++
    (c.val.map (fun b => b % 256) ++ List.replicate (c.len - c.val.length) 0)

/-- A leaf page as written by `writeCellsToLeaf`: type 1, the cell
count, a parent pointer (`writeCellsToLeaf` leaves it 0), and the
cells. -/
def leafPage (parent : Nat) (cells : List Cell) : List Nat :=
  pad4096 ([1] ++ be16 cells.length ++ be32 parent ++ cells.flatMap cellBytes)

/-- The bytes of one `key_i | child_i` entry of an internal page. -/
def itemBytes (it : Int × Nat) : List Nat := be32I it.1 ++ be32 it.2

/-- An internal page: type 0, the separator count, the parent pointer,
`child_0`, then `key_i | child_i` pairs. -/
def internalPage (parent p0 : Nat) (items : List (Int × Nat)) : List Nat :=
  pad4096 ([0] ++ be16 items.length ++ be32 parent ++ be32 p0 ++
    items.flatMap itemBytes)

/-- The leaf-cell scan shared by `traverse`, `findMaxInPage`,
`insertIntoLeaf`, `splitLeaf` and `delete`: read `key`, read the size
field, slice that many bytes, advance. -/
def readCells (page : List Nat) : Nat → Nat → List Cell
  | 0, _ => []
  | n + 1, off =>
    ⟨((getU32 page off : Nat) : Int), getU32 page (off + 4),
      listSlice page (off + 8) (getU32 page (off + 4))⟩ ::
    readCells page n (off + 8 + getU32 page (off + 4))

/-- The offset reached after scanning `n` cells (the `currentSize` of
`insertIntoLeaf`). -/
def scanSize (page : List Nat) : Nat → Nat → Nat
  | 0, off => off
  | n + 1, off => scanSize page n (off + 8 + getU32 page (off + 4))

/-- The `(key, right_child)` scan of internal pages. -/
def readItems (page : List Nat) : Nat → Nat → List (Int × Nat)
  | 0, _ => []
  | n + 1, off =>
    (((getU32 page off : Nat) : Int), getU32 page (off + 4)) ::
    readItems page n (off + 8)

def keyLe (a b : Cell) : Prop := a.key ≤ b.key

instance : DecidableRel keyLe := fun a b => inferInstanceAs (Decidable (a.key ≤ b.key))

instance : IsTotal Cell keyLe := ⟨fun a b => Int.le_total a.key b.key⟩

instance : IsTrans Cell keyLe := ⟨fun _ _ _ hab hbc => le_trans hab hbc⟩

def itemLe (a b : Int × Nat) : Prop := a.1 ≤ b.1

instance : DecidableRel itemLe := fun a b => inferInstanceAs (Decidable (a.1 ≤ b.1))

instance : IsTotal (Int × Nat) itemLe := ⟨fun a b => Int.le_total a.1 b.1⟩

instance : IsTrans (Int × Nat) itemLe := ⟨fun _ _ _ hab hbc => le_trans hab hbc⟩

/-! ### B-tree state and operations

`BTree` bundles the state the B-tree operates on: the page store as the
B-tree sees it through the virtual disk outside a transaction (a
write-through view: unwritten ids read as zero pages), the allocation
counter, the current `rootPageId`, and the metadata side-store.
Recursive descents carry a fuel bound (`FUEL`); the source would loop
forever on page graphs that exhaust it, and no reachable state does. -/

structure BTree where
  pages : Nat → List Nat
  maxPageId : Nat
  root : Nat
  meta : String → Option Nat

namespace BTree

def FUEL : Nat := 64

/-- The routing loop of `findLeafPage`: descend left of the first
separator strictly greater than the key, else into the last child. -/
def routeChild (p0 : Nat) (key : Int) : List (Int × Nat) → Nat
  | [] => p0
  | (k, rc) :: rest => if key < k then p0 else routeChild rc key rest

def findLeafPage (s : BTree) (key : Int) : Nat → Nat → Option Nat
  | 0, _ => none
  | fuel + 1, pid =>
    let page := s.pages pid
    if byteAt page 0 = 1 then some pid
    else
      findLeafPage s key fuel
        (routeChild (getU32 page 7) key (readItems page (getU16 page 1) 11))

def leafCellsOf (page : List Nat) : List Cell := readCells page (getU16 page 1) 7

mutual

/-- In-order traversal (`BTree.traverse`).  The source's guard for a
null/empty page is dead with the virtual disk (which returns zero pages
for unwritten ids) and is not modelled. -/
def traverse (s : BTree) : Nat → Nat → Option (List Cell)
  | 0, _ => none
  | fuel + 1, pid =>
    let page := s.pages pid
    if byteAt page 0 = 1 then some (leafCellsOf page)
    else
      traverseMany s fuel
        (getU32 page 7 :: (readItems page (getU16 page 1) 11).map Prod.snd)

def traverseMany (s : BTree) : Nat → List Nat → Option (List Cell)
  | _, [] => some []
  | fuel, c :: cs => do
    let r ← traverse s fuel c
    let rest ← traverseMany s fuel cs
    pure (r ++ rest)

end

def getAll (s : BTree) : Option (List Cell) := traverse s FUEL s.root

/-- The right-most descent of `findMaxInPage`. -/
def lastChild (p0 : Nat) (items : List (Int × Nat)) : Nat :=
  items.foldl (fun _ it => it.2) p0

def findMaxInPage (s : BTree) : Nat → Nat → Option Int
  | 0, _ => none
  | fuel + 1, pid =>
    let page := s.pages pid
    let n := getU16 page 1
    if n = 0 then some 0
    else if byteAt page 0 = 1 then
      some ((readCells page n 7).foldl (fun _ c => c.key) 0)
    else findMaxInPage s fuel (lastChild (getU32 page 7) (readItems page n 11))

def getMaxKey (s : BTree) : Option Int := findMaxInPage s FUEL s.root

/-- The scan of `findInLeaf`: return the payload of the first cell with
the target key. -/
def scanLeaf (page : List Nat) (key : Int) : Nat → Nat → Option (List Nat)
  | 0, _ => none
  | n + 1, off =>
    if ((getU32 page off : Nat) : Int) = key then
      some (listSlice page (off + 8) (getU32 page (off + 4)))
    else scanLeaf page key n (off + 8 + getU32 page (off + 4))

def search (s : BTree) (key : Int) : Except DbErr (Option (List Nat)) :=
  match findLeafPage s key FUEL s.root with
  | none => .error .fuelExhausted
  | some pid => .ok (scanLeaf (s.pages pid) key (getU16 (s.pages pid) 1) 7)

def leafBytesSize (cells : List Cell) : Nat :=
  7 + (cells.map (fun c => 8 + c.val.length)).sum

/-- `writeCellsToLeaf`: build a fresh zeroed page (type 1, cell count,
parent left 0) and write the cells.  If the cells do not fit in 4096
bytes, the typed-array write throws before the page reaches the disk. -/
def writeCellsToLeaf (s : BTree) (pid : Nat) (cells : List Cell) :
    Except DbErr Unit × BTree :=
  if leafBytesSize cells ≤ 4096 then
    (.ok (), { s with pages := setF s.pages pid (leafPage 0 cells) })
  else (.error .rangeError, s)

/-- `createGenericRoot`: allocate a new root, write it as a one-cell
internal node over the two children, update `rootPageId`, and persist
it under metadata key `root`. -/
def createGenericRoot (s : BTree) (key : Int) (leftChildId rightChildId : Nat) :
    Except DbErr Unit × BTree :=
  (.ok (), { s with
    maxPageId := s.maxPageId + 1,
    pages := setF s.pages (s.maxPageId + 1)
      (internalPage 0 leftChildId [(key, rightChildId)]),
    root := s.maxPageId + 1,
    meta := setS s.meta "root" (some (s.maxPageId + 1)) })

/-- `insertIntoInternal`: refuse pages that already hold 100 cells,
else re-read `child_0` and all `(key, right_child)` entries, add the
new entry, sort by key, and rewrite the page (type 0, new count, parent
copied). -/
def insertIntoInternal (s : BTree) (pid : Nat) (key : Int) (rightChildId : Nat) :
    Except DbErr Unit × BTree :=
  let page := s.pages pid
  let n := getU16 page 1
  if 100 ≤ n then (.error .indexPageFull, s)
  else
    let items := List.insertionSort itemLe (readItems page n 11 ++ [(key, rightChildId)])
    let pg := internalPage (getU32 page 3) (getU32 page 7) items
    (.ok (), { s with pages := setF s.pages pid pg })

/-- `splitLeaf`: read all cells, add the new one, sort by key, allocate
a page, write the left half back and the right half to the new page,
then promote `cells[mid].key` — to a fresh root if the split page was
the root, else into the page named by the (never-maintained) parent
pointer. -/
def splitLeaf (s : BTree) (pid : Nat) (key : Int) (v : List Nat) :
    Except DbErr Unit × BTree :=
  let page := s.pages pid
  let sorted := List.insertionSort keyLe
    (readCells page (getU16 page 1) 7 ++ [⟨key, v.length, v⟩])
  let newPageId := s.maxPageId + 1
  let s1 := { s with maxPageId := newPageId }
  let mid := sorted.length / 2
  let splitKey := (sorted.getD mid ⟨0, 0, []⟩).key
  match writeCellsToLeaf s1 pid (sorted.take mid) with
  | (.error e, s2) => (.error e, s2)
  | (.ok _, s2) =>
    match writeCellsToLeaf s2 newPageId (sorted.drop mid) with
    | (.error e, s3) => (.error e, s3)
    | (.ok _, s3) =>
      if pid = s.root then createGenericRoot s3 splitKey pid newPageId
      else insertIntoInternal s3 (getU32 page 3) splitKey newPageId

/-- `insertIntoLeaf`: scan the leaf; an existing equal key is a
duplicate-key error (before anything is written); if the cell does not
fit, split; otherwise rewrite the leaf with the new cell at the first
position whose key exceeds it (header copied byte-for-byte, count
incremented). -/
def insertIntoLeaf (s : BTree) (pid : Nat) (key : Int) (v : List Nat) :
    Except DbErr Unit × BTree :=
  let page := s.pages pid
  let n := getU16 page 1
  let cells := readCells page n 7
  if cells.any (fun c => c.key == key) then (.error (.duplicateKey key), s)
  else if 4096 < scanSize page n 7 + (8 + v.length) then splitLeaf s pid key v
  else
    let idx := (cells.takeWhile (fun c => !(decide (key < c.key)))).length
    let cells' := cells.take idx ++ ⟨key, v.length, v⟩ :: cells.drop idx
    let pg := pad4096 ([byteAt page 0] ++ be16 (n + 1) ++
      [byteAt page 3, byteAt page 4, byteAt page 5, byteAt page 6] ++
      cells'.flatMap copyCellBytes)
    (.ok (), { s with pages := setF s.pages pid pg })

def insert (s : BTree) (key : Int) (v : List Nat) : Except DbErr Unit × BTree :=
  match findLeafPage s key FUEL s.root with
  | none => (.error .fuelExhausted, s)
  | some pid => insertIntoLeaf s pid key v

/-- `delete`: walk to the target leaf and rewrite it omitting every
cell with the target key (type set to 1, parent copied); if no cell
matched, throw and write nothing.  The size guard models the
typed-array bound; it cannot fire on well-formed pages. -/
def delete (s : BTree) (key : Int) : Except DbErr Unit × BTree :=
  match findLeafPage s key FUEL s.root with
  | none => (.error .fuelExhausted, s)
  | some pid =>
    let page := s.pages pid
    let n := getU16 page 1
    let cells := readCells page n 7
    let kept : List Cell := cells.filter (fun c => !(c.key == key))
    if 4096 < 7 + (kept.map (fun c => 8 + c.len)).sum then (.error .rangeError, s)
    else if cells.any (fun c => c.key == key) then
      let pg := pad4096 ([1] ++ be16 kept.length ++ be32 (getU32 page 3) ++
        kept.flatMap copyCellBytes)
      (.ok (), { s with pages := setF s.pages pid pg })
    else (.error (.keyNotFound key), s)

/-- The `BTree` constructor: if the root page's first four bytes are
zero, write a fresh empty-leaf header onto it. -/
def construct (pages : Nat → List Nat) (rootId : Nat) : Nat → List Nat :=
  if byteAt (pages rootId) 0 = 0 ∧ byteAt (pages rootId) 1 = 0 ∧
      byteAt (pages rootId) 2 = 0 ∧ byteAt (pages rootId) 3 = 0 then
    setF pages rootId ([1, 0, 0, 0, 0, 0, 0] ++ (pages rootId).drop 7)
  else pages

end BTree

/-- The empty B-tree: the state after `CREATE TABLE` allocates page 1
as the root on a fresh disk and the `BTree` constructor initializes
it. -/
def emptyBT : BTree :=
  { pages := BTree.construct (fun _ => List.replicate 4096 0) 1,
    maxPageId := 1,
    root := 1,
    meta := fun _ => none }

/-- One successful B-tree mutation.  Keys are the spec's `uint32`
interface type (§4.3: "an ordered map `uint32 → bytes`"), and payloads
are byte arrays. -/
inductive Step : BTree → BTree → Prop where
  | insert (s : BTree) (key : Int) (v : List Nat)
      (hk0 : 0 ≤ key) (hk : key < 4294967296) (hv : ∀ b ∈ v, b < 256)
      (h : (BTree.insert s key v).1 = .ok ()) :
      Step s (BTree.insert s key v).2
  | delete (s : BTree) (key : Int)
      (h : (BTree.delete s key).1 = .ok ()) :
      Step s (BTree.delete s key).2

/-- States produced from the empty tree by a sequence of successful
insert and delete operations. -/
inductive Reachable : BTree → Prop where
  | init : Reachable emptyBT
  | step {s s' : BTree} : Reachable s → Step s s' → Reachable s'

/-! ### Table layer (`Table.insert` in `src/lib/btree.ts`) -/

/-- The code points of the literal marker string `'NULL'`. -/
def nullMarker : List Nat := [78, 85, 76, 76]

/-- Placing named `INSERT` values: for each `(column name, value)` pair
look up the schema index (first match) and overwrite that slot of the
normalized row. -/
def placeNamed (cols : List Column) :
    List (String × Value) → List (Option Value) → Except DbErr (List (Option Value))
  | [], acc => .ok acc
  | (name, v) :: rest, acc =>
    match cols.findIdx? (fun c => c.name == name) with
    | none => .error (.columnNotFound name)
    | some i => placeNamed cols rest (acc.set i (some v))

/-- Normalizing the input of `Table.insert` to one slot per schema
column (`null` = absent). -/
def normalizeValues (cols : List Column) (values : List Value)
    (columns : Option (List String)) : Except DbErr (List (Option Value)) :=
  match columns with
  | some colNames =>
    if colNames.length ≠ values.length then .error .columnCountMismatch
    else placeNamed cols (colNames.zip values) (List.replicate cols.length none)
  | none =>
    if values.length ≠ cols.length then .error .columnCountMismatch
    else .ok (values.map some)

/-- The per-column loop of `Table.insert`: primary-key resolution
(auto-increment from `schema.seq || btree.getMaxKey()` when the slot is
absent or the literal `'NULL'`; a supplied value must be a number),
null rejection, type validation, and row construction.  `seqv` is
`schema.seq` (0 = unset, which is also how JavaScript's `||` treats
it); `maxKey` is the lazily-consulted `btree.getMaxKey()`. -/
def buildRowAux (seqv : Nat) (maxKey : Option Int) :
    List Column → List (Option Value) → Row → Option Int →
    Except DbErr (Row × Option Int)
  | [], _, row, pk => .ok (row, pk)
  | c :: cs, vals, row, pk =>
    let v0 := vals.headD none
    let pkStep : Except DbErr (Option Value × Option Int) :=
      if c.isPrimaryKey then
        if v0 = none ∨ v0 = some (.str nullMarker) then
          match maxKey with
          | none => .error .fuelExhausted
          | some m =>
            let lastSeq : Int := if seqv ≠ 0 then (seqv : Int) else m
            .ok (some (.int (lastSeq + 1)), some (lastSeq + 1))
        else
          match v0 with
          | some (.int i) => .ok (v0, some i)
          | _ => .error .invalidPk
      else .ok (v0, pk)
    match pkStep with
    | .error e => .error e
    | .ok (valOpt, pk') =>
      match valOpt with
      | none => .error (.nullValue c.name)
      | some v =>
        if validateType v c.type then
          buildRowAux seqv maxKey cs vals.tail (rowSet row c.name v) pk'
        else .error (.typeMismatch c.name)

/-- A table's mutable state: its B-tree and its `schema.seq` counter
(0 models the initially-undefined counter; JavaScript's `||` conflates
the two). -/
structure TableState where
  bt : BTree
  seq : Nat

/-- `Table.insert`: normalize the values, run the column loop, encode
the row, insert it at the primary key, and on success advance
`schema.seq` if the key exceeds it.  The result carries the assigned
primary key.  A thrown B-tree error propagates with whatever partial
page writes it left behind. -/
def tableInsert (cols : List Column) (ts : TableState) (values : List Value)
    (columns : Option (List String)) : Except DbErr Int × TableState :=
  match normalizeValues cols values columns with
  | .error e => (.error e, ts)
  | .ok rvs =>
    match buildRowAux ts.seq (BTree.getMaxKey ts.bt) cols rvs [] none with
    | .error e => (.error e, ts)
    | .ok (row, pkOpt) =>
      match pkOpt with
      | none => (.error .noPk, ts)
      | some pk =>
        match serializeRow cols row with
        | .error e => (.error e, ts)
        | .ok data =>
          match BTree.insert ts.bt pk data with
          | (.ok _, bt') =>
            (.ok pk, { bt := bt', seq := if (ts.seq : Int) < pk then pk.toNat else ts.seq })
          | (.error e, bt') => (.error e, { ts with bt := bt' })

/-! ### Well-formedness predicates and the reachability invariant -/

/-- A well-formed cell as stored on a well-formed leaf page: the key is
in `uint32` range, the stored size field matches the payload, and the
payload is made of bytes. -/
def WfCell (c : Cell) : Prop :=
  0 ≤ c.key ∧ c.key < 4294967296 ∧ c.len = c.val.length ∧
    c.val.length < 4294967296 ∧ ∀ b ∈ c.val, b < 256

instance (c : Cell) : Decidable (WfCell c) := by
  unfold WfCell; infer_instance

/-- A well-formed leaf payload: well-formed cells, strictly increasing
keys, fitting in one page. -/
def WfLeaf (cs : List Cell) : Prop :=
  (∀ c ∈ cs, WfCell c) ∧ cs.Pairwise (fun a b => a.key < b.key) ∧
    BTree.leafBytesSize cs ≤ 4096

instance (cs : List Cell) : Decidable (WfLeaf cs) := by
  unfold WfLeaf; infer_instance

/-- The invariant of reachable B-tree states.  Because the source never
maintains parent pointers, every leaf written after the first root
split carries `parent = 0`, so `insertIntoInternal` always targets page
0 (an orphan never reachable from the root) and the root never gains a
second separator: a reachable tree is either the original root leaf
(page 1), or the fixed three-page shape produced by the one possible
root split — internal root on page 3 over left leaf 1 and right leaf 2.
Pages 0 and ≥ 4 may hold arbitrary orphaned data. -/
def Inv (s : BTree) : Prop :=
  (s.root = 1 ∧ s.maxPageId = 1 ∧ ∃ cs, s.pages 1 = leafPage 0 cs ∧ WfLeaf cs) ∨
  (s.root = 3 ∧ 3 ≤ s.maxPageId ∧ ∃ sep csL csR,
    s.pages 3 = internalPage 0 1 [(sep, 2)] ∧
    s.pages 1 = leafPage 0 csL ∧ WfLeaf csL ∧
    s.pages 2 = leafPage 0 csR ∧ WfLeaf csR ∧
    0 ≤ sep ∧ sep < 4294967296 ∧
    (∀ c ∈ csL, c.key < sep) ∧ (∀ c ∈ csR, sep ≤ c.key))

/-- A schema-conforming, codec-safe column value: an INTEGER column
holds a 32-bit integer; a TEXT column holds a string of Unicode scalar
values without NUL whose UTF-8 encoding fits the 16-bit length field.
These are the conditions under which the row codec round-trips. -/
def ValidPair : Column × Value → Prop
  | (c, .int i) => c.type = .integer ∧ -2147483648 ≤ i ∧ i < 2147483648
  | (c, .str s) => c.type = .text ∧ (∀ ch ∈ s, IsScalar ch) ∧ 0 ∉ s ∧
      (utf8Encode s).length < 65536

instance (p : Column × Value) : Decidable (ValidPair p) := by
  rcases p with ⟨c, i | s⟩
  · exact inferInstanceAs (Decidable (c.type = .integer ∧ _ ∧ _))
  · exact inferInstanceAs (Decidable (c.type = .text ∧ _ ∧ _ ∧ _))

/-! ## Lemmas: byte-level reads -/

theorem byteAt_drop (l : List Nat) (n i : Nat) :
    byteAt (l.drop n) i = byteAt l (n + i) := by
  simp [byteAt, List.getD_eq_getElem?_getD, List.getElem?_drop]

theorem byteAt_replicate (n i : Nat) : byteAt (List.replicate n 0) i = 0 := by
  simp [byteAt, List.getD_eq_getElem?_getD, List.getElem?_replicate]
  split <;> simp

theorem byteAt_append_left (l r : List Nat) (i : Nat) (h : i < l.length) :
    byteAt (l ++ r) i = byteAt l i :=
  List.getD_append l r 0 i h

theorem byteAt_pad4096 (l : List Nat) (i : Nat) :
    byteAt (pad4096 l) i = byteAt l i := by
  unfold pad4096
  rcases Nat.lt_or_ge i l.length with h | h
  · exact byteAt_append_left _ _ _ h
  · unfold byteAt
    rw [List.getD_append_right _ _ _ _ h]
    have h1 : (List.replicate (4096 - l.length) 0).getD (i - l.length) 0 = 0 :=
      byteAt_replicate _ _
    rw [h1]
    simp [List.getD_eq_getElem?_getD, List.getElem?_eq_none h]

theorem getU16_drop (l : List Nat) (n : Nat) : getU16 l n = getU16 (l.drop n) 0 := by
  simp [getU16, byteAt_drop]

theorem getU32_drop (l : List Nat) (n : Nat) : getU32 l n = getU32 (l.drop n) 0 := by
  simp [getU32, byteAt_drop]

theorem byteAt_cons_zero (b : Nat) (rest : List Nat) : byteAt (b :: rest) 0 = b := rfl

theorem be16_length (n : Nat) : (be16 n).length = 2 := rfl

theorem be32_length (n : Nat) : (be32 n).length = 4 := rfl

theorem be32I_length (k : Int) : (be32I k).length = 4 := rfl

theorem getU16_be16 (n : Nat) (rest : List Nat) (h : n < 65536) :
    getU16 (be16 n ++ rest) 0 = n := by
  simp [getU16, be16, byteAt]
  omega

theorem getU32_be32 (n : Nat) (rest : List Nat) (h : n < 4294967296) :
    getU32 (be32 n ++ rest) 0 = n := by
  simp [getU32, be32, byteAt]
  omega

theorem getU32_be32I (k : Int) (rest : List Nat) (h0 : 0 ≤ k) (h : k < 4294967296) :
    ((getU32 (be32I k ++ rest) 0 : Nat) : Int) = k := by
  unfold be32I
  rw [getU32_be32 _ _ (by omega)]
  omega

theorem listSlice_exact (mid tail : List Nat) (len : Nat) (h : mid.length = len) :
    listSlice (mid ++ tail) 0 len = mid := by
  simp [listSlice, List.take_left' h]

/-- `%256`-mapping is the identity on byte lists. -/
theorem map_mod256_eq (v : List Nat) (h : ∀ b ∈ v, b < 256) :
    v.map (fun b => b % 256) = v := by
  induction v with
  | nil => rfl
  | cons b rest ih =>
    simp only [List.map_cons, List.cons.injEq]
    constructor
    · exact Nat.mod_eq_of_lt (h b (by simp))
    · exact ih (fun x hx => h x (by simp [hx]))

theorem cellBytes_length (c : Cell) : (cellBytes c).length = 8 + c.val.length := by
  simp [cellBytes, be32I, be32]
  omega

theorem copyCellBytes_eq_cellBytes (c : Cell) (h : c.len = c.val.length) :
    copyCellBytes c = cellBytes c := by
  simp [copyCellBytes, cellBytes, h]

/-! ## Lemmas: parsing well-formed pages -/

theorem drop_add (l : List Nat) (a b : Nat) : l.drop (a + b) = (l.drop a).drop b :=
  (List.drop_drop b a l).symm

theorem readCells_of_drop (page : List Nat) (cs : List Cell) (tail : List Nat)
    (off : Nat) (hd : page.drop off = cs.flatMap cellBytes ++ tail)
    (hwf : ∀ c ∈ cs, WfCell c) :
    readCells page cs.length off = cs := by
  induction cs generalizing off with
  | nil => rfl
  | cons c rest ih =>
    obtain ⟨hk0, hk, hlen, hvlen, hbytes⟩ := hwf c (by simp)
    have hd0 : page.drop off =
        be32I c.key ++ (be32 c.val.length ++ (c.val.map (fun b => b % 256) ++
          (rest.flatMap cellBytes ++ tail))) := by
      rw [hd]; simp [cellBytes]
    have hkey : ((getU32 page off : Nat) : Int) = c.key := by
      rw [getU32_drop, hd0]; exact getU32_be32I _ _ hk0 hk
    have hd4 : page.drop (off + 4) =
        be32 c.val.length ++ (c.val.map (fun b => b % 256) ++
          (rest.flatMap cellBytes ++ tail)) := by
      rw [drop_add, hd0, List.drop_left' (be32I_length c.key)]
    have hsz : getU32 page (off + 4) = c.val.length := by
      rw [getU32_drop, hd4]; exact getU32_be32 _ _ hvlen
    have hd8 : page.drop (off + 8) =
        c.val.map (fun b => b % 256) ++ (rest.flatMap cellBytes ++ tail) := by
      have e : off + 8 = off + 4 + 4 := by omega
      rw [e, drop_add, hd4, List.drop_left' (be32_length c.val.length)]
    have hslice : listSlice page (off + 8) (getU32 page (off + 4)) = c.val := by
      rw [hsz]
      unfold listSlice
      rw [hd8, List.take_left' (by simp), map_mod256_eq _ hbytes]
    have hdnext : page.drop (off + 8 + c.val.length) =
        rest.flatMap cellBytes ++ tail := by
      rw [drop_add, hd8, List.drop_left' (by simp)]
    show readCells page (rest.length + 1) off = c :: rest
    rw [readCells]
    have hrest := ih (off + 8 + c.val.length) (by rw [← hdnext])
      (fun d hdm => hwf d (List.mem_cons_of_mem _ hdm))
    rw [hsz] at *
    simp only [hkey, hslice]
    rw [hrest]
    have hc : c = ⟨c.key, c.val.length, c.val⟩ := by
      cases c with
      | mk k l v => simp at hlen ⊢; omega
    exact congrArg (· :: rest) hc.symm

theorem scanSize_of_drop (page : List Nat) (cs : List Cell) (tail : List Nat)
    (off : Nat) (hd : page.drop off = cs.flatMap cellBytes ++ tail)
    (hwf : ∀ c ∈ cs, WfCell c) :
    scanSize page cs.length off = off + (cs.map (fun c => 8 + c.val.length)).sum := by
  induction cs generalizing off with
  | nil => simp [scanSize]
  | cons c rest ih =>
    obtain ⟨hk0, hk, hlen, hvlen, hbytes⟩ := hwf c (by simp)
    have hd0 : page.drop off =
        be32I c.key ++ (be32 c.val.length ++ (c.val.map (fun b => b % 256) ++
          (rest.flatMap cellBytes ++ tail))) := by
      rw [hd]; simp [cellBytes]
    have hd4 : page.drop (off + 4) =
        be32 c.val.length ++ (c.val.map (fun b => b % 256) ++
          (rest.flatMap cellBytes ++ tail)) := by
      rw [drop_add, hd0, List.drop_left' (be32I_length c.key)]
    have hsz : getU32 page (off + 4) = c.val.length := by
      rw [getU32_drop, hd4]; exact getU32_be32 _ _ hvlen
    have hd8 : page.drop (off + 8) =
        c.val.map (fun b => b % 256) ++ (rest.flatMap cellBytes ++ tail) := by
      have e : off + 8 = off + 4 + 4 := by omega
      rw [e, drop_add, hd4, List.drop_left' (be32_length c.val.length)]
    have hdnext : page.drop (off + 8 + c.val.length) =
        rest.flatMap cellBytes ++ tail := by
      rw [drop_add, hd8, List.drop_left' (by simp)]
    show scanSize page (rest.length + 1) off = _
    rw [scanSize, hsz]
    rw [ih (off + 8 + c.val.length) hdnext
      (fun d hdm => hwf d (List.mem_cons_of_mem _ hdm))]
    simp
    omega

theorem readItems_of_drop (page : List Nat) (items : List (Int × Nat))
    (tail : List Nat) (off : Nat)
    (hd : page.drop off = items.flatMap itemBytes ++ tail)
    (hwf : ∀ it ∈ items, 0 ≤ it.1 ∧ it.1 < 4294967296 ∧ it.2 < 4294967296) :
    readItems page items.length off = items := by
  induction items generalizing off with
  | nil => rfl
  | cons it rest ih =>
    obtain ⟨hk0, hk, hc⟩ := hwf it (by simp)
    have hd0 : page.drop off =
        be32I it.1 ++ (be32 it.2 ++ (rest.flatMap itemBytes ++ tail)) := by
      rw [hd]; simp [itemBytes]
    have hkey : ((getU32 page off : Nat) : Int) = it.1 := by
      rw [getU32_drop, hd0]; exact getU32_be32I _ _ hk0 hk
    have hd4 : page.drop (off + 4) =
        be32 it.2 ++ (rest.flatMap itemBytes ++ tail) := by
      rw [drop_add, hd0, List.drop_left' (be32I_length it.1)]
    have hchild : getU32 page (off + 4) = it.2 := by
      rw [getU32_drop, hd4]; exact getU32_be32 _ _ hc
    have hdnext : page.drop (off + 8) = rest.flatMap itemBytes ++ tail := by
      have e : off + 8 = off + 4 + 4 := by omega
      rw [e, drop_add, hd4, List.drop_left' (be32_length it.2)]
    show readItems page (rest.length + 1) off = it :: rest
    rw [readItems, hkey, hchild,
      ih (off + 8) hdnext (fun d hdm => hwf d (List.mem_cons_of_mem _ hdm))]

/-! ## Lemmas: reading back whole pages -/

theorem leafPage_parse (p : Nat) (cs : List Cell)
    (hn : cs.length < 65536) (hp : p < 4294967296)
    (hwf : ∀ c ∈ cs, WfCell c) :
    byteAt (leafPage p cs) 0 = 1 ∧
    getU16 (leafPage p cs) 1 = cs.length ∧
    getU32 (leafPage p cs) 3 = p ∧
    BTree.leafCellsOf (leafPage p cs) = cs ∧
    scanSize (leafPage p cs) cs.length 7 = BTree.leafBytesSize cs := by
  set Z := List.replicate (4096 - ([1] ++ be16 cs.length ++ be32 p ++ cs.flatMap cellBytes).length) 0 with hZ
  have e0 : leafPage p cs =
      1 :: (be16 cs.length ++ (be32 p ++ (cs.flatMap cellBytes ++ Z))) := by
    simp [leafPage, pad4096, hZ]
  have h0 : byteAt (leafPage p cs) 0 = 1 := by rw [e0]; rfl
  have e1 : (leafPage p cs).drop 1 =
      be16 cs.length ++ (be32 p ++ (cs.flatMap cellBytes ++ Z)) := by
    rw [e0]; rfl
  have h1 : getU16 (leafPage p cs) 1 = cs.length := by
    rw [getU16_drop, e1, getU16_be16 _ _ hn]
  have e3 : (leafPage p cs).drop 3 = be32 p ++ (cs.flatMap cellBytes ++ Z) := by
    have e : (3 : Nat) = 1 + 2 := by omega
    rw [e, drop_add, e1, List.drop_left' (be16_length cs.length)]
  have h3 : getU32 (leafPage p cs) 3 = p := by
    rw [getU32_drop, e3, getU32_be32 _ _ hp]
  have e7 : (leafPage p cs).drop 7 = cs.flatMap cellBytes ++ Z := by
    have e : (7 : Nat) = 3 + 4 := by omega
    rw [e, drop_add, e3, List.drop_left' (be32_length p)]
  have h4 : BTree.leafCellsOf (leafPage p cs) = cs := by
    unfold BTree.leafCellsOf
    rw [h1]
    exact readCells_of_drop _ _ _ _ e7 hwf
  have h5 : scanSize (leafPage p cs) cs.length 7 = BTree.leafBytesSize cs := by
    rw [scanSize_of_drop _ _ _ _ e7 hwf]
    unfold BTree.leafBytesSize
    omega
  exact ⟨h0, h1, h3, h4, h5⟩

theorem internalPage_parse (parent p0 : Nat) (items : List (Int × Nat))
    (hn : items.length < 65536) (hpar : parent < 4294967296) (hp0 : p0 < 4294967296)
    (hwf : ∀ it ∈ items, 0 ≤ it.1 ∧ it.1 < 4294967296 ∧ it.2 < 4294967296) :
    byteAt (internalPage parent p0 items) 0 = 0 ∧
    getU16 (internalPage parent p0 items) 1 = items.length ∧
    getU32 (internalPage parent p0 items) 3 = parent ∧
    getU32 (internalPage parent p0 items) 7 = p0 ∧
    readItems (internalPage parent p0 items) items.length 11 = items := by
  set Z := List.replicate
    (4096 - ([0] ++ be16 items.length ++ be32 parent ++ be32 p0 ++ items.flatMap itemBytes).length) 0 with hZ
  have e0 : internalPage parent p0 items =
      0 :: (be16 items.length ++ (be32 parent ++ (be32 p0 ++ (items.flatMap itemBytes ++ Z)))) := by
    simp [internalPage, pad4096, hZ]
  have h0 : byteAt (internalPage parent p0 items) 0 = 0 := by rw [e0]; rfl
  have e1 : (internalPage parent p0 items).drop 1 =
      be16 items.length ++ (be32 parent ++ (be32 p0 ++ (items.flatMap itemBytes ++ Z))) := by
    rw [e0]; rfl
  have h1 : getU16 (internalPage parent p0 items) 1 = items.length := by
    rw [getU16_drop, e1, getU16_be16 _ _ hn]
  have e3 : (internalPage parent p0 items).drop 3 =
      be32 parent ++ (be32 p0 ++ (items.flatMap itemBytes ++ Z)) := by
    have e : (3 : Nat) = 1 + 2 := by omega
    rw [e, drop_add, e1, List.drop_left' (be16_length items.length)]
  have h3 : getU32 (internalPage parent p0 items) 3 = parent := by
    rw [getU32_drop, e3, getU32_be32 _ _ hpar]
  have e7 : (internalPage parent p0 items).drop 7 =
      be32 p0 ++ (items.flatMap itemBytes ++ Z) := by
    have e : (7 : Nat) = 3 + 4 := by omega
    rw [e, drop_add, e3, List.drop_left' (be32_length parent)]
  have h7 : getU32 (internalPage parent p0 items) 7 = p0 := by
    rw [getU32_drop, e7, getU32_be32 _ _ hp0]
  have e11 : (internalPage parent p0 items).drop 11 =
      items.flatMap itemBytes ++ Z := by
    have e : (11 : Nat) = 7 + 4 := by omega
    rw [e, drop_add, e7, List.drop_left' (be32_length p0)]
  have h11 : readItems (internalPage parent p0 items) items.length 11 = items :=
    readItems_of_drop _ _ _ _ e11 hwf
  exact ⟨h0, h1, h3, h7, h11⟩

/-! ## Lemmas: sortedness -/

/-- Strictly-increasing key order of a cell list. -/
def KeySorted (cs : List Cell) : Prop := cs.Pairwise (fun a b => a.key < b.key)

theorem keySorted_of_le_nodup (l : List Cell)
    (h1 : l.Pairwise keyLe) (h2 : (l.map Cell.key).Nodup) : KeySorted l := by
  induction l with
  | nil => exact List.Pairwise.nil
  | cons c rest ih =>
    rw [List.pairwise_cons] at h1
    simp only [List.map_cons, List.nodup_cons] at h2
    refine List.Pairwise.cons (fun b hb => ?_) (ih h1.2 h2.2)
    have hle : c.key ≤ b.key := h1.1 b hb
    have hne : c.key ≠ b.key := by
      intro he
      exact h2.1 (he ▸ List.mem_map_of_mem Cell.key hb)
    omega

theorem dropWhile_head_false {α : Type} (q : α → Bool) (l : List α) (b : α)
    (B : List α) (h : l.dropWhile q = b :: B) : q b = false := by
  induction l with
  | nil => simp [List.dropWhile] at h
  | cons a rest ih =>
    rw [List.dropWhile_cons] at h
    by_cases hq : q a
    · rw [if_pos hq] at h; exact ih h
    · rw [if_neg hq] at h
      cases h
      simpa using hq

/-- Inserting a fresh key at the first position whose key exceeds it
keeps a leaf strictly sorted (the rewrite `insertIntoLeaf` performs). -/
theorem keySorted_insert_at (cells : List Cell) (c : Cell)
    (hs : KeySorted cells)
    (hne : ∀ d ∈ cells, d.key ≠ c.key) :
    KeySorted (cells.take ((cells.takeWhile (fun d => !(decide (c.key < d.key)))).length) ++
      c :: cells.drop ((cells.takeWhile (fun d => !(decide (c.key < d.key)))).length)) := by
  set q : Cell → Bool := fun d => !(decide (c.key < d.key)) with hqdef
  have htake : cells.take ((cells.takeWhile q).length) = cells.takeWhile q :=
    (List.prefix_iff_eq_take.mp (List.takeWhile_prefix q)).symm
  have hdrop : cells.drop ((cells.takeWhile q).length) = cells.dropWhile q := by
    nth_rewrite 2 [← List.takeWhile_append_dropWhile q cells]
    rw [List.drop_left]
  rw [htake, hdrop]
  have hsplit : KeySorted (cells.takeWhile q ++ cells.dropWhile q) := by
    rw [List.takeWhile_append_dropWhile q cells]; exact hs
  rw [KeySorted, List.pairwise_append] at hsplit
  obtain ⟨hA, hB, hAB⟩ := hsplit
  rw [KeySorted, List.pairwise_append]
  refine ⟨hA, ?_, ?_⟩
  · -- `c :: dropWhile q cells` is sorted: the head of the suffix fails
    -- `q`, so its key exceeds `c.key`, and pairwise order carries on.
    rw [List.pairwise_cons]
    refine ⟨fun b hb => ?_, hB⟩
    cases hdw : cells.dropWhile q with
    | nil => rw [hdw] at hb; simp at hb
    | cons b0 B =>
      have hq0 : q b0 = false := dropWhile_head_false q cells b0 B hdw
      have hcb0 : c.key < b0.key := by
        simp [hqdef] at hq0; exact hq0
      rw [hdw] at hb
      rcases List.mem_cons.mp hb with he | hmem
      · rw [he]; exact hcb0
      · have : b0.key < b.key := by
          rw [hdw] at hB
          exact (List.pairwise_cons.mp hB).1 b hmem
        omega
  · intro a ha b hb
    have haq : q a = true := List.mem_takeWhile_imp ha
    have hale : a.key ≤ c.key := by
      simp [hqdef] at haq; omega
    have hane : a.key ≠ c.key :=
      hne a (List.IsPrefix.subset (List.takeWhile_prefix q) ha)
    rcases List.mem_cons.mp hb with he | hmem
    · rw [he]; omega
    · exact hAB a ha b hmem

theorem keySorted_take (cs : List Cell) (n : Nat) (h : KeySorted cs) :
    KeySorted (cs.take n) :=
  List.Pairwise.sublist (List.take_sublist n cs) h

theorem keySorted_drop (cs : List Cell) (n : Nat) (h : KeySorted cs) :
    KeySorted (cs.drop n) :=
  List.Pairwise.sublist (List.drop_sublist n cs) h

theorem keySorted_cross (cs : List Cell) (n : Nat) (h : KeySorted cs) :
    ∀ a ∈ cs.take n, ∀ b ∈ cs.drop n, a.key < b.key := by
  have := h
  rw [KeySorted] at this
  conv at this => rw [← List.take_append_drop n cs]
  rw [List.pairwise_append] at this
  exact this.2.2

theorem keySorted_drop_head_le (cs : List Cell) (n : Nat) (h : KeySorted cs)
    (hn : n < cs.length) :
    ∀ b ∈ cs.drop n, (cs.getD n ⟨0, 0, []⟩).key ≤ b.key := by
  intro b hb
  rw [List.getD_eq_getElem cs _ hn]
  rw [List.drop_eq_getElem_cons hn] at hb
  rcases List.mem_cons.mp hb with he | hmem
  · rw [he]
  · have hd := keySorted_drop cs n h
    rw [List.drop_eq_getElem_cons hn, KeySorted, List.pairwise_cons] at hd
    exact le_of_lt (hd.1 b hmem)

theorem keySorted_take_lt_mid (cs : List Cell) (n : Nat) (h : KeySorted cs)
    (hn : n < cs.length) :
    ∀ a ∈ cs.take n, a.key < (cs.getD n ⟨0, 0, []⟩).key := by
  intro a ha
  rw [List.getD_eq_getElem cs _ hn]
  have hcross := keySorted_cross cs n h
  have hmem : cs[n] ∈ cs.drop n := by
    rw [List.drop_eq_getElem_cons hn]
    exact List.mem_cons_self _ _
  exact hcross a ha _ hmem

/-- Sorting a well-formed leaf's cells together with one fresh cell
(what `splitLeaf` does) yields a strictly sorted permutation. -/
theorem sort_fresh_sorted (cs : List Cell) (c : Cell)
    (hs : KeySorted cs) (hne : ∀ d ∈ cs, d.key ≠ c.key) :
    List.Perm (List.insertionSort keyLe (cs ++ [c])) (cs ++ [c]) ∧
    KeySorted (List.insertionSort keyLe (cs ++ [c])) := by
  have hperm := List.perm_insertionSort keyLe (cs ++ [c])
  refine ⟨hperm, ?_⟩
  have hsorted := List.sorted_insertionSort keyLe (cs ++ [c])
  have hnodup : ((cs ++ [c]).map Cell.key).Nodup := by
    rw [List.map_append, List.nodup_append]
    refine ⟨?_, by simp, ?_⟩
    · have : (cs.map Cell.key).Pairwise (· < ·) := by
        exact List.pairwise_map.mpr hs
      exact this.imp (fun hab => by omega)
    · intro a ha
      simp only [List.map_cons, List.map_nil, List.mem_singleton]
      obtain ⟨d, hd, hda⟩ := List.mem_map.mp ha
      intro he
      exact hne d hd (by rw [hda, he])
  have hnodup' : ((List.insertionSort keyLe (cs ++ [c])).map Cell.key).Nodup :=
    (List.Perm.map Cell.key hperm).nodup_iff.mpr hnodup
  exact keySorted_of_le_nodup _ hsorted hnodup'

/-! ## Lemmas: small state helpers -/

theorem setF_same {α : Type} (f : Nat → α) (i : Nat) (v : α) : setF f i v i = v := by
  simp [setF]

theorem setF_other {α : Type} (f : Nat → α) (i j : Nat) (v : α) (h : j ≠ i) :
    setF f i v j = f j := by
  simp [setF, h]

theorem setS_same {α : Type} (f : String → α) (k : String) (v : α) : setS f k v k = v := by
  simp [setS]

theorem setS_other {α : Type} (f : String → α) (k j : String) (v : α) (h : j ≠ k) :
    setS f k v j = f j := by
  simp [setS, h]

theorem sum_sizes_ge (cs : List Cell) :
    8 * cs.length ≤ (cs.map (fun c => 8 + c.val.length)).sum := by
  induction cs with
  | nil => simp
  | cons c rest ih => simp; omega

theorem wfLeaf_length_lt (cs : List Cell) (h : BTree.leafBytesSize cs ≤ 4096) :
    cs.length < 65536 := by
  have := sum_sizes_ge cs
  unfold BTree.leafBytesSize at h
  omega

theorem size_insert_at (cs : List Cell) (c : Cell) (i : Nat) :
    BTree.leafBytesSize (cs.take i ++ c :: cs.drop i) =
      BTree.leafBytesSize cs + (8 + c.val.length) := by
  unfold BTree.leafBytesSize
  have hsplit := congrArg (fun l => (l.map (fun c => 8 + c.val.length)).sum)
    (List.take_append_drop i cs)
  simp only [List.map_append, List.sum_append] at hsplit
  simp only [List.map_append, List.sum_append, List.map_cons, List.sum_cons]
  omega

theorem flatMap_copy_eq (cs : List Cell) (h : ∀ c ∈ cs, c.len = c.val.length) :
    cs.flatMap copyCellBytes = cs.flatMap cellBytes := by
  induction cs with
  | nil => rfl
  | cons c rest ih =>
    simp only [List.flatMap_cons]
    rw [copyCellBytes_eq_cellBytes c (h c (by simp)),
      ih (fun d hd => h d (List.mem_cons_of_mem _ hd))]

theorem any_key_iff (cs : List Cell) (key : Int) :
    cs.any (fun c => c.key == key) = true ↔ key ∈ cs.map Cell.key := by
  rw [List.any_eq_true]
  constructor
  · rintro ⟨c, hc, he⟩
    exact (beq_iff_eq.mp he) ▸ List.mem_map_of_mem Cell.key hc
  · intro h
    obtain ⟨c, hc, he⟩ := List.mem_map.mp h
    exact ⟨c, hc, beq_iff_eq.mpr he⟩

/-! ## Lemmas: `insertIntoLeaf` on a well-formed leaf -/

theorem insertIntoLeaf_dup (s : BTree) (pid : Nat) (key : Int) (v : List Nat)
    (cs : List Cell) (hpage : s.pages pid = leafPage 0 cs) (hwf : WfLeaf cs)
    (hdup : key ∈ cs.map Cell.key) :
    BTree.insertIntoLeaf s pid key v = (.error (.duplicateKey key), s) := by
  obtain ⟨hcells, hsorted, hsize⟩ := hwf
  obtain ⟨_, hn, _, hparse, _⟩ :=
    leafPage_parse 0 cs (wfLeaf_length_lt cs hsize) (by omega) hcells
  unfold BTree.leafCellsOf at hparse
  rw [hn] at hparse
  have hany : cs.any (fun c => c.key == key) = true := (any_key_iff cs key).mpr hdup
  unfold BTree.insertIntoLeaf
  simp only [hpage, hn, hparse, hany, if_true]

theorem insertIntoLeaf_fits (s : BTree) (pid : Nat) (key : Int) (v : List Nat)
    (cs : List Cell) (hpage : s.pages pid = leafPage 0 cs) (hwf : WfLeaf cs)
    (hk0 : 0 ≤ key) (hk : key < 4294967296) (hv : ∀ b ∈ v, b < 256)
    (hdup : key ∉ cs.map Cell.key)
    (hfits : BTree.leafBytesSize cs + (8 + v.length) ≤ 4096) :
    ∃ cs', BTree.insertIntoLeaf s pid key v =
        (.ok (), { s with pages := setF s.pages pid (leafPage 0 cs') }) ∧
      cs' = cs.take ((cs.takeWhile (fun c => !(decide (key < c.key)))).length) ++
        (⟨key, v.length, v⟩ : Cell) ::
        cs.drop ((cs.takeWhile (fun c => !(decide (key < c.key)))).length) ∧
      WfLeaf cs' ∧
      (∀ c ∈ cs', c ∈ cs ∨ c = ⟨key, v.length, v⟩) := by
  obtain ⟨hcells, hsorted, hsize⟩ := hwf
  have hlen := wfLeaf_length_lt cs hsize
  obtain ⟨h0, hn, h3, hparse, hscan⟩ := leafPage_parse 0 cs hlen (by omega) hcells
  unfold BTree.leafCellsOf at hparse
  rw [hn] at hparse
  set idx := (cs.takeWhile (fun c => !(decide (key < c.key)))).length with hidx
  set cs' := cs.take idx ++ (⟨key, v.length, v⟩ : Cell) :: cs.drop idx with hcs'
  have hmem' : ∀ c ∈ cs', c ∈ cs ∨ c = (⟨key, v.length, v⟩ : Cell) := by
    intro c hc
    rw [hcs'] at hc
    rcases List.mem_append.mp hc with hl | hr
    · exact Or.inl (List.take_subset idx cs hl)
    · rcases List.mem_cons.mp hr with he | hm
      · exact Or.inr he
      · exact Or.inl (List.drop_subset idx cs hm)
  have hwfnc : WfCell (⟨key, v.length, v⟩ : Cell) := by
    refine ⟨hk0, hk, rfl, ?_, hv⟩
    show v.length < 4294967296
    unfold BTree.leafBytesSize at hfits
    omega
  have hwf' : WfLeaf cs' := by
    refine ⟨?_, ?_, ?_⟩
    · intro c hc
      rcases hmem' c hc with h | h
      · exact hcells c h
      · exact h ▸ hwfnc
    · refine keySorted_insert_at cs ⟨key, v.length, v⟩ hsorted ?_
      intro d hd he
      have hm := List.mem_map_of_mem Cell.key hd
      rw [he] at hm
      exact hdup hm
    · rw [hcs', size_insert_at]
      exact hfits
  refine ⟨cs', ?_, rfl, hwf', hmem'⟩
  have hany : cs.any (fun c => c.key == key) = false := by
    rw [← Bool.not_eq_true]
    intro h
    exact hdup ((any_key_iff cs key).mp h)
  have hb3 : byteAt (leafPage 0 cs) 3 = 0 ∧ byteAt (leafPage 0 cs) 4 = 0 ∧
      byteAt (leafPage 0 cs) 5 = 0 ∧ byteAt (leafPage 0 cs) 6 = 0 := by
    have h30 : getU32 (leafPage 0 cs) 3 = 0 := h3
    unfold getU32 at h30
    simp only [show (3 : Nat) + 1 = 4 from rfl, show (3 : Nat) + 2 = 5 from rfl,
      show (3 : Nat) + 3 = 6 from rfl] at h30
    omega
  have hcopy : cs'.flatMap copyCellBytes = cs'.flatMap cellBytes :=
    flatMap_copy_eq cs' (fun c hc => (hwf'.1 c hc).2.2.1)
  have hlen' : cs.length + 1 = cs'.length := by
    rw [hcs']
    simp
    omega
  unfold BTree.insertIntoLeaf
  simp only [hpage, hn, hparse, hany, Bool.false_eq_true, if_false, hscan]
  rw [if_neg (by omega)]
  simp only [h0, hb3.1, hb3.2.1, hb3.2.2.1, hb3.2.2.2, ← hidx, ← hcs', hcopy, hlen']
  rfl

theorem insertIntoLeaf_overflow (s : BTree) (pid : Nat) (key : Int) (v : List Nat)
    (cs : List Cell) (hpage : s.pages pid = leafPage 0 cs) (hwf : WfLeaf cs)
    (hdup : key ∉ cs.map Cell.key)
    (hbig : 4096 < BTree.leafBytesSize cs + (8 + v.length)) :
    BTree.insertIntoLeaf s pid key v = BTree.splitLeaf s pid key v := by
  obtain ⟨hcells, hsorted, hsize⟩ := hwf
  have hlen := wfLeaf_length_lt cs hsize
  obtain ⟨h0, hn, h3, hparse, hscan⟩ := leafPage_parse 0 cs hlen (by omega) hcells
  unfold BTree.leafCellsOf at hparse
  rw [hn] at hparse
  have hany : cs.any (fun c => c.key == key) = false := by
    rw [← Bool.not_eq_true]
    intro h
    exact hdup ((any_key_iff cs key).mp h)
  unfold BTree.insertIntoLeaf
  simp only [hpage, hn, hparse, hany, Bool.false_eq_true, if_false, hscan]
  rw [if_pos (by omega)]

/-! ## Lemmas: `splitLeaf`, `insertIntoInternal`, routing -/

theorem leafPage_byteZero (p : Nat) (cs : List Cell) :
    byteAt (leafPage p cs) 0 = 1 := by
  have : byteAt (leafPage p cs) 0 =
      byteAt ([1] ++ be16 cs.length ++ be32 p ++ cs.flatMap cellBytes) 0 :=
    byteAt_pad4096 _ 0
  rw [this]
  rfl

theorem internalPage_byteZero (parent p0 : Nat) (items : List (Int × Nat)) :
    byteAt (internalPage parent p0 items) 0 = 0 := by
  have : byteAt (internalPage parent p0 items) 0 =
      byteAt ([0] ++ be16 items.length ++ be32 parent ++ be32 p0 ++
        items.flatMap itemBytes) 0 :=
    byteAt_pad4096 _ 0
  rw [this]
  rfl

theorem splitLeaf_char (s : BTree) (pid : Nat) (key : Int) (v : List Nat)
    (cs : List Cell) (hpage : s.pages pid = leafPage 0 cs) (hwf : WfLeaf cs)
    (sorted : List Cell)
    (hsorted : sorted = List.insertionSort keyLe (cs ++ [⟨key, v.length, v⟩]))
    (mid : Nat) (hmid : mid = sorted.length / 2)
    (hfitL : BTree.leafBytesSize (sorted.take mid) ≤ 4096)
    (hfitR : BTree.leafBytesSize (sorted.drop mid) ≤ 4096) :
    BTree.splitLeaf s pid key v =
      if pid = s.root
      then BTree.createGenericRoot
        { s with
          maxPageId := s.maxPageId + 1
          pages := (setF (setF s.pages pid (leafPage 0 (sorted.take mid)))
            (s.maxPageId + 1) (leafPage 0 (sorted.drop mid))) }
        (sorted.getD mid ⟨0, 0, []⟩).key pid (s.maxPageId + 1)
      else BTree.insertIntoInternal
        { s with
          maxPageId := s.maxPageId + 1
          pages := (setF (setF s.pages pid (leafPage 0 (sorted.take mid)))
            (s.maxPageId + 1) (leafPage 0 (sorted.drop mid))) }
        0 (sorted.getD mid ⟨0, 0, []⟩).key (s.maxPageId + 1) := by
  obtain ⟨hcells, hsrt, hsize⟩ := hwf
  obtain ⟨h0, hn, h3, hparse, hscan⟩ :=
    leafPage_parse 0 cs (wfLeaf_length_lt cs hsize) (by omega) hcells
  unfold BTree.leafCellsOf at hparse
  rw [hn] at hparse
  unfold BTree.splitLeaf BTree.writeCellsToLeaf
  simp only [hpage, hn, hparse, ← hsorted, ← hmid, if_pos hfitL, if_pos hfitR, h3]

theorem splitLeaf_err (s : BTree) (pid : Nat) (key : Int) (v : List Nat)
    (cs : List Cell) (hpage : s.pages pid = leafPage 0 cs) (hwf : WfLeaf cs)
    (sorted : List Cell)
    (hsorted : sorted = List.insertionSort keyLe (cs ++ [⟨key, v.length, v⟩]))
    (mid : Nat) (hmid : mid = sorted.length / 2)
    (h : ¬ (BTree.leafBytesSize (sorted.take mid) ≤ 4096 ∧
            BTree.leafBytesSize (sorted.drop mid) ≤ 4096)) :
    (BTree.splitLeaf s pid key v).1 = .error .rangeError := by
  obtain ⟨hcells, hsrt, hsize⟩ := hwf
  obtain ⟨h0, hn, h3, hparse, hscan⟩ :=
    leafPage_parse 0 cs (wfLeaf_length_lt cs hsize) (by omega) hcells
  unfold BTree.leafCellsOf at hparse
  rw [hn] at hparse
  unfold BTree.splitLeaf BTree.writeCellsToLeaf
  by_cases hL : BTree.leafBytesSize (sorted.take mid) ≤ 4096
  · have hR : ¬ BTree.leafBytesSize (sorted.drop mid) ≤ 4096 := fun hr => h ⟨hL, hr⟩
    simp only [hpage, hn, hparse, ← hsorted, ← hmid, if_pos hL, if_neg hR]
  · simp only [hpage, hn, hparse, ← hsorted, ← hmid, if_neg hL]

theorem insertIntoInternal_frame (s : BTree) (pid : Nat) (key : Int) (rc : Nat) :
    (BTree.insertIntoInternal s pid key rc).2.root = s.root ∧
    (BTree.insertIntoInternal s pid key rc).2.maxPageId = s.maxPageId ∧
    (BTree.insertIntoInternal s pid key rc).2.meta = s.meta ∧
    (∀ j, j ≠ pid → (BTree.insertIntoInternal s pid key rc).2.pages j = s.pages j) := by
  unfold BTree.insertIntoInternal
  by_cases h : 100 ≤ getU16 (s.pages pid) 1
  · simp [h]
  · refine ⟨by simp [h], by simp [h], by simp [h], fun j hj => ?_⟩
    simp [h, setF_other _ _ _ _ hj]

theorem findLeafPage_leaf (s : BTree) (key : Int) (fuel pid : Nat)
    (h : byteAt (s.pages pid) 0 = 1) :
    BTree.findLeafPage s key (fuel + 1) pid = some pid := by
  unfold BTree.findLeafPage
  simp [h]

theorem findLeafPage_twoLeaf (s : BTree) (key : Int)
    (sep : Int) (csL csR : List Cell)
    (hpg3 : s.pages 3 = internalPage 0 1 [(sep, 2)])
    (hpg1 : s.pages 1 = leafPage 0 csL) (hpg2 : s.pages 2 = leafPage 0 csR)
    (hsep0 : 0 ≤ sep) (hsepB : sep < 4294967296) :
    BTree.findLeafPage s key BTree.FUEL 3 = some (if key < sep then 1 else 2) := by
  obtain ⟨h0, hn, _, h7, hitems⟩ := internalPage_parse 0 1 [(sep, 2)]
    (by simp) (by omega) (by omega)
    (by
      intro it hit
      simp at hit
      rw [hit]
      refine ⟨hsep0, hsepB, by omega⟩)
  simp only [List.length_cons, List.length_nil] at hn hitems
  rw [show BTree.FUEL = 63 + 1 from rfl, BTree.findLeafPage]
  simp only [hpg3, internalPage_byteZero, hn, h7, hitems, BTree.routeChild]
  rw [if_neg (by omega)]
  by_cases hlt : key < sep
  · rw [if_pos hlt]
    rw [show (63 : Nat) = 62 + 1 from rfl]
    exact findLeafPage_leaf s key 62 1 (by rw [hpg1, leafPage_byteZero])
  · rw [if_neg hlt]
    rw [show (63 : Nat) = 62 + 1 from rfl]
    exact findLeafPage_leaf s key 62 2 (by rw [hpg2, leafPage_byteZero])

/-! ## Lemmas: the two halves of a leaf split -/

theorem mem_cell_size_le (cs : List Cell) (c : Cell) (hc : c ∈ cs) :
    8 + c.val.length ≤ (cs.map (fun c => 8 + c.val.length)).sum := by
  induction cs with
  | nil => simp at hc
  | cons d rest ih =>
    rcases List.mem_cons.mp hc with he | hm
    · rw [he, List.map_cons, List.sum_cons]
      omega
    · have := ih hm
      rw [List.map_cons, List.sum_cons]
      omega

theorem split_halves_wf (cs : List Cell) (key : Int) (v : List Nat)
    (hcells : ∀ c ∈ cs, WfCell c) (hsorted0 : KeySorted cs)
    (hk0 : 0 ≤ key) (hk : key < 4294967296) (hv : ∀ b ∈ v, b < 256)
    (hdup : key ∉ cs.map Cell.key)
    (sorted : List Cell)
    (hsorted : sorted = List.insertionSort keyLe (cs ++ [⟨key, v.length, v⟩]))
    (mid : Nat) (hmid : mid = sorted.length / 2)
    (hfitL : BTree.leafBytesSize (sorted.take mid) ≤ 4096)
    (hfitR : BTree.leafBytesSize (sorted.drop mid) ≤ 4096) :
    WfLeaf (sorted.take mid) ∧ WfLeaf (sorted.drop mid) ∧
    (∀ c ∈ sorted.take mid, c.key < (sorted.getD mid ⟨0, 0, []⟩).key) ∧
    (∀ c ∈ sorted.drop mid, (sorted.getD mid ⟨0, 0, []⟩).key ≤ c.key) ∧
    0 ≤ (sorted.getD mid ⟨0, 0, []⟩).key ∧
    (sorted.getD mid ⟨0, 0, []⟩).key < 4294967296 ∧
    (∀ c ∈ sorted, c ∈ cs ∨ c = ⟨key, v.length, v⟩) := by
  have hne : ∀ d ∈ cs, d.key ≠ (⟨key, v.length, v⟩ : Cell).key := by
    intro d hd he
    have hm := List.mem_map_of_mem Cell.key hd
    rw [he] at hm
    exact hdup hm
  obtain ⟨hperm, hKS⟩ := sort_fresh_sorted cs ⟨key, v.length, v⟩ hsorted0 hne
  rw [← hsorted] at hperm hKS
  have hvlen : v.length < 4294967296 := by
    have hnew : (⟨key, v.length, v⟩ : Cell) ∈ sorted := by
      rw [hperm.mem_iff]
      simp
    have hnew2 : (⟨key, v.length, v⟩ : Cell) ∈ sorted.take mid ∨
        (⟨key, v.length, v⟩ : Cell) ∈ sorted.drop mid := by
      rw [← List.mem_append, List.take_append_drop]
      exact hnew
    rcases hnew2 with hm | hm
    · have h2 : 8 + v.length ≤
          ((sorted.take mid).map (fun c => 8 + c.val.length)).sum :=
        mem_cell_size_le (sorted.take mid) ⟨key, v.length, v⟩ hm
      unfold BTree.leafBytesSize at hfitL
      omega
    · have h2 : 8 + v.length ≤
          ((sorted.drop mid).map (fun c => 8 + c.val.length)).sum :=
        mem_cell_size_le (sorted.drop mid) ⟨key, v.length, v⟩ hm
      unfold BTree.leafBytesSize at hfitR
      omega
  have hmemall : ∀ c ∈ sorted, c ∈ cs ∨ c = ⟨key, v.length, v⟩ := by
    intro c hc
    have := hperm.subset hc
    rcases List.mem_append.mp this with h | h
    · exact Or.inl h
    · exact Or.inr (List.mem_singleton.mp h)
  have hwfall : ∀ c ∈ sorted, WfCell c := by
    intro c hc
    rcases hmemall c hc with h | h
    · exact hcells c h
    · exact h ▸ ⟨hk0, hk, rfl, hvlen, hv⟩
  have hlen : sorted.length = cs.length + 1 := by
    rw [hperm.length_eq]
    simp
  have hmidlt : mid < sorted.length := by omega
  have hsepmem : sorted.getD mid ⟨0, 0, []⟩ ∈ sorted := by
    rw [List.getD_eq_getElem sorted _ hmidlt]
    exact List.getElem_mem hmidlt
  obtain ⟨hsep0, hsepB, _, _, _⟩ := hwfall _ hsepmem
  refine ⟨⟨fun c hc => hwfall c (List.take_subset mid sorted hc),
      keySorted_take sorted mid hKS, hfitL⟩,
    ⟨fun c hc => hwfall c (List.drop_subset mid sorted hc),
      keySorted_drop sorted mid hKS, hfitR⟩,
    keySorted_take_lt_mid sorted mid hKS hmidlt,
    keySorted_drop_head_le sorted mid hKS hmidlt,
    hsep0, hsepB, hmemall⟩

/-! ## Lemmas: the empty tree satisfies the invariant -/

theorem emptyBT_pages_one : emptyBT.pages 1 = leafPage 0 [] := by
  show BTree.construct (fun _ => List.replicate 4096 0) 1 1 = leafPage 0 []
  unfold BTree.construct
  rw [if_pos (by refine ⟨?_, ?_, ?_, ?_⟩ <;> exact byteAt_replicate _ _)]
  rw [setF_same]
  rw [List.drop_replicate]
  rfl

theorem inv_emptyBT : Inv emptyBT := by
  left
  refine ⟨rfl, rfl, [], emptyBT_pages_one, ?_⟩
  refine ⟨by simp, List.Pairwise.nil, ?_⟩
  unfold BTree.leafBytesSize
  simp

/-! ## Lemmas: invariant preservation -/

theorem insert_ok_inv (s : BTree) (key : Int) (v : List Nat)
    (hk0 : 0 ≤ key) (hk : key < 4294967296) (hv : ∀ b ∈ v, b < 256)
    (hok : (BTree.insert s key v).1 = .ok ())
    (hinv : Inv s) : Inv (BTree.insert s key v).2 := by
  rcases hinv with ⟨hroot, hmax, cs, hpage, hwf⟩ |
    ⟨hroot, hmax, sep, csL, csR, hpg3, hpg1, hwfL, hpg2, hwfR, hsep0, hsepB, hregL, hregR⟩
  · -- the tree is still the original root leaf on page 1
    have hfind : BTree.findLeafPage s key BTree.FUEL s.root = some 1 := by
      rw [hroot, show BTree.FUEL = 63 + 1 from rfl]
      exact findLeafPage_leaf s key 63 1 (by rw [hpage, leafPage_byteZero])
    have hins : BTree.insert s key v = BTree.insertIntoLeaf s 1 key v := by
      unfold BTree.insert
      rw [hfind]
    rw [hins] at hok ⊢
    by_cases hdup : key ∈ cs.map Cell.key
    · rw [insertIntoLeaf_dup s 1 key v cs hpage hwf hdup] at hok
      simp at hok
    · by_cases hfits : BTree.leafBytesSize cs + (8 + v.length) ≤ 4096
      · obtain ⟨cs', heq, _, hwf', _⟩ :=
          insertIntoLeaf_fits s 1 key v cs hpage hwf hk0 hk hv hdup hfits
        rw [heq]
        left
        refine ⟨hroot, hmax, cs', ?_, hwf'⟩
        show setF s.pages 1 (leafPage 0 cs') 1 = leafPage 0 cs'
        exact setF_same _ _ _
      · rw [insertIntoLeaf_overflow s 1 key v cs hpage hwf hdup (by omega)] at hok ⊢
        set sorted := List.insertionSort keyLe (cs ++ [⟨key, v.length, v⟩]) with hsorted
        set mid := sorted.length / 2 with hmid
        by_cases hfitL : BTree.leafBytesSize (sorted.take mid) ≤ 4096
        case neg =>
          have herr := splitLeaf_err s 1 key v cs hpage hwf sorted hsorted mid hmid
            (fun hh => hfitL hh.1)
          rw [herr] at hok
          simp at hok
        by_cases hfitR : BTree.leafBytesSize (sorted.drop mid) ≤ 4096
        case neg =>
          have herr := splitLeaf_err s 1 key v cs hpage hwf sorted hsorted mid hmid
            (fun hh => hfitR hh.2)
          rw [herr] at hok
          simp at hok
        obtain ⟨hwfTake, hwfDrop, hlt, hge, hs0, hsB, _⟩ :=
          split_halves_wf cs key v hwf.1 hwf.2.1 hk0 hk hv
            hdup sorted hsorted mid hmid hfitL hfitR
        rw [splitLeaf_char s 1 key v cs hpage hwf sorted hsorted mid hmid hfitL hfitR] at hok ⊢
        rw [if_pos hroot.symm] at hok ⊢
        unfold BTree.createGenericRoot at hok ⊢
        right
        refine ⟨by show s.maxPageId + 1 + 1 = 3; omega,
          by show (3 : Nat) ≤ s.maxPageId + 1 + 1; omega,
          (sorted.getD mid ⟨0, 0, []⟩).key,
          sorted.take mid, sorted.drop mid, by simp [setF, hmax], by simp [setF, hmax],
          hwfTake, by simp [setF, hmax], hwfDrop, hs0, hsB, hlt, hge⟩
  · -- the tree is the fixed three-page shape
    have hfind : BTree.findLeafPage s key BTree.FUEL s.root =
        some (if key < sep then 1 else 2) := by
      rw [hroot]
      exact findLeafPage_twoLeaf s key sep csL csR hpg3 hpg1 hpg2 hsep0 hsepB
    by_cases hkey : key < sep
    all_goals (
      first
      | (have hpid : BTree.findLeafPage s key BTree.FUEL s.root = some 1 := by
          rw [hfind, if_pos hkey])
      | (have hpid : BTree.findLeafPage s key BTree.FUEL s.root = some 2 := by
          rw [hfind, if_neg hkey]))
    -- case key < sep : target leaf is page 1
    · have hins : BTree.insert s key v = BTree.insertIntoLeaf s 1 key v := by
        unfold BTree.insert
        rw [hpid]
      rw [hins] at hok ⊢
      by_cases hdup : key ∈ csL.map Cell.key
      · rw [insertIntoLeaf_dup s 1 key v csL hpg1 hwfL hdup] at hok
        simp at hok
      · by_cases hfits : BTree.leafBytesSize csL + (8 + v.length) ≤ 4096
        · obtain ⟨cs', heq, _, hwf', hmem'⟩ :=
            insertIntoLeaf_fits s 1 key v csL hpg1 hwfL hk0 hk hv hdup hfits
          rw [heq]
          right
          refine ⟨hroot, hmax, sep, cs', csR, ?_, ?_, hwf', ?_, hwfR,
            hsep0, hsepB, ?_, hregR⟩
          · show setF s.pages 1 (leafPage 0 cs') 3 = _
            rw [setF_other _ _ _ _ (by omega)]
            exact hpg3
          · show setF s.pages 1 (leafPage 0 cs') 1 = _
            exact setF_same _ _ _
          · show setF s.pages 1 (leafPage 0 cs') 2 = _
            rw [setF_other _ _ _ _ (by omega)]
            exact hpg2
          · intro c hc
            rcases hmem' c hc with h | h
            · exact hregL c h
            · rw [h]
              exact hkey
        · rw [insertIntoLeaf_overflow s 1 key v csL hpg1 hwfL hdup (by omega)] at hok ⊢
          set sorted := List.insertionSort keyLe (csL ++ [⟨key, v.length, v⟩]) with hsorted
          set mid := sorted.length / 2 with hmid
          by_cases hfitL2 : BTree.leafBytesSize (sorted.take mid) ≤ 4096
          case neg =>
            have herr := splitLeaf_err s 1 key v csL hpg1 hwfL sorted hsorted mid hmid
              (fun hh => hfitL2 hh.1)
            rw [herr] at hok
            simp at hok
          by_cases hfitR2 : BTree.leafBytesSize (sorted.drop mid) ≤ 4096
          case neg =>
            have herr := splitLeaf_err s 1 key v csL hpg1 hwfL sorted hsorted mid hmid
              (fun hh => hfitR2 hh.2)
            rw [herr] at hok
            simp at hok
          obtain ⟨hwfTake, _, _, _, _, _, hmemall⟩ :=
            split_halves_wf csL key v hwfL.1 hwfL.2.1 hk0 hk hv
              hdup sorted hsorted mid hmid hfitL2 hfitR2
          rw [splitLeaf_char s 1 key v csL hpg1 hwfL sorted hsorted mid hmid hfitL2 hfitR2]
            at hok ⊢
          rw [if_neg (by omega)] at hok ⊢
          obtain ⟨hfr, hfm, _, hfp⟩ := insertIntoInternal_frame
            { s with
              maxPageId := s.maxPageId + 1
              pages := (setF (setF s.pages 1 (leafPage 0 (sorted.take mid)))
                (s.maxPageId + 1) (leafPage 0 (sorted.drop mid))) }
            0 (sorted.getD mid ⟨0, 0, []⟩).key (s.maxPageId + 1)
          right
          rw [hfr, hfm]
          refine ⟨hroot, by simp; omega, sep, sorted.take mid, csR, ?_, ?_, hwfTake,
            ?_, hwfR, hsep0, hsepB, ?_, hregR⟩
          · rw [hfp 3 (by omega)]
            show setF (setF s.pages 1 (leafPage 0 (sorted.take mid)))
              (s.maxPageId + 1) (leafPage 0 (sorted.drop mid)) 3 = _
            rw [setF_other _ _ _ _ (by omega), setF_other _ _ _ _ (by omega)]
            exact hpg3
          · rw [hfp 1 (by omega)]
            show setF (setF s.pages 1 (leafPage 0 (sorted.take mid)))
              (s.maxPageId + 1) (leafPage 0 (sorted.drop mid)) 1 = _
            rw [setF_other _ _ _ _ (by omega), setF_same]
          · rw [hfp 2 (by omega)]
            show setF (setF s.pages 1 (leafPage 0 (sorted.take mid)))
              (s.maxPageId + 1) (leafPage 0 (sorted.drop mid)) 2 = _
            rw [setF_other _ _ _ _ (by omega), setF_other _ _ _ _ (by omega)]
            exact hpg2
          · intro c hc
            rcases hmemall c (List.take_subset mid sorted hc) with h | h
            · exact hregL c h
            · rw [h]
              exact hkey
    -- case ¬ key < sep : target leaf is page 2
    · have hins : BTree.insert s key v = BTree.insertIntoLeaf s 2 key v := by
        unfold BTree.insert
        rw [hpid]
      rw [hins] at hok ⊢
      by_cases hdup : key ∈ csR.map Cell.key
      · rw [insertIntoLeaf_dup s 2 key v csR hpg2 hwfR hdup] at hok
        simp at hok
      · by_cases hfits : BTree.leafBytesSize csR + (8 + v.length) ≤ 4096
        · obtain ⟨cs', heq, _, hwf', hmem'⟩ :=
            insertIntoLeaf_fits s 2 key v csR hpg2 hwfR hk0 hk hv hdup hfits
          rw [heq]
          right
          refine ⟨hroot, hmax, sep, csL, cs', ?_, ?_, hwfL, ?_, hwf',
            hsep0, hsepB, hregL, ?_⟩
          · show setF s.pages 2 (leafPage 0 cs') 3 = _
            rw [setF_other _ _ _ _ (by omega)]
            exact hpg3
          · show setF s.pages 2 (leafPage 0 cs') 1 = _
            rw [setF_other _ _ _ _ (by omega)]
            exact hpg1
          · show setF s.pages 2 (leafPage 0 cs') 2 = _
            exact setF_same _ _ _
          · intro c hc
            rcases hmem' c hc with h | h
            · exact hregR c h
            · rw [h]
              show sep ≤ key
              omega
        · rw [insertIntoLeaf_overflow s 2 key v csR hpg2 hwfR hdup (by omega)] at hok ⊢
          set sorted := List.insertionSort keyLe (csR ++ [⟨key, v.length, v⟩]) with hsorted
          set mid := sorted.length / 2 with hmid
          by_cases hfitL2 : BTree.leafBytesSize (sorted.take mid) ≤ 4096
          case neg =>
            have herr := splitLeaf_err s 2 key v csR hpg2 hwfR sorted hsorted mid hmid
              (fun hh => hfitL2 hh.1)
            rw [herr] at hok
            simp at hok
          by_cases hfitR2 : BTree.leafBytesSize (sorted.drop mid) ≤ 4096
          case neg =>
            have herr := splitLeaf_err s 2 key v csR hpg2 hwfR sorted hsorted mid hmid
              (fun hh => hfitR2 hh.2)
            rw [herr] at hok
            simp at hok
          obtain ⟨hwfTake, _, _, _, _, _, hmemall⟩ :=
            split_halves_wf csR key v hwfR.1 hwfR.2.1 hk0 hk hv
              hdup sorted hsorted mid hmid hfitL2 hfitR2
          rw [splitLeaf_char s 2 key v csR hpg2 hwfR sorted hsorted mid hmid hfitL2 hfitR2]
            at hok ⊢
          rw [if_neg (by omega)] at hok ⊢
          obtain ⟨hfr, hfm, _, hfp⟩ := insertIntoInternal_frame
            { s with
              maxPageId := s.maxPageId + 1
              pages := (setF (setF s.pages 2 (leafPage 0 (sorted.take mid)))
                (s.maxPageId + 1) (leafPage 0 (sorted.drop mid))) }
            0 (sorted.getD mid ⟨0, 0, []⟩).key (s.maxPageId + 1)
          right
          rw [hfr, hfm]
          refine ⟨hroot, by simp; omega, sep, csL, sorted.take mid, ?_, ?_, hwfL,
            ?_, hwfTake, hsep0, hsepB, hregL, ?_⟩
          · rw [hfp 3 (by omega)]
            show setF (setF s.pages 2 (leafPage 0 (sorted.take mid)))
              (s.maxPageId + 1) (leafPage 0 (sorted.drop mid)) 3 = _
            rw [setF_other _ _ _ _ (by omega), setF_other _ _ _ _ (by omega)]
            exact hpg3
          · rw [hfp 1 (by omega)]
            show setF (setF s.pages 2 (leafPage 0 (sorted.take mid)))
              (s.maxPageId + 1) (leafPage 0 (sorted.drop mid)) 1 = _
            rw [setF_other _ _ _ _ (by omega), setF_other _ _ _ _ (by omega)]
            exact hpg1
          · rw [hfp 2 (by omega)]
            show setF (setF s.pages 2 (leafPage 0 (sorted.take mid)))
              (s.maxPageId + 1) (leafPage 0 (sorted.drop mid)) 2 = _
            rw [setF_other _ _ _ _ (by omega), setF_same]
          · intro c hc
            rcases hmemall c (List.take_subset mid sorted hc) with h | h
            · exact hregR c h
            · rw [h]
              show sep ≤ key
              omega

theorem kept_size_le (cs : List Cell) (key : Int) (hwf : ∀ c ∈ cs, WfCell c) :
    7 + ((cs.filter (fun c => !(c.key == key))).map (fun c => 8 + c.len)).sum ≤
      BTree.leafBytesSize cs := by
  set kept := cs.filter (fun c => !(c.key == key)) with hkept
  have hmapeq : kept.map (fun c => 8 + c.len) = kept.map (fun c => 8 + c.val.length) := by
    apply List.map_eq_map_iff.mpr
    intro c hc
    have := (hwf c (List.mem_of_mem_filter hc)).2.2.1
    omega
  rw [hmapeq]
  have hsub : List.Sublist (kept.map (fun c => 8 + c.val.length))
      (cs.map (fun c => 8 + c.val.length)) :=
    List.Sublist.map _ (List.filter_sublist cs)
  have := List.Sublist.sum_le_sum hsub (by simp)
  unfold BTree.leafBytesSize
  omega

theorem delete_found (s : BTree) (pid : Nat) (key : Int) (cs : List Cell)
    (hpage : s.pages pid = leafPage 0 cs) (hwf : WfLeaf cs)
    (hfind : BTree.findLeafPage s key BTree.FUEL s.root = some pid)
    (hin : key ∈ cs.map Cell.key) :
    BTree.delete s key = (.ok (), { s with
      pages := (setF s.pages pid
        (leafPage 0 (cs.filter (fun c => !(c.key == key))))) }) ∧
    WfLeaf (cs.filter (fun c => !(c.key == key))) := by
  obtain ⟨hcells, hsorted, hsize⟩ := hwf
  obtain ⟨h0, hn, h3, hparse, _⟩ :=
    leafPage_parse 0 cs (wfLeaf_length_lt cs hsize) (by omega) hcells
  unfold BTree.leafCellsOf at hparse
  rw [hn] at hparse
  set kept := cs.filter (fun c => !(c.key == key)) with hkept
  have hwfkept : WfLeaf kept := by
    refine ⟨fun c hc => hcells c (List.mem_of_mem_filter hc),
      List.Pairwise.sublist (List.filter_sublist cs) hsorted, ?_⟩
    have h1 := kept_size_le cs key hcells
    have h2 : kept.map (fun c => 8 + c.len) = kept.map (fun c => 8 + c.val.length) := by
      apply List.map_eq_map_iff.mpr
      intro c hc
      have := (hcells c (List.mem_of_mem_filter hc)).2.2.1
      omega
    rw [← hkept] at h1
    rw [h2] at h1
    unfold BTree.leafBytesSize
    omega
  refine ⟨?_, hwfkept⟩
  have hany : cs.any (fun c => c.key == key) = true := (any_key_iff cs key).mpr hin
  have hb3 : byteAt (leafPage 0 cs) 3 = 0 ∧ byteAt (leafPage 0 cs) 4 = 0 ∧
      byteAt (leafPage 0 cs) 5 = 0 ∧ byteAt (leafPage 0 cs) 6 = 0 := by
    have h30 : getU32 (leafPage 0 cs) 3 = 0 := h3
    unfold getU32 at h30
    simp only [show (3 : Nat) + 1 = 4 from rfl, show (3 : Nat) + 2 = 5 from rfl,
      show (3 : Nat) + 3 = 6 from rfl] at h30
    omega
  have hcopy : kept.flatMap copyCellBytes = kept.flatMap cellBytes :=
    flatMap_copy_eq kept (fun c hc => (hwfkept.1 c hc).2.2.1)
  have hszok : ¬ (4096 < 7 + (kept.map (fun c => 8 + c.len)).sum) := by
    have := kept_size_le cs key hcells
    rw [← hkept] at this
    omega
  unfold BTree.delete
  rw [hfind]
  simp only [hpage, hn, hparse, ← hkept, hany, if_true]
  rw [if_neg hszok]
  have hu32 : getU32 (leafPage 0 cs) 3 = 0 := h3
  simp only [hu32, hcopy]
  rfl

theorem delete_missing (s : BTree) (pid : Nat) (key : Int) (cs : List Cell)
    (hpage : s.pages pid = leafPage 0 cs) (hwf : WfLeaf cs)
    (hfind : BTree.findLeafPage s key BTree.FUEL s.root = some pid)
    (hout : key ∉ cs.map Cell.key) :
    BTree.delete s key = (.error (.keyNotFound key), s) := by
  obtain ⟨hcells, hsorted, hsize⟩ := hwf
  obtain ⟨h0, hn, h3, hparse, _⟩ :=
    leafPage_parse 0 cs (wfLeaf_length_lt cs hsize) (by omega) hcells
  unfold BTree.leafCellsOf at hparse
  rw [hn] at hparse
  set kept := cs.filter (fun c => !(c.key == key)) with hkept
  have hany : cs.any (fun c => c.key == key) = false := by
    rw [← Bool.not_eq_true]
    intro h
    exact hout ((any_key_iff cs key).mp h)
  have hszok : ¬ (4096 < 7 + (kept.map (fun c => 8 + c.len)).sum) := by
    have := kept_size_le cs key hcells
    rw [← hkept] at this
    omega
  unfold BTree.delete
  rw [hfind]
  simp only [hpage, hn, hparse, ← hkept, hany, Bool.false_eq_true, if_false]
  rw [if_neg hszok]

theorem delete_ok_inv (s : BTree) (key : Int)
    (hok : (BTree.delete s key).1 = .ok ()) (hinv : Inv s) :
    Inv (BTree.delete s key).2 := by
  rcases hinv with ⟨hroot, hmax, cs, hpage, hwf⟩ |
    ⟨hroot, hmax, sep, csL, csR, hpg3, hpg1, hwfL, hpg2, hwfR, hsep0, hsepB, hregL, hregR⟩
  · have hfind : BTree.findLeafPage s key BTree.FUEL s.root = some 1 := by
      rw [hroot, show BTree.FUEL = 63 + 1 from rfl]
      exact findLeafPage_leaf s key 63 1 (by rw [hpage, leafPage_byteZero])
    by_cases hin : key ∈ cs.map Cell.key
    · obtain ⟨heq, hwf'⟩ := delete_found s 1 key cs hpage hwf hfind hin
      rw [heq] at hok ⊢
      left
      refine ⟨hroot, hmax, cs.filter (fun c => !(c.key == key)), ?_, hwf'⟩
      show setF s.pages 1 (leafPage 0 (cs.filter (fun c => !(c.key == key)))) 1 = _
      exact setF_same _ _ _
    · rw [delete_missing s 1 key cs hpage hwf hfind hin] at hok
      simp at hok
  · have hfind : BTree.findLeafPage s key BTree.FUEL s.root =
        some (if key < sep then 1 else 2) := by
      rw [hroot]
      exact findLeafPage_twoLeaf s key sep csL csR hpg3 hpg1 hpg2 hsep0 hsepB
    by_cases hkey : key < sep
    · have hpid : BTree.findLeafPage s key BTree.FUEL s.root = some 1 := by
        rw [hfind, if_pos hkey]
      by_cases hin : key ∈ csL.map Cell.key
      · obtain ⟨heq, hwf'⟩ := delete_found s 1 key csL hpg1 hwfL hpid hin
        rw [heq] at hok ⊢
        right
        refine ⟨hroot, hmax, sep, csL.filter (fun c => !(c.key == key)), csR,
          ?_, ?_, hwf', ?_, hwfR, hsep0, hsepB, ?_, hregR⟩
        · show setF s.pages 1 (leafPage 0 (csL.filter (fun c => !(c.key == key)))) 3 = _
          rw [setF_other _ _ _ _ (by omega)]
          exact hpg3
        · show setF s.pages 1 (leafPage 0 (csL.filter (fun c => !(c.key == key)))) 1 = _
          exact setF_same _ _ _
        · show setF s.pages 1 (leafPage 0 (csL.filter (fun c => !(c.key == key)))) 2 = _
          rw [setF_other _ _ _ _ (by omega)]
          exact hpg2
        · intro c hc
          exact hregL c (List.mem_of_mem_filter hc)
      · rw [delete_missing s 1 key csL hpg1 hwfL hpid hin] at hok
        simp at hok
    · have hpid : BTree.findLeafPage s key BTree.FUEL s.root = some 2 := by
        rw [hfind, if_neg hkey]
      by_cases hin : key ∈ csR.map Cell.key
      · obtain ⟨heq, hwf'⟩ := delete_found s 2 key csR hpg2 hwfR hpid hin
        rw [heq] at hok ⊢
        right
        refine ⟨hroot, hmax, sep, csL, csR.filter (fun c => !(c.key == key)),
          ?_, ?_, hwfL, ?_, hwf', hsep0, hsepB, hregL, ?_⟩
        · show setF s.pages 2 (leafPage 0 (csR.filter (fun c => !(c.key == key)))) 3 = _
          rw [setF_other _ _ _ _ (by omega)]
          exact hpg3
        · show setF s.pages 2 (leafPage 0 (csR.filter (fun c => !(c.key == key)))) 1 = _
          rw [setF_other _ _ _ _ (by omega)]
          exact hpg1
        · show setF s.pages 2 (leafPage 0 (csR.filter (fun c => !(c.key == key)))) 2 = _
          exact setF_same _ _ _
        · intro c hc
          exact hregR c (List.mem_of_mem_filter hc)
      · rw [delete_missing s 2 key csR hpg2 hwfR hpid hin] at hok
        simp at hok

theorem reachable_inv (s : BTree) (h : Reachable s) : Inv s := by
  induction h with
  | init => exact inv_emptyBT
  | step hr hs ih =>
    cases hs with
    | insert key v hk0 hk hv hok => exact insert_ok_inv _ key v hk0 hk hv hok ih
    | delete key hok => exact delete_ok_inv _ key hok ih

/-! ## Lemmas: traversal and search under the invariant -/

theorem traverse_leaf (s : BTree) (fuel pid : Nat) (cs : List Cell)
    (hpage : s.pages pid = leafPage 0 cs) (hwf : WfLeaf cs) :
    BTree.traverse s (fuel + 1) pid = some cs := by
  obtain ⟨hcells, hsorted, hsize⟩ := hwf
  obtain ⟨_, _, _, hparse, _⟩ :=
    leafPage_parse 0 cs (wfLeaf_length_lt cs hsize) (by omega) hcells
  rw [BTree.traverse]
  simp only [hpage, leafPage_byteZero, if_true, hparse]

theorem getAll_leafRoot (s : BTree) (cs : List Cell)
    (hroot : s.root = 1) (hpage : s.pages 1 = leafPage 0 cs) (hwf : WfLeaf cs) :
    BTree.getAll s = some cs := by
  unfold BTree.getAll
  rw [hroot, show BTree.FUEL = 63 + 1 from rfl]
  exact traverse_leaf s 63 1 cs hpage hwf

theorem getAll_twoLeaf (s : BTree) (sep : Int) (csL csR : List Cell)
    (hroot : s.root = 3)
    (hpg3 : s.pages 3 = internalPage 0 1 [(sep, 2)])
    (hpg1 : s.pages 1 = leafPage 0 csL) (hwfL : WfLeaf csL)
    (hpg2 : s.pages 2 = leafPage 0 csR) (hwfR : WfLeaf csR)
    (hsep0 : 0 ≤ sep) (hsepB : sep < 4294967296) :
    BTree.getAll s = some (csL ++ csR) := by
  obtain ⟨h0, hn, _, h7, hitems⟩ := internalPage_parse 0 1 [(sep, 2)]
    (by simp) (by omega) (by omega)
    (by
      intro it hit
      simp at hit
      rw [hit]
      exact ⟨hsep0, hsepB, by omega⟩)
  simp only [List.length_cons, List.length_nil] at hn hitems
  unfold BTree.getAll
  rw [hroot, show BTree.FUEL = 63 + 1 from rfl, BTree.traverse]
  simp only [hpg3, internalPage_byteZero, hn, h7, hitems]
  rw [if_neg (by omega)]
  show BTree.traverseMany s 63 [1, 2] = some (csL ++ csR)
  rw [BTree.traverseMany]
  rw [show (63 : Nat) = 62 + 1 from rfl]
  rw [traverse_leaf s 62 1 csL hpg1 hwfL]
  rw [BTree.traverseMany]
  rw [traverse_leaf s 62 2 csR hpg2 hwfR]
  rw [BTree.traverseMany]
  simp

theorem scanLeaf_of_drop (page : List Nat) (cs : List Cell) (tail : List Nat)
    (off : Nat) (key : Int) (hd : page.drop off = cs.flatMap cellBytes ++ tail)
    (hwf : ∀ c ∈ cs, WfCell c) :
    BTree.scanLeaf page key cs.length off =
      (cs.find? (fun c => c.key == key)).map Cell.val := by
  induction cs generalizing off with
  | nil => rfl
  | cons c rest ih =>
    obtain ⟨hk0, hk, hlen, hvlen, hbytes⟩ := hwf c (by simp)
    have hd0 : page.drop off =
        be32I c.key ++ (be32 c.val.length ++ (c.val.map (fun b => b % 256) ++
          (rest.flatMap cellBytes ++ tail))) := by
      rw [hd]; simp [cellBytes]
    have hkey : ((getU32 page off : Nat) : Int) = c.key := by
      rw [getU32_drop, hd0]; exact getU32_be32I _ _ hk0 hk
    have hd4 : page.drop (off + 4) =
        be32 c.val.length ++ (c.val.map (fun b => b % 256) ++
          (rest.flatMap cellBytes ++ tail)) := by
      rw [drop_add, hd0, List.drop_left' (be32I_length c.key)]
    have hsz : getU32 page (off + 4) = c.val.length := by
      rw [getU32_drop, hd4]; exact getU32_be32 _ _ hvlen
    have hd8 : page.drop (off + 8) =
        c.val.map (fun b => b % 256) ++ (rest.flatMap cellBytes ++ tail) := by
      have e : off + 8 = off + 4 + 4 := by omega
      rw [e, drop_add, hd4, List.drop_left' (be32_length c.val.length)]
    have hslice : listSlice page (off + 8) (getU32 page (off + 4)) = c.val := by
      rw [hsz]
      unfold listSlice
      rw [hd8, List.take_left' (by simp), map_mod256_eq _ hbytes]
    have hdnext : page.drop (off + 8 + c.val.length) =
        rest.flatMap cellBytes ++ tail := by
      rw [drop_add, hd8, List.drop_left' (by simp)]
    show BTree.scanLeaf page key (rest.length + 1) off = _
    rw [BTree.scanLeaf, List.find?]
    by_cases he : c.key = key
    · rw [if_pos (by rw [hkey]; exact he), hslice]
      have : (c.key == key) = true := beq_iff_eq.mpr he
      rw [this]
      rfl
    · rw [if_neg (by rw [hkey]; exact he)]
      have hb : (c.key == key) = false := by
        rw [← Bool.not_eq_true]
        intro hx
        exact he (beq_iff_eq.mp hx)
      rw [hb, hsz]
      exact ih (off + 8 + c.val.length) hdnext
        (fun d hdm => hwf d (List.mem_cons_of_mem _ hdm))

theorem search_leafPage (s : BTree) (pid : Nat) (key : Int) (cs : List Cell)
    (hfind : BTree.findLeafPage s key BTree.FUEL s.root = some pid)
    (hpage : s.pages pid = leafPage 0 cs) (hwf : WfLeaf cs) :
    BTree.search s key = .ok ((cs.find? (fun c => c.key == key)).map Cell.val) := by
  obtain ⟨hcells, hsorted, hsize⟩ := hwf
  have hlen := wfLeaf_length_lt cs hsize
  obtain ⟨_, hn, _, _, _⟩ := leafPage_parse 0 cs hlen (by omega) hcells
  set Z := List.replicate
    (4096 - ([1] ++ be16 cs.length ++ be32 0 ++ cs.flatMap cellBytes).length) 0 with hZ
  have e0 : leafPage 0 cs =
      1 :: (be16 cs.length ++ (be32 0 ++ (cs.flatMap cellBytes ++ Z))) := by
    simp [leafPage, pad4096, hZ]
  have e7 : (leafPage 0 cs).drop 7 = cs.flatMap cellBytes ++ Z := by
    rw [e0]
    show (be16 cs.length ++ (be32 0 ++ (cs.flatMap cellBytes ++ Z))).drop 6 = _
    rw [show (6 : Nat) = 2 + 4 from rfl, drop_add,
      List.drop_left' (be16_length cs.length), List.drop_left' (be32_length 0)]
  unfold BTree.search
  rw [hfind]
  show Except.ok (BTree.scanLeaf (s.pages pid) key (getU16 (s.pages pid) 1) 7) = _
  rw [hpage, hn, scanLeaf_of_drop (leafPage 0 cs) cs Z 7 key e7 hcells]

theorem find?_filter_none (cs : List Cell) (key : Int) :
    (cs.filter (fun c => !(c.key == key))).find? (fun c => c.key == key) = none := by
  rw [List.find?_eq_none]
  intro c hc
  have := List.of_mem_filter hc
  simp at this ⊢
  exact this

theorem key_not_mem_filter (cs : List Cell) (key : Int) :
    key ∉ ((cs.filter (fun c => !(c.key == key))).map Cell.key) := by
  intro h
  obtain ⟨c, hc, he⟩ := List.mem_map.mp h
  have := List.of_mem_filter hc
  simp at this
  exact this he

/-! ## The claims -/

/-- C1: for every reachable B-tree (any state produced from an empty
tree by a sequence of successful insert and delete operations),
`getAll()` returns the key/payload pairs with keys in strictly
increasing order and with no duplicate keys. -/
theorem claim_C1 (s : BTree) (h : Reachable s) :
    ∃ l, BTree.getAll s = some l ∧
      (l.map Cell.key).Pairwise (· < ·) ∧ (l.map Cell.key).Nodup := by
  rcases reachable_inv s h with ⟨hroot, hmax, cs, hpage, hwf⟩ |
    ⟨hroot, hmax, sep, csL, csR, hpg3, hpg1, hwfL, hpg2, hwfR, hsep0, hsepB, hregL, hregR⟩
  · have hpair : (cs.map Cell.key).Pairwise (· < ·) := List.pairwise_map.mpr hwf.2.1
    exact ⟨cs, getAll_leafRoot s cs hroot hpage hwf, hpair,
      hpair.imp (fun hab => ne_of_lt hab)⟩
  · have hpair : ((csL ++ csR).map Cell.key).Pairwise (· < ·) := by
      rw [List.map_append, List.pairwise_append]
      refine ⟨List.pairwise_map.mpr hwfL.2.1, List.pairwise_map.mpr hwfR.2.1, ?_⟩
      intro a ha b hb
      obtain ⟨ca, hca, hae⟩ := List.mem_map.mp ha
      obtain ⟨cb, hcb, hbe⟩ := List.mem_map.mp hb
      have h1 := hregL ca hca
      have h2 := hregR cb hcb
      rw [← hae, ← hbe]
      omega
    exact ⟨csL ++ csR,
      getAll_twoLeaf s sep csL csR hroot hpg3 hpg1 hwfL hpg2 hwfR hsep0 hsepB,
      hpair, hpair.imp (fun hab => ne_of_lt hab)⟩

/-- Witness for C1: a concrete reachable state (the empty tree after
one successful insert), with the traversal evaluated. -/
theorem claim_C1_witness :
    Reachable (BTree.insert emptyBT 5 [7, 8]).2 ∧
    ∃ l, BTree.getAll (BTree.insert emptyBT 5 [7, 8]).2 = some l ∧
      (l.map Cell.key).Pairwise (· < ·) ∧ (l.map Cell.key).Nodup :=
  have hr : Reachable (BTree.insert emptyBT 5 [7, 8]).2 :=
    Reachable.step Reachable.init
      (Step.insert emptyBT 5 [7, 8] (by decide) (by decide) (by decide) (by decide))
  ⟨hr, claim_C1 _ hr⟩

/-- C7: on every reachable B-tree, after a successful `delete(k)`,
`search(k)` returns nothing and `k` does not appear in `getAll()`; and
when no cell with key `k` exists in the target leaf, `delete(k)` fails
with a key-not-found error and writes no page. -/
theorem claim_C7 (s : BTree) (hreach : Reachable s) (key : Int) :
    ((BTree.delete s key).1 = .ok () →
      BTree.search (BTree.delete s key).2 key = .ok none ∧
      ∀ l, BTree.getAll (BTree.delete s key).2 = some l → key ∉ l.map Cell.key) ∧
    (∀ pid, BTree.findLeafPage s key BTree.FUEL s.root = some pid →
      key ∉ (BTree.leafCellsOf (s.pages pid)).map Cell.key →
      BTree.delete s key = (.error (.keyNotFound key), s)) := by
  rcases reachable_inv s hreach with ⟨hroot, hmax, cs, hpage, hwf⟩ |
    ⟨hroot, hmax, sep, csL, csR, hpg3, hpg1, hwfL, hpg2, hwfR, hsep0, hsepB, hregL, hregR⟩
  · -- root leaf
    have hfind : BTree.findLeafPage s key BTree.FUEL s.root = some 1 := by
      rw [hroot, show BTree.FUEL = 63 + 1 from rfl]
      exact findLeafPage_leaf s key 63 1 (by rw [hpage, leafPage_byteZero])
    have hparseL : BTree.leafCellsOf (s.pages 1) = cs := by
      rw [hpage]
      exact (leafPage_parse 0 cs (wfLeaf_length_lt cs hwf.2.2) (by omega) hwf.1).2.2.2.1
    constructor
    · intro hok
      by_cases hin : key ∈ cs.map Cell.key
      · obtain ⟨heq, hwf'⟩ := delete_found s 1 key cs hpage hwf hfind hin
        rw [heq]
        set kept := cs.filter (fun c => !(c.key == key)) with hkept
        set s' : BTree := { s with pages := (setF s.pages 1 (leafPage 0 kept)) } with hs'
        have hpg1' : s'.pages 1 = leafPage 0 kept := by
          show setF s.pages 1 (leafPage 0 kept) 1 = leafPage 0 kept
          exact setF_same _ _ _
        have hfind' : BTree.findLeafPage s' key BTree.FUEL s'.root = some 1 := by
          show BTree.findLeafPage s' key BTree.FUEL s.root = some 1
          rw [hroot, show BTree.FUEL = 63 + 1 from rfl]
          exact findLeafPage_leaf s' key 63 1 (by rw [hpg1', leafPage_byteZero])
        constructor
        · rw [search_leafPage s' 1 key kept hfind' hpg1' hwf',
            find?_filter_none cs key]
          rfl
        · intro l hl
          have hga : BTree.getAll s' = some kept :=
            getAll_leafRoot s' kept hroot hpg1' hwf'
          rw [hga] at hl
          cases hl
          exact key_not_mem_filter cs key
      · rw [delete_missing s 1 key cs hpage hwf hfind hin] at hok
        simp at hok
    · intro pid hp hnotin
      rw [hfind] at hp
      cases hp
      rw [hparseL] at hnotin
      exact delete_missing s 1 key cs hpage hwf hfind hnotin
  · -- two-leaf shape
    have hfind : BTree.findLeafPage s key BTree.FUEL s.root =
        some (if key < sep then 1 else 2) := by
      rw [hroot]
      exact findLeafPage_twoLeaf s key sep csL csR hpg3 hpg1 hpg2 hsep0 hsepB
    by_cases hkey : key < sep
    · have hpid : BTree.findLeafPage s key BTree.FUEL s.root = some 1 := by
        rw [hfind, if_pos hkey]
      have hparseL : BTree.leafCellsOf (s.pages 1) = csL := by
        rw [hpg1]
        exact (leafPage_parse 0 csL (wfLeaf_length_lt csL hwfL.2.2) (by omega) hwfL.1).2.2.2.1
      constructor
      · intro hok
        by_cases hin : key ∈ csL.map Cell.key
        · obtain ⟨heq, hwf'⟩ := delete_found s 1 key csL hpg1 hwfL hpid hin
          rw [heq]
          set kept := csL.filter (fun c => !(c.key == key)) with hkept
          set s' : BTree := { s with pages := (setF s.pages 1 (leafPage 0 kept)) } with hs'
          have hpg1' : s'.pages 1 = leafPage 0 kept := by
            show setF s.pages 1 (leafPage 0 kept) 1 = leafPage 0 kept
            exact setF_same _ _ _
          have hpg2' : s'.pages 2 = leafPage 0 csR := by
            show setF s.pages 1 (leafPage 0 kept) 2 = _
            rw [setF_other _ _ _ _ (by omega)]
            exact hpg2
          have hpg3' : s'.pages 3 = internalPage 0 1 [(sep, 2)] := by
            show setF s.pages 1 (leafPage 0 kept) 3 = _
            rw [setF_other _ _ _ _ (by omega)]
            exact hpg3
          have hfind' : BTree.findLeafPage s' key BTree.FUEL s'.root = some 1 := by
            show BTree.findLeafPage s' key BTree.FUEL s.root = some 1
            rw [hroot,
              findLeafPage_twoLeaf s' key sep kept csR hpg3' hpg1' hpg2' hsep0 hsepB,
              if_pos hkey]
          constructor
          · rw [search_leafPage s' 1 key kept hfind' hpg1' hwf',
              find?_filter_none csL key]
            rfl
          · intro l hl
            have hga : BTree.getAll s' = some (kept ++ csR) :=
              getAll_twoLeaf s' sep kept csR hroot hpg3' hpg1' hwf' hpg2' hwfR hsep0 hsepB
            rw [hga] at hl
            cases hl
            rw [List.map_append]
            intro hmem
            rcases List.mem_append.mp hmem with hm | hm
            · exact key_not_mem_filter csL key hm
            · obtain ⟨c, hc, he⟩ := List.mem_map.mp hm
              have := hregR c hc
              omega
        · rw [delete_missing s 1 key csL hpg1 hwfL hpid hin] at hok
          simp at hok
      · intro pid hp hnotin
        rw [hpid] at hp
        cases hp
        rw [hparseL] at hnotin
        exact delete_missing s 1 key csL hpg1 hwfL hpid hnotin
    · have hpid : BTree.findLeafPage s key BTree.FUEL s.root = some 2 := by
        rw [hfind, if_neg hkey]
      have hparseR : BTree.leafCellsOf (s.pages 2) = csR := by
        rw [hpg2]
        exact (leafPage_parse 0 csR (wfLeaf_length_lt csR hwfR.2.2) (by omega) hwfR.1).2.2.2.1
      constructor
      · intro hok
        by_cases hin : key ∈ csR.map Cell.key
        · obtain ⟨heq, hwf'⟩ := delete_found s 2 key csR hpg2 hwfR hpid hin
          rw [heq]
          set kept := csR.filter (fun c => !(c.key == key)) with hkept
          set s' : BTree := { s with pages := (setF s.pages 2 (leafPage 0 kept)) } with hs'
          have hpg2' : s'.pages 2 = leafPage 0 kept := by
            show setF s.pages 2 (leafPage 0 kept) 2 = leafPage 0 kept
            exact setF_same _ _ _
          have hpg1' : s'.pages 1 = leafPage 0 csL := by
            show setF s.pages 2 (leafPage 0 kept) 1 = _
            rw [setF_other _ _ _ _ (by omega)]
            exact hpg1
          have hpg3' : s'.pages 3 = internalPage 0 1 [(sep, 2)] := by
            show setF s.pages 2 (leafPage 0 kept) 3 = _
            rw [setF_other _ _ _ _ (by omega)]
            exact hpg3
          have hfind' : BTree.findLeafPage s' key BTree.FUEL s'.root = some 2 := by
            show BTree.findLeafPage s' key BTree.FUEL s.root = some 2
            rw [hroot,
              findLeafPage_twoLeaf s' key sep csL kept hpg3' hpg1' hpg2' hsep0 hsepB,
              if_neg hkey]
          constructor
          · rw [search_leafPage s' 2 key kept hfind' hpg2' hwf',
              find?_filter_none csR key]
            rfl
          · intro l hl
            have hga : BTree.getAll s' = some (csL ++ kept) :=
              getAll_twoLeaf s' sep csL kept hroot hpg3' hpg1' hwfL hpg2' hwf' hsep0 hsepB
            rw [hga] at hl
            cases hl
            rw [List.map_append]
            intro hmem
            rcases List.mem_append.mp hmem with hm | hm
            · obtain ⟨c, hc, he⟩ := List.mem_map.mp hm
              have := hregL c hc
              omega
            · exact key_not_mem_filter csR key hm
        · rw [delete_missing s 2 key csR hpg2 hwfR hpid hin] at hok
          simp at hok
      · intro pid hp hnotin
        rw [hpid] at hp
        cases hp
        rw [hparseR] at hnotin
        exact delete_missing s 2 key csR hpg2 hwfR hpid hnotin

/-- Witness for C7: the concrete reachable state holding key 5, for
which part one fires on `delete 5` and part two on `delete 9`. -/
theorem claim_C7_witness :
    Reachable (BTree.insert emptyBT 5 [7, 8]).2 ∧
    ((BTree.delete (BTree.insert emptyBT 5 [7, 8]).2 5).1 = .ok () ∧
      BTree.search (BTree.delete (BTree.insert emptyBT 5 [7, 8]).2 5).2 5 = .ok none) ∧
    BTree.delete (BTree.insert emptyBT 5 [7, 8]).2 9 =
      (.error (.keyNotFound 9), (BTree.insert emptyBT 5 [7, 8]).2) :=
  have hr : Reachable (BTree.insert emptyBT 5 [7, 8]).2 :=
    Reachable.step Reachable.init
      (Step.insert emptyBT 5 [7, 8] (by decide) (by decide) (by decide) (by decide))
  have hok : (BTree.delete (BTree.insert emptyBT 5 [7, 8]).2 5).1 = .ok () := by decide
  ⟨hr, ⟨hok, ((claim_C7 _ hr 5).1 hok).1⟩,
    (claim_C7 _ hr 9).2 1 (by decide) (by decide)⟩

/-- C6: every leaf split merges the new cell, sorts by key, takes
`mid = floor(total/2)`, writes cells `[0, mid)` back to the split page
and `[mid, total)` to the freshly allocated page, and promotes
`sorted[mid].key`.  When the split page was the root, a new root page
is allocated and written as an internal node with one cell —
`child_0` = old root, `key_1` = separator, `child_1` = new right page,
`parent = 0` — the tree's `rootPageId` is updated and persisted under
metadata key `root`.  When it was not the root, the separator and the
new right page id are inserted into the internal page named by the
split page's stored parent pointer — which is always 0, because
`writeCellsToLeaf` never sets it — while the written halves, the root
and the incremented allocation counter stand. -/
theorem claim_C6 (s : BTree) (pid : Nat) (key : Int) (v : List Nat) (cs : List Cell)
    (hpid0 : 0 < pid) (hpidm : pid ≤ s.maxPageId)
    (hpage : s.pages pid = leafPage 0 cs) (hwf : WfLeaf cs)
    (hdup : key ∉ cs.map Cell.key)
    (hfitL : BTree.leafBytesSize
      ((List.insertionSort keyLe (cs ++ [⟨key, v.length, v⟩])).take
        ((List.insertionSort keyLe (cs ++ [⟨key, v.length, v⟩])).length / 2)) ≤ 4096)
    (hfitR : BTree.leafBytesSize
      ((List.insertionSort keyLe (cs ++ [⟨key, v.length, v⟩])).drop
        ((List.insertionSort keyLe (cs ++ [⟨key, v.length, v⟩])).length / 2)) ≤ 4096) :
    ∃ sorted mid sepKey,
      List.Perm sorted (cs ++ [⟨key, v.length, v⟩]) ∧
      KeySorted sorted ∧
      mid = sorted.length / 2 ∧
      sepKey = (sorted.getD mid ⟨0, 0, []⟩).key ∧
      getU32 (s.pages pid) 3 = 0 ∧
      (BTree.splitLeaf s pid key v).2.pages pid = leafPage 0 (sorted.take mid) ∧
      (BTree.splitLeaf s pid key v).2.pages (s.maxPageId + 1) =
        leafPage 0 (sorted.drop mid) ∧
      (pid = s.root →
        (BTree.splitLeaf s pid key v).1 = .ok () ∧
        (BTree.splitLeaf s pid key v).2.root = s.maxPageId + 2 ∧
        (BTree.splitLeaf s pid key v).2.pages (s.maxPageId + 2) =
          internalPage 0 pid [(sepKey, s.maxPageId + 1)] ∧
        (BTree.splitLeaf s pid key v).2.maxPageId = s.maxPageId + 2 ∧
        (BTree.splitLeaf s pid key v).2.meta "root" = some (s.maxPageId + 2)) ∧
      (pid ≠ s.root →
        BTree.splitLeaf s pid key v =
          BTree.insertIntoInternal
            { s with
              maxPageId := s.maxPageId + 1
              pages := (setF (setF s.pages pid (leafPage 0 (sorted.take mid)))
                (s.maxPageId + 1) (leafPage 0 (sorted.drop mid))) }
            (getU32 (s.pages pid) 3) (sorted.getD mid ⟨0, 0, []⟩).key
            (s.maxPageId + 1) ∧
        (BTree.splitLeaf s pid key v).2.root = s.root ∧
        (BTree.splitLeaf s pid key v).2.maxPageId = s.maxPageId + 1) := by
  set sorted := List.insertionSort keyLe (cs ++ [⟨key, v.length, v⟩]) with hsorted
  set mid := sorted.length / 2 with hmid
  have hne : ∀ d ∈ cs, d.key ≠ (⟨key, v.length, v⟩ : Cell).key := by
    intro d hd he
    have hm := List.mem_map_of_mem Cell.key hd
    rw [he] at hm
    exact hdup hm
  obtain ⟨hperm, hKS⟩ := sort_fresh_sorted cs ⟨key, v.length, v⟩ hwf.2.1 hne
  rw [← hsorted] at hperm hKS
  have h3 : getU32 (s.pages pid) 3 = 0 := by
    obtain ⟨-, -, h3', -, -⟩ :=
      leafPage_parse 0 cs (wfLeaf_length_lt cs hwf.2.2) (by omega) hwf.1
    rw [hpage]
    exact h3'
  have heq := splitLeaf_char s pid key v cs hpage hwf sorted hsorted mid hmid hfitL hfitR
  by_cases hroot : pid = s.root
  · rw [if_pos hroot] at heq
    unfold BTree.createGenericRoot at heq
    refine ⟨sorted, mid, (sorted.getD mid ⟨0, 0, []⟩).key, hperm, hKS, hmid, rfl,
      h3, ?_, ?_, fun _ => ⟨?_, ?_, ?_, ?_, ?_⟩, fun hn => absurd hroot hn⟩
    · rw [heq]
      show setF (setF (setF s.pages pid (leafPage 0 (sorted.take mid)))
        (s.maxPageId + 1) (leafPage 0 (sorted.drop mid)))
        (s.maxPageId + 1 + 1) (internalPage 0 pid
          [((sorted.getD mid ⟨0, 0, []⟩).key, s.maxPageId + 1)]) pid =
        leafPage 0 (sorted.take mid)
      rw [setF_other _ _ _ _ (by omega), setF_other _ _ _ _ (by omega), setF_same]
    · rw [heq]
      show setF (setF (setF s.pages pid (leafPage 0 (sorted.take mid)))
        (s.maxPageId + 1) (leafPage 0 (sorted.drop mid)))
        (s.maxPageId + 1 + 1) (internalPage 0 pid
          [((sorted.getD mid ⟨0, 0, []⟩).key, s.maxPageId + 1)]) (s.maxPageId + 1) =
        leafPage 0 (sorted.drop mid)
      rw [setF_other _ _ _ _ (by omega), setF_same]
    · rw [heq]
    · rw [heq]
    · rw [heq]
      show setF (setF (setF s.pages pid (leafPage 0 (sorted.take mid)))
        (s.maxPageId + 1) (leafPage 0 (sorted.drop mid)))
        (s.maxPageId + 1 + 1) (internalPage 0 pid
          [((sorted.getD mid ⟨0, 0, []⟩).key, s.maxPageId + 1)]) (s.maxPageId + 2) =
        internalPage 0 pid [((sorted.getD mid ⟨0, 0, []⟩).key, s.maxPageId + 1)]
      have e : s.maxPageId + 2 = s.maxPageId + 1 + 1 := by omega
      rw [e, setF_same]
    · rw [heq]
    · rw [heq]
      show setS s.meta "root" (some (s.maxPageId + 1 + 1)) "root" =
        some (s.maxPageId + 2)
      have e : s.maxPageId + 2 = s.maxPageId + 1 + 1 := by omega
      rw [e]
      exact setS_same _ _ _
  · rw [if_neg hroot] at heq
    obtain ⟨hfr, hfm, -, hfp⟩ := insertIntoInternal_frame
      { s with
        maxPageId := s.maxPageId + 1
        pages := (setF (setF s.pages pid (leafPage 0 (sorted.take mid)))
          (s.maxPageId + 1) (leafPage 0 (sorted.drop mid))) }
      0 (sorted.getD mid ⟨0, 0, []⟩).key (s.maxPageId + 1)
    refine ⟨sorted, mid, (sorted.getD mid ⟨0, 0, []⟩).key, hperm, hKS, hmid, rfl,
      h3, ?_, ?_, fun he => absurd he hroot, fun _ => ⟨?_, ?_, ?_⟩⟩
    · rw [heq, hfp pid (by omega)]
      show setF (setF s.pages pid (leafPage 0 (sorted.take mid)))
        (s.maxPageId + 1) (leafPage 0 (sorted.drop mid)) pid =
        leafPage 0 (sorted.take mid)
      rw [setF_other _ _ _ _ (by omega), setF_same]
    · rw [heq, hfp (s.maxPageId + 1) (by omega)]
      show setF (setF s.pages pid (leafPage 0 (sorted.take mid)))
        (s.maxPageId + 1) (leafPage 0 (sorted.drop mid)) (s.maxPageId + 1) =
        leafPage 0 (sorted.drop mid)
      rw [setF_same]
    · rw [h3]
      exact heq
    · rw [heq, hfr]
    · rw [heq, hfm]

/-- Witness for C6: a concrete non-root leaf split — the tree already
has internal root 3 over leaves 1 and 2; splitting leaf 2 writes the
halves to pages 2 and 4 and promotes the separator into the page named
by the stored parent pointer (0). -/
theorem claim_C6_witness :
    ∃ sorted mid sepKey,
      List.Perm sorted ([⟨5, 1, [8]⟩, ⟨6, 1, [9]⟩] ++ [(⟨7, 1, [4]⟩ : Cell)]) ∧
      KeySorted sorted ∧
      mid = sorted.length / 2 ∧
      sepKey = (sorted.getD mid ⟨0, 0, []⟩).key ∧
      getU32 (({ pages := (setF (setF (setF (fun _ => List.replicate 4096 0) 1 (leafPage 0 [⟨1, 1, [7]⟩])) 2 (leafPage 0 [⟨5, 1, [8]⟩, ⟨6, 1, [9]⟩])) 3 (internalPage 0 1 [(5, 2)])), maxPageId := 3, root := 3, meta := fun _ => none } : BTree).pages 2) 3 = 0 ∧
      (BTree.splitLeaf { pages := (setF (setF (setF (fun _ => List.replicate 4096 0) 1 (leafPage 0 [⟨1, 1, [7]⟩])) 2 (leafPage 0 [⟨5, 1, [8]⟩, ⟨6, 1, [9]⟩])) 3 (internalPage 0 1 [(5, 2)])), maxPageId := 3, root := 3, meta := fun _ => none } 2 7 [4]).2.pages 2 = leafPage 0 (sorted.take mid) ∧
      (BTree.splitLeaf { pages := (setF (setF (setF (fun _ => List.replicate 4096 0) 1 (leafPage 0 [⟨1, 1, [7]⟩])) 2 (leafPage 0 [⟨5, 1, [8]⟩, ⟨6, 1, [9]⟩])) 3 (internalPage 0 1 [(5, 2)])), maxPageId := 3, root := 3, meta := fun _ => none } 2 7 [4]).2.pages 4 = leafPage 0 (sorted.drop mid) ∧
      ((2 : Nat) = 3 →
        (BTree.splitLeaf { pages := (setF (setF (setF (fun _ => List.replicate 4096 0) 1 (leafPage 0 [⟨1, 1, [7]⟩])) 2 (leafPage 0 [⟨5, 1, [8]⟩, ⟨6, 1, [9]⟩])) 3 (internalPage 0 1 [(5, 2)])), maxPageId := 3, root := 3, meta := fun _ => none } 2 7 [4]).1 = .ok () ∧
        (BTree.splitLeaf { pages := (setF (setF (setF (fun _ => List.replicate 4096 0) 1 (leafPage 0 [⟨1, 1, [7]⟩])) 2 (leafPage 0 [⟨5, 1, [8]⟩, ⟨6, 1, [9]⟩])) 3 (internalPage 0 1 [(5, 2)])), maxPageId := 3, root := 3, meta := fun _ => none } 2 7 [4]).2.root = 5 ∧
        (BTree.splitLeaf { pages := (setF (setF (setF (fun _ => List.replicate 4096 0) 1 (leafPage 0 [⟨1, 1, [7]⟩])) 2 (leafPage 0 [⟨5, 1, [8]⟩, ⟨6, 1, [9]⟩])) 3 (internalPage 0 1 [(5, 2)])), maxPageId := 3, root := 3, meta := fun _ => none } 2 7 [4]).2.pages 5 =
          internalPage 0 2 [(sepKey, 4)] ∧
        (BTree.splitLeaf { pages := (setF (setF (setF (fun _ => List.replicate 4096 0) 1 (leafPage 0 [⟨1, 1, [7]⟩])) 2 (leafPage 0 [⟨5, 1, [8]⟩, ⟨6, 1, [9]⟩])) 3 (internalPage 0 1 [(5, 2)])), maxPageId := 3, root := 3, meta := fun _ => none } 2 7 [4]).2.maxPageId = 5 ∧
        (BTree.splitLeaf { pages := (setF (setF (setF (fun _ => List.replicate 4096 0) 1 (leafPage 0 [⟨1, 1, [7]⟩])) 2 (leafPage 0 [⟨5, 1, [8]⟩, ⟨6, 1, [9]⟩])) 3 (internalPage 0 1 [(5, 2)])), maxPageId := 3, root := 3, meta := fun _ => none } 2 7 [4]).2.meta "root" = some 5) ∧
      ((2 : Nat) ≠ 3 →
        BTree.splitLeaf { pages := (setF (setF (setF (fun _ => List.replicate 4096 0) 1 (leafPage 0 [⟨1, 1, [7]⟩])) 2 (leafPage 0 [⟨5, 1, [8]⟩, ⟨6, 1, [9]⟩])) 3 (internalPage 0 1 [(5, 2)])), maxPageId := 3, root := 3, meta := fun _ => none } 2 7 [4] =
          BTree.insertIntoInternal
            { ({ pages := (setF (setF (setF (fun _ => List.replicate 4096 0) 1 (leafPage 0 [⟨1, 1, [7]⟩])) 2 (leafPage 0 [⟨5, 1, [8]⟩, ⟨6, 1, [9]⟩])) 3 (internalPage 0 1 [(5, 2)])), maxPageId := 3, root := 3, meta := fun _ => none } : BTree) with
              maxPageId := 4
              pages := (setF (setF ({ pages := (setF (setF (setF (fun _ => List.replicate 4096 0) 1 (leafPage 0 [⟨1, 1, [7]⟩])) 2 (leafPage 0 [⟨5, 1, [8]⟩, ⟨6, 1, [9]⟩])) 3 (internalPage 0 1 [(5, 2)])), maxPageId := 3, root := 3, meta := fun _ => none } : BTree).pages 2
                (leafPage 0 (sorted.take mid))) 4 (leafPage 0 (sorted.drop mid))) }
            (getU32 (({ pages := (setF (setF (setF (fun _ => List.replicate 4096 0) 1 (leafPage 0 [⟨1, 1, [7]⟩])) 2 (leafPage 0 [⟨5, 1, [8]⟩, ⟨6, 1, [9]⟩])) 3 (internalPage 0 1 [(5, 2)])), maxPageId := 3, root := 3, meta := fun _ => none } : BTree).pages 2) 3) (sorted.getD mid ⟨0, 0, []⟩).key 4 ∧
        (BTree.splitLeaf { pages := (setF (setF (setF (fun _ => List.replicate 4096 0) 1 (leafPage 0 [⟨1, 1, [7]⟩])) 2 (leafPage 0 [⟨5, 1, [8]⟩, ⟨6, 1, [9]⟩])) 3 (internalPage 0 1 [(5, 2)])), maxPageId := 3, root := 3, meta := fun _ => none } 2 7 [4]).2.root = 3 ∧
        (BTree.splitLeaf { pages := (setF (setF (setF (fun _ => List.replicate 4096 0) 1 (leafPage 0 [⟨1, 1, [7]⟩])) 2 (leafPage 0 [⟨5, 1, [8]⟩, ⟨6, 1, [9]⟩])) 3 (internalPage 0 1 [(5, 2)])), maxPageId := 3, root := 3, meta := fun _ => none } 2 7 [4]).2.maxPageId = 4) :=
  claim_C6 { pages := (setF (setF (setF (fun _ => List.replicate 4096 0) 1 (leafPage 0 [⟨1, 1, [7]⟩])) 2 (leafPage 0 [⟨5, 1, [8]⟩, ⟨6, 1, [9]⟩])) 3 (internalPage 0 1 [(5, 2)])), maxPageId := 3, root := 3, meta := fun _ => none } 2 7 [4] [⟨5, 1, [8]⟩, ⟨6, 1, [9]⟩]
    (by decide) (by decide) rfl (by decide) (by decide) (by decide) (by decide)

/-- C9, corrected: `insertIntoInternal` fails with the index-page-full
error exactly when the page already holds 100 entries — a hard-coded
demo limit, not the 4096-byte page capacity: whenever the limit does
not fire, the rewritten node occupies at most 11 + 8·100 = 811 bytes,
far below capacity, so the byte bound can never be the binding
constraint.  On success the new `(key, right_child)` entry joins the
existing ones sorted by key and the page is rewritten with `child_0`
and the parent pointer copied. -/
theorem claim_C9 (s : BTree) (pid : Nat) (key : Int) (rc : Nat)
    (items : List (Int × Nat)) (parent p0 : Nat)
    (hpage : s.pages pid = internalPage parent p0 items)
    (hn : items.length < 65536) (hpar : parent < 4294967296)
    (hp0 : p0 < 4294967296)
    (hwf : ∀ it ∈ items, 0 ≤ it.1 ∧ it.1 < 4294967296 ∧ it.2 < 4294967296) :
    (100 ≤ items.length →
      BTree.insertIntoInternal s pid key rc = (.error .indexPageFull, s)) ∧
    ((BTree.insertIntoInternal s pid key rc).1 = .error .indexPageFull →
      100 ≤ items.length) ∧
    (items.length < 100 →
      ∃ out, List.Perm out (items ++ [(key, rc)]) ∧
        List.Sorted itemLe out ∧
        BTree.insertIntoInternal s pid key rc =
          (.ok (), { s with
            pages := setF s.pages pid (internalPage parent p0 out) }) ∧
        11 + 8 * out.length ≤ 4096) := by
  obtain ⟨-, hn1, h3, h7, hitems⟩ := internalPage_parse parent p0 items hn hpar hp0 hwf
  have hchar_err : 100 ≤ items.length →
      BTree.insertIntoInternal s pid key rc = (.error .indexPageFull, s) := by
    intro hge
    simp only [BTree.insertIntoInternal, hpage, hn1, if_pos hge]
  have hchar_ok : items.length < 100 →
      BTree.insertIntoInternal s pid key rc =
        (.ok (), { s with
          pages := setF s.pages pid (internalPage parent p0
            (List.insertionSort itemLe (items ++ [(key, rc)]))) }) := by
    intro hlt
    have hnot : ¬ 100 ≤ items.length := by omega
    simp only [BTree.insertIntoInternal, hpage, hn1, hitems, h3, h7, if_neg hnot]
  refine ⟨hchar_err, fun herr => ?_, fun hlt => ?_⟩
  · by_contra hlt
    push_neg at hlt
    rw [hchar_ok hlt] at herr
    exact absurd herr (by simp)
  · refine ⟨List.insertionSort itemLe (items ++ [(key, rc)]),
      List.perm_insertionSort _ _, List.sorted_insertionSort _ _,
      hchar_ok hlt, ?_⟩
    have hlen : (List.insertionSort itemLe (items ++ [(key, rc)])).length
        = items.length + 1 := by
      rw [(List.perm_insertionSort itemLe (items ++ [(key, rc)])).length_eq]
      simp
    omega

/-- Counterexample to C9 as stated: an internal page holding 100
entries is rejected with the index-page-full error although the
rewritten node would occupy only 11 + 8·101 = 819 of the 4096 bytes. -/
theorem claim_C9_counterexample :
    ∃ (s : BTree) (pid : Nat) (key : Int) (rc : Nat)
      (items : List (Int × Nat)) (parent p0 : Nat),
      s.pages pid = internalPage parent p0 items ∧
      11 + 8 * (items.length + 1) ≤ 4096 ∧
      (BTree.insertIntoInternal s pid key rc).1 = .error .indexPageFull := by
  refine ⟨{ pages := setF (fun _ => List.replicate 4096 0) 1
              (internalPage 0 1 ((List.range 100).map (fun (i : Nat) => ((i : Int), i + 10))))
            maxPageId := 1
            root := 1
            meta := fun _ => none }, 1, 500, 7,
    (List.range 100).map (fun (i : Nat) => ((i : Int), i + 10)), 0, 1, rfl, by decide, ?_⟩
  decide

/-- Witness for C9: a one-entry internal page accepts a new entry and is
rewritten sorted; the same theorem also certifies both error directions
vacuously or directly at this input. -/
theorem claim_C9_witness :
    (100 ≤ ([((5 : Int), (2 : Nat))] : List (Int × Nat)).length →
      BTree.insertIntoInternal
        { pages := (setF (fun _ => List.replicate 4096 0) 1
            (internalPage 0 1 [(5, 2)]))
          maxPageId := 1
          root := 1
          meta := fun _ => none } 1 9 7 =
        (.error .indexPageFull,
          { pages := (setF (fun _ => List.replicate 4096 0) 1
              (internalPage 0 1 [(5, 2)]))
            maxPageId := 1
            root := 1
            meta := fun _ => none })) ∧
    ((BTree.insertIntoInternal
        { pages := (setF (fun _ => List.replicate 4096 0) 1
            (internalPage 0 1 [(5, 2)]))
          maxPageId := 1
          root := 1
          meta := fun _ => none } 1 9 7).1 = .error .indexPageFull →
      100 ≤ ([((5 : Int), (2 : Nat))] : List (Int × Nat)).length) ∧
    (([((5 : Int), (2 : Nat))] : List (Int × Nat)).length < 100 →
      ∃ out, List.Perm out ([((5 : Int), (2 : Nat))] ++ [(9, 7)]) ∧
        List.Sorted itemLe out ∧
        BTree.insertIntoInternal
          { pages := (setF (fun _ => List.replicate 4096 0) 1
              (internalPage 0 1 [(5, 2)]))
            maxPageId := 1
            root := 1
            meta := fun _ => none } 1 9 7 =
          (.ok (), { pages := setF (setF (fun _ => List.replicate 4096 0) 1
                         (internalPage 0 1 [(5, 2)])) 1 (internalPage 0 1 out)
                     maxPageId := 1
                     root := 1
                     meta := fun _ => none }) ∧
        11 + 8 * out.length ≤ 4096) :=
  claim_C9
    { pages := (setF (fun _ => List.replicate 4096 0) 1
        (internalPage 0 1 [(5, 2)]))
      maxPageId := 1
      root := 1
      meta := fun _ => none }
    1 9 7 [(5, 2)] 0 1 rfl (by decide) (by decide) (by decide) (by decide)

theorem getD_tail_val (vals : List (Option Value)) (k : Nat) :
    vals.tail.getD k none = vals.getD (k + 1) none := by
  cases vals <;> simp [List.getD]

theorem buildRowAux_noPk (seqv : Nat) (mk : Option Int) (cols : List Column)
    (hno : ∀ c ∈ cols, c.isPrimaryKey = false) :
    ∀ (vals : List (Option Value)) (row : Row) (pkin : Option Int)
      (row' : Row) (pkOut : Option Int),
      buildRowAux seqv mk cols vals row pkin = .ok (row', pkOut) → pkOut = pkin := by
  induction cols with
  | nil =>
    intro vals row pkin row' pkOut h
    simp only [buildRowAux, Except.ok.injEq, Prod.mk.injEq] at h
    exact h.2.symm
  | cons c cs ih =>
    intro vals row pkin row' pkOut h
    have hc : c.isPrimaryKey = false := hno c (by simp)
    rcases hv : vals.headD none with _ | v
    · simp only [buildRowAux, hc, Bool.false_eq_true, if_false, hv] at h
      exact absurd h (by simp)
    · simp only [buildRowAux, hc, Bool.false_eq_true, if_false, hv] at h
      by_cases hval : validateType v c.type = true
      · rw [if_pos hval] at h
        exact ih (fun d hd => hno d (List.mem_cons_of_mem _ hd)) _ _ _ _ _ h
      · rw [if_neg hval] at h
        exact absurd h (by simp)

theorem buildRowAux_cons_nonpk (seqv : Nat) (mk : Option Int) (c : Column)
    (cs : List Column) (vals : List (Option Value)) (row : Row) (pkin : Option Int)
    (hc : c.isPrimaryKey = false) :
    buildRowAux seqv mk (c :: cs) vals row pkin =
      match vals.headD none with
      | none => .error (.nullValue c.name)
      | some v =>
        if validateType v c.type = true then
          buildRowAux seqv mk cs vals.tail (rowSet row c.name v) pkin
        else .error (.typeMismatch c.name) := by
  simp only [buildRowAux, hc, Bool.false_eq_true, if_false]

theorem buildRowAux_cons_auto_none (seqv : Nat) (c : Column)
    (cs : List Column) (vals : List (Option Value)) (row : Row) (pkin : Option Int)
    (hc : c.isPrimaryKey = true)
    (hcond : vals.headD none = none ∨ vals.headD none = some (.str nullMarker)) :
    buildRowAux seqv none (c :: cs) vals row pkin = .error .fuelExhausted := by
  simp only [buildRowAux, hc, if_true]
  rw [if_pos hcond]

theorem buildRowAux_cons_auto_some (seqv : Nat) (m : Int) (c : Column)
    (cs : List Column) (vals : List (Option Value)) (row : Row) (pkin : Option Int)
    (hc : c.isPrimaryKey = true)
    (hcond : vals.headD none = none ∨ vals.headD none = some (.str nullMarker)) :
    buildRowAux seqv (some m) (c :: cs) vals row pkin =
      if validateType (.int ((if seqv ≠ 0 then (seqv : Int) else m) + 1)) c.type = true then
        buildRowAux seqv (some m) cs vals.tail
          (rowSet row c.name (.int ((if seqv ≠ 0 then (seqv : Int) else m) + 1)))
          (some ((if seqv ≠ 0 then (seqv : Int) else m) + 1))
      else .error (.typeMismatch c.name) := by
  simp only [buildRowAux, hc, if_true]
  rw [if_pos hcond]

theorem buildRowAux_cons_supplied_int (seqv : Nat) (mk : Option Int) (c : Column)
    (cs : List Column) (vals : List (Option Value)) (row : Row) (pkin : Option Int)
    (i : Int)
    (hc : c.isPrimaryKey = true)
    (hv : vals.headD none = some (.int i)) :
    buildRowAux seqv mk (c :: cs) vals row pkin =
      if validateType (.int i) c.type = true then
        buildRowAux seqv mk cs vals.tail (rowSet row c.name (.int i)) (some i)
      else .error (.typeMismatch c.name) := by
  have hcond : ¬ (vals.headD none = none ∨
      vals.headD none = some (.str nullMarker)) := by
    rw [hv]; simp
  simp only [buildRowAux, hc, if_true]
  rw [if_neg hcond, hv]

theorem buildRowAux_cons_supplied_str (seqv : Nat) (mk : Option Int) (c : Column)
    (cs : List Column) (vals : List (Option Value)) (row : Row) (pkin : Option Int)
    (s : List Nat)
    (hc : c.isPrimaryKey = true)
    (hv : vals.headD none = some (.str s))
    (hnm : s ≠ nullMarker) :
    buildRowAux seqv mk (c :: cs) vals row pkin = .error .invalidPk := by
  have hcond : ¬ (vals.headD none = none ∨
      vals.headD none = some (.str nullMarker)) := by
    rw [hv]; simp [hnm]
  simp only [buildRowAux, hc, if_true]
  rw [if_neg hcond, hv]

theorem buildRowAux_auto (seqv : Nat) (mk : Option Int) (cols : List Column) :
    ∀ (vals : List (Option Value)) (row : Row) (pkin : Option Int) (j : Nat)
      (hj : j < cols.length),
      (cols.get ⟨j, hj⟩).isPrimaryKey = true →
      (∀ i (hi : i < cols.length), (cols.get ⟨i, hi⟩).isPrimaryKey = true → i = j) →
      (vals.getD j none = none ∨ vals.getD j none = some (.str nullMarker)) →
      ∀ (row' : Row) (pkOut : Option Int),
        buildRowAux seqv mk cols vals row pkin = .ok (row', pkOut) →
        ∃ m, mk = some m ∧
          pkOut = some ((if seqv ≠ 0 then (seqv : Int) else m) + 1) := by
  induction cols with
  | nil =>
    intro vals row pkin j hj
    exact absurd hj (by simp)
  | cons c cs ih =>
    intro vals row pkin j hj hpk huniq hslot row' pkOut h
    cases j with
    | zero =>
      have hc : c.isPrimaryKey = true := hpk
      have hnopk : ∀ d ∈ cs, d.isPrimaryKey = false := by
        intro d hd
        cases hb : d.isPrimaryKey
        · rfl
        · exfalso
          obtain ⟨⟨i, hi⟩, hde⟩ := List.get_of_mem hd
          have h01 : i + 1 = 0 := by
            refine huniq (i + 1) (Nat.succ_lt_succ hi) ?_
            show (cs.get ⟨i, hi⟩).isPrimaryKey = true
            rw [hde]
            exact hb
          omega
      have hhd : vals.headD none = none ∨
          vals.headD none = some (.str nullMarker) := by
        rcases vals with _ | ⟨v0, vtl⟩
        · exact Or.inl rfl
        · simpa using hslot
      rcases mk with _ | m
      · rw [buildRowAux_cons_auto_none seqv c cs vals row pkin hc hhd] at h
        exact absurd h (by simp)
      · rw [buildRowAux_cons_auto_some seqv m c cs vals row pkin hc hhd] at h
        by_cases hval : validateType
            (.int ((if seqv ≠ 0 then (seqv : Int) else m) + 1)) c.type = true
        · rw [if_pos hval] at h
          have := buildRowAux_noPk seqv (some m) cs hnopk _ _ _ _ _ h
          exact ⟨m, rfl, this⟩
        · rw [if_neg hval] at h
          exact absurd h (by simp)
    | succ k =>
      have hc : c.isPrimaryKey = false := by
        cases hb : c.isPrimaryKey
        · rfl
        · exfalso
          have h0 : (0 : Nat) = k + 1 := huniq 0 (Nat.succ_pos _) hb
          omega
      rw [buildRowAux_cons_nonpk seqv mk c cs vals row pkin hc] at h
      rcases hv : vals.headD none with _ | v
      · simp only [hv] at h
        exact absurd h (by simp)
      · simp only [hv] at h
        by_cases hval : validateType v c.type = true
        · rw [if_pos hval] at h
          refine ih vals.tail (rowSet row c.name v) pkin k
            (Nat.lt_of_succ_lt_succ hj) hpk ?_ ?_ _ _ h
          · intro i hi ht
            have := huniq (i + 1) (Nat.succ_lt_succ hi) ht
            omega
          · rw [getD_tail_val]
            exact hslot
        · rw [if_neg hval] at h
          exact absurd h (by simp)

theorem buildRowAux_supplied (seqv : Nat) (mk : Option Int) (cols : List Column) :
    ∀ (vals : List (Option Value)) (row : Row) (pkin : Option Int) (j : Nat)
      (hj : j < cols.length) (v0 : Value),
      (cols.get ⟨j, hj⟩).isPrimaryKey = true →
      (∀ i (hi : i < cols.length), (cols.get ⟨i, hi⟩).isPrimaryKey = true → i = j) →
      vals.getD j none = some v0 →
      v0 ≠ .str nullMarker →
      ∀ (row' : Row) (pkOut : Option Int),
        buildRowAux seqv mk cols vals row pkin = .ok (row', pkOut) →
        ∃ i, v0 = .int i ∧ pkOut = some i := by
  induction cols with
  | nil =>
    intro vals row pkin j hj
    exact absurd hj (by simp)
  | cons c cs ih =>
    intro vals row pkin j hj v0 hpk huniq hslot hnm row' pkOut h
    cases j with
    | zero =>
      have hc : c.isPrimaryKey = true := hpk
      have hnopk : ∀ d ∈ cs, d.isPrimaryKey = false := by
        intro d hd
        cases hb : d.isPrimaryKey
        · rfl
        · exfalso
          obtain ⟨⟨i, hi⟩, hde⟩ := List.get_of_mem hd
          have h01 : i + 1 = 0 := by
            refine huniq (i + 1) (Nat.succ_lt_succ hi) ?_
            show (cs.get ⟨i, hi⟩).isPrimaryKey = true
            rw [hde]
            exact hb
          omega
      have hhd : vals.headD none = some v0 := by
        rcases vals with _ | ⟨w, vtl⟩
        · exact absurd hslot (by simp)
        · simpa using hslot
      rcases v0 with i | s
      · rw [buildRowAux_cons_supplied_int seqv mk c cs vals row pkin i hc hhd] at h
        by_cases hval : validateType (.int i) c.type = true
        · rw [if_pos hval] at h
          have := buildRowAux_noPk seqv mk cs hnopk _ _ _ _ _ h
          exact ⟨i, rfl, this⟩
        · rw [if_neg hval] at h
          exact absurd h (by simp)
      · have hs : s ≠ nullMarker := fun he => hnm (by rw [he])
        rw [buildRowAux_cons_supplied_str seqv mk c cs vals row pkin s hc hhd hs] at h
        exact absurd h (by simp)
    | succ k =>
      have hc : c.isPrimaryKey = false := by
        cases hb : c.isPrimaryKey
        · rfl
        · exfalso
          have h0 : (0 : Nat) = k + 1 := huniq 0 (Nat.succ_pos _) hb
          omega
      rw [buildRowAux_cons_nonpk seqv mk c cs vals row pkin hc] at h
      rcases hv : vals.headD none with _ | v
      · simp only [hv] at h
        exact absurd h (by simp)
      · simp only [hv] at h
        by_cases hval : validateType v c.type = true
        · rw [if_pos hval] at h
          refine ih vals.tail (rowSet row c.name v) pkin k
            (Nat.lt_of_succ_lt_succ hj) v0 hpk ?_ ?_ hnm _ _ h
          · intro i hi ht
            have := huniq (i + 1) (Nat.succ_lt_succ hi) ht
            omega
          · rw [getD_tail_val]
            exact hslot
        · rw [if_neg hval] at h
          exact absurd h (by simp)

theorem tableInsert_pk (cols : List Column) (ts : TableState) (values : List Value)
    (columns : Option (List String)) (pk : Int)
    (h : (tableInsert cols ts values columns).1 = .ok pk) :
    ∃ rvs row, normalizeValues cols values columns = .ok rvs ∧
      buildRowAux ts.seq (BTree.getMaxKey ts.bt) cols rvs [] none =
        .ok (row, some pk) := by
  rcases hn : normalizeValues cols values columns with e | rvs
  · simp only [tableInsert, hn] at h
    exact absurd h (by simp)
  · simp only [tableInsert, hn] at h
    rcases hb : buildRowAux ts.seq (BTree.getMaxKey ts.bt) cols rvs [] none
      with e | ⟨row, pkOpt⟩
    · simp only [hb] at h
      exact absurd h (by simp)
    · simp only [hb] at h
      rcases pkOpt with _ | pk0
      · simp at h
      · rcases hs : serializeRow cols row with e | data
        · simp only [hs] at h
          exact absurd h (by simp)
        · simp only [hs] at h
          rcases hi : BTree.insert ts.bt pk0 data with ⟨r, bt2⟩
          rcases r with e | u
          · simp only [hi] at h
            exact absurd h (by simp)
          · simp only [hi] at h
            have hpk0 : pk0 = pk := by simpa using h
            exact ⟨rvs, row, rfl, hpk0 ▸ hb⟩

/-- C4, corrected: when the primary-key slot of an INSERT is absent or
the literal marker `'NULL'`, the assigned key is
`(schema.seq || btree.getMaxKey()) + 1` — the stored sequence counter
if it is nonzero (JavaScript `||` also skips a zero counter), else the
tree's maximum key — NOT `max(auto_seq, btree.get_max_key()) + 1`: the
maximum key is only a fallback and is ignored whenever the counter is
set, even if the tree holds a larger key.  A supplied primary-key value
must be a number and is used verbatim; a supplied non-number value
prevents any successful insert. -/
theorem claim_C4 (cols : List Column) (ts : TableState) (values : List Value)
    (columns : Option (List String)) (rvs : List (Option Value)) (j : Nat)
    (hnorm : normalizeValues cols values columns = .ok rvs)
    (hj : j < cols.length)
    (hpk : (cols.get ⟨j, hj⟩).isPrimaryKey = true)
    (huniq : ∀ i (hi : i < cols.length),
      (cols.get ⟨i, hi⟩).isPrimaryKey = true → i = j) :
    ((rvs.getD j none = none ∨ rvs.getD j none = some (.str nullMarker)) →
      ∀ pk : Int, (tableInsert cols ts values columns).1 = .ok pk →
        ∃ m, BTree.getMaxKey ts.bt = some m ∧
          pk = (if ts.seq ≠ 0 then (ts.seq : Int) else m) + 1) ∧
    (∀ i : Int, rvs.getD j none = some (.int i) →
      ∀ pk : Int, (tableInsert cols ts values columns).1 = .ok pk → pk = i) ∧
    (∀ v : Value, rvs.getD j none = some v → v ≠ .str nullMarker →
      (∀ i : Int, v ≠ .int i) →
      ∀ pk : Int, (tableInsert cols ts values columns).1 ≠ .ok pk) := by
  refine ⟨fun hslot pk hok => ?_, fun i hslot pk hok => ?_,
    fun v hslot hnm hni pk hok => ?_⟩
  · obtain ⟨rvs2, row, hn2, hb⟩ := tableInsert_pk cols ts values columns pk hok
    rw [hnorm] at hn2
    injection hn2 with hr
    subst hr
    obtain ⟨m, hm, hpkv⟩ := buildRowAux_auto ts.seq (BTree.getMaxKey ts.bt)
      cols rvs [] none j hj hpk huniq hslot row (some pk) hb
    refine ⟨m, hm, ?_⟩
    injection hpkv with e
  · obtain ⟨rvs2, row, hn2, hb⟩ := tableInsert_pk cols ts values columns pk hok
    rw [hnorm] at hn2
    injection hn2 with hr
    subst hr
    obtain ⟨i2, hv2, hpkv⟩ := buildRowAux_supplied ts.seq (BTree.getMaxKey ts.bt)
      cols rvs [] none j hj (.int i) hpk huniq hslot (by simp) row (some pk) hb
    injection hv2 with hii
    injection hpkv with hpp
    rw [hpp, hii]
  · obtain ⟨rvs2, row, hn2, hb⟩ := tableInsert_pk cols ts values columns pk hok
    rw [hnorm] at hn2
    injection hn2 with hr
    subst hr
    obtain ⟨i2, hv2, -⟩ := buildRowAux_supplied ts.seq (BTree.getMaxKey ts.bt)
      cols rvs [] none j hj v hpk huniq hslot hnm row (some pk) hb
    exact hni i2 hv2

/-- Counterexample to C4 as stated: with sequence counter 2 and maximum
stored key 5, an auto-increment INSERT assigns key 3 = seq + 1, not
max(2, 5) + 1 = 6 — the code computes `(schema.seq || getMaxKey()) + 1`,
never the maximum of the two. -/
theorem claim_C4_counterexample :
    BTree.getMaxKey
      { pages := (setF (fun _ => List.replicate 4096 0) 1
          (leafPage 0 [⟨5, 1, [7]⟩]))
        maxPageId := 1
        root := 1
        meta := fun _ => none } = some 5 ∧
    (tableInsert [⟨"id", .integer, true⟩]
      { bt := { pages := (setF (fun _ => List.replicate 4096 0) 1
                  (leafPage 0 [⟨5, 1, [7]⟩]))
                maxPageId := 1
                root := 1
                meta := fun _ => none }
        seq := 2 } [.str nullMarker] none).1 = .ok 3 ∧
    (3 : Int) ≠ max 2 5 + 1 := by
  refine ⟨by decide, ?_, by decide⟩
  decide

/-- Witness for C4: on a one-column schema with sequence counter 2 and
maximum key 5, the corrected statement holds at the concrete input. -/
theorem claim_C4_witness :
    ((([some (Value.str nullMarker)] : List (Option Value)).getD 0 none = none ∨
      ([some (Value.str nullMarker)] : List (Option Value)).getD 0 none =
        some (.str nullMarker)) →
      ∀ pk : Int,
        (tableInsert [⟨"id", .integer, true⟩] { bt := { pages := (setF (fun _ => List.replicate 4096 0) 1 (leafPage 0 [⟨5, 1, [7]⟩])), maxPageId := 1, root := 1, meta := fun _ => none }, seq := 2 } [.str nullMarker] none).1 =
          .ok pk →
        ∃ m, BTree.getMaxKey { pages := (setF (fun _ => List.replicate 4096 0) 1 (leafPage 0 [⟨5, 1, [7]⟩])), maxPageId := 1, root := 1, meta := fun _ => none } = some m ∧
          pk = (if (2 : Nat) ≠ 0 then ((2 : Nat) : Int) else m) + 1) ∧
    (∀ i : Int,
      ([some (Value.str nullMarker)] : List (Option Value)).getD 0 none =
        some (.int i) →
      ∀ pk : Int,
        (tableInsert [⟨"id", .integer, true⟩] { bt := { pages := (setF (fun _ => List.replicate 4096 0) 1 (leafPage 0 [⟨5, 1, [7]⟩])), maxPageId := 1, root := 1, meta := fun _ => none }, seq := 2 } [.str nullMarker] none).1 =
          .ok pk → pk = i) ∧
    (∀ v : Value,
      ([some (Value.str nullMarker)] : List (Option Value)).getD 0 none = some v →
      v ≠ .str nullMarker → (∀ i : Int, v ≠ .int i) →
      ∀ pk : Int,
        (tableInsert [⟨"id", .integer, true⟩] { bt := { pages := (setF (fun _ => List.replicate 4096 0) 1 (leafPage 0 [⟨5, 1, [7]⟩])), maxPageId := 1, root := 1, meta := fun _ => none }, seq := 2 } [.str nullMarker] none).1 ≠
          .ok pk) :=
  claim_C4 [⟨"id", .integer, true⟩]
    { bt := { pages := (setF (fun _ => List.replicate 4096 0) 1 (leafPage 0 [⟨5, 1, [7]⟩])), maxPageId := 1, root := 1, meta := fun _ => none }, seq := 2 } [.str nullMarker] none [some (.str nullMarker)] 0
    (by decide) (by decide) rfl (fun i hi _ => Nat.lt_one_iff.mp hi)

theorem insert_dup (s : BTree) (key : Int) (v : List Nat) (hInv : Inv s)
    (l : List Cell) (hall : BTree.getAll s = some l)
    (hmem : key ∈ l.map Cell.key) :
    BTree.insert s key v = (.error (.duplicateKey key), s) := by
  rcases hInv with ⟨hroot, hmax, cs, hpage, hwf⟩ |
    ⟨hroot, hmax, sep, csL, csR, hpg3, hpg1, hwfL, hpg2, hwfR, hsep0, hsepB, hL, hR⟩
  · have hl : l = cs := by
      have := getAll_leafRoot s cs hroot hpage hwf
      rw [hall] at this
      injection this with e
    subst hl
    unfold BTree.insert
    rw [hroot, show BTree.FUEL = 63 + 1 from rfl,
      findLeafPage_leaf s key 63 1 (by rw [hpage, leafPage_byteZero])]
    exact insertIntoLeaf_dup s 1 key v l hpage hwf hmem
  · have hl : l = csL ++ csR := by
      have := getAll_twoLeaf s sep csL csR hroot hpg3 hpg1 hwfL hpg2 hwfR hsep0 hsepB
      rw [hall] at this
      injection this with e
    subst hl
    unfold BTree.insert
    rw [hroot, findLeafPage_twoLeaf s key sep csL csR hpg3 hpg1 hpg2 hsep0 hsepB]
    rw [List.map_append] at hmem
    rcases List.mem_append.mp hmem with hmL | hmR
    · have hlt : key < sep := by
        obtain ⟨c, hc, he⟩ := List.mem_map.mp hmL
        exact he ▸ hL c hc
      rw [if_pos hlt]
      exact insertIntoLeaf_dup s 1 key v csL hpg1 hwfL hmL
    · have hge : ¬ key < sep := by
        obtain ⟨c, hc, he⟩ := List.mem_map.mp hmR
        have := hR c hc
        omega
      rw [if_neg hge]
      exact insertIntoLeaf_dup s 2 key v csR hpg2 hwfR hmR

/-- C5, confirmed: on a well-formed table state whose tree already
holds key `k`, an INSERT whose row builds and serializes with primary
key `k` returns the duplicate-key error and returns the table state
exactly unchanged — no page is written and the sequence counter is not
advanced (the error is thrown before the `schema.seq` update line). -/
theorem claim_C5 (cols : List Column) (ts : TableState) (values : List Value)
    (columns : Option (List String)) (rvs : List (Option Value)) (row : Row)
    (data : List Nat) (k : Int) (l : List Cell)
    (hInv : Inv ts.bt)
    (hall : BTree.getAll ts.bt = some l)
    (hmem : k ∈ l.map Cell.key)
    (hnorm : normalizeValues cols values columns = .ok rvs)
    (hbuild : buildRowAux ts.seq (BTree.getMaxKey ts.bt) cols rvs [] none =
      .ok (row, some k))
    (hser : serializeRow cols row = .ok data) :
    tableInsert cols ts values columns = (.error (.duplicateKey k), ts) := by
  have hins := insert_dup ts.bt k data hInv l hall hmem
  simp only [tableInsert, hnorm, hbuild, hser, hins]

/-- Witness for C5: inserting primary key 5 into a table already
holding key 5 fails with the duplicate-key error and leaves the state
untouched. -/
theorem claim_C5_witness :
    tableInsert [⟨"id", .integer, true⟩]
      { bt := { pages := (setF (fun _ => List.replicate 4096 0) 1 (leafPage 0 [⟨5, 1, [7]⟩])), maxPageId := 1, root := 1, meta := fun _ => none }, seq := 2 }
      [.int 5] none =
    (.error (.duplicateKey 5),
      { bt := { pages := (setF (fun _ => List.replicate 4096 0) 1 (leafPage 0 [⟨5, 1, [7]⟩])), maxPageId := 1, root := 1, meta := fun _ => none }, seq := 2 }) :=
  claim_C5 [⟨"id", .integer, true⟩]
    { bt := { pages := (setF (fun _ => List.replicate 4096 0) 1 (leafPage 0 [⟨5, 1, [7]⟩])), maxPageId := 1, root := 1, meta := fun _ => none }, seq := 2 }
    [.int 5] none [some (.int 5)] [("id", .int 5)] [0, 4, 0, 0, 0, 5] 5
    [⟨5, 1, [7]⟩]
    (Or.inl ⟨rfl, rfl, [⟨5, 1, [7]⟩], rfl, by decide⟩)
    (getAll_leafRoot
      { pages := (setF (fun _ => List.replicate 4096 0) 1 (leafPage 0 [⟨5, 1, [7]⟩])), maxPageId := 1, root := 1, meta := fun _ => none }
      [⟨5, 1, [7]⟩] rfl rfl (by decide))
    (by decide) (by decide) (by decide) (by decide)

/-! ## Lemmas: the UTF-8 codec -/

theorem utf8DecodeGo_nil (f : Nat) : utf8DecodeGo f [] = [] := by
  cases f <;> rfl

theorem utf8DecodeGo_congr :
    ∀ (f1 f2 : Nat) (l : List Nat), l.length ≤ f1 → l.length ≤ f2 →
      utf8DecodeGo f1 l = utf8DecodeGo f2 l := by
  intro f1
  induction f1 with
  | zero =>
    intro f2 l h1 h2
    have : l = [] := by
      cases l
      · rfl
      · simp at h1
    rw [this, utf8DecodeGo_nil, utf8DecodeGo_nil]
  | succ f1 ih =>
    intro f2 l h1 h2
    rcases l with _ | ⟨b, rest⟩
    · rw [utf8DecodeGo_nil, utf8DecodeGo_nil]
    · rcases f2 with _ | f2
      · simp at h2
      · show (utf8Step b rest).1 :: utf8DecodeGo f1 (rest.drop (utf8Step b rest).2) =
          (utf8Step b rest).1 :: utf8DecodeGo f2 (rest.drop (utf8Step b rest).2)
        simp only [List.length_cons] at h1 h2
        rw [ih f2 (rest.drop (utf8Step b rest).2)
          (by simp only [List.length_drop]; omega)
          (by simp only [List.length_drop]; omega)]

theorem utf8Decode_cons (b : Nat) (rest : List Nat) :
    utf8Decode (b :: rest) =
      (utf8Step b rest).1 :: utf8Decode (rest.drop (utf8Step b rest).2) := by
  show utf8DecodeGo (rest.length + 1) (b :: rest) = _
  show (utf8Step b rest).1 :: utf8DecodeGo rest.length (rest.drop (utf8Step b rest).2) = _
  rw [utf8DecodeGo_congr rest.length (rest.drop (utf8Step b rest).2).length
    (rest.drop (utf8Step b rest).2)
    (by simp only [List.length_drop]; omega) (le_refl _)]
  rfl

theorem i32_roundtrip (i : Int) (rest : List Nat)
    (h0 : -2147483648 ≤ i) (h : i < 2147483648) :
    i32OfU32 (getU32 (be32I i ++ rest) 0) = i := by
  unfold be32I
  rw [getU32_be32 _ _ (by omega)]
  unfold i32OfU32
  by_cases hc : (i % 4294967296).toNat < 2147483648
  · rw [if_pos hc]
    omega
  · rw [if_neg hc]
    omega

theorem utf8Decode_encChar (c : Nat) (hsc : IsScalar c) (tail : List Nat) :
    utf8Decode (utf8EncodeChar c ++ tail) = c :: utf8Decode tail := by
  obtain ⟨hlt, hsurr⟩ := hsc
  by_cases h1 : c < 128
  · have he : utf8EncodeChar c = [c] := by rw [utf8EncodeChar, if_pos h1]
    rw [he]
    show utf8Decode (c :: tail) = _
    rw [utf8Decode_cons]
    have hs : utf8Step c tail = (c, 0) := by simp only [utf8Step, h1, ite_true, if_true]
    rw [hs]
    simp
  · by_cases h2 : c < 2048
    · have he : utf8EncodeChar c = [192 + c / 64, 128 + c % 64] := by
        rw [utf8EncodeChar, if_neg h1, if_pos h2]
      rw [he]
      show utf8Decode ((192 + c / 64) :: ((128 + c % 64) :: tail)) = _
      rw [utf8Decode_cons]
      have hs : utf8Step (192 + c / 64) ((128 + c % 64) :: tail) = (c, 1) := by
        have d1 : ¬ (192 + c / 64 < 128) := by omega
        have d2 : 194 ≤ 192 + c / 64 ∧ 192 + c / 64 ≤ 223 := by omega
        have d3 : 128 ≤ 128 + c % 64 ∧ 128 + c % 64 ≤ 191 := by omega
        simp only [utf8Step, d1, d2, d3, if_true, if_false, ite_true, ite_false,
          and_self, and_true, Prod.mk.injEq]
        omega
      rw [hs]
      simp
    · by_cases h3 : c < 65536
      · have he : utf8EncodeChar c =
            [224 + c / 4096, 128 + c / 64 % 64, 128 + c % 64] := by
          rw [utf8EncodeChar, if_neg h1, if_neg h2, if_pos h3]
        rw [he]
        show utf8Decode ((224 + c / 4096) ::
          ((128 + c / 64 % 64) :: ((128 + c % 64) :: tail))) = _
        rw [utf8Decode_cons]
        have hs : utf8Step (224 + c / 4096)
            ((128 + c / 64 % 64) :: ((128 + c % 64) :: tail)) = (c, 2) := by
          have d1 : ¬ (224 + c / 4096 < 128) := by omega
          have d2 : ¬ (194 ≤ 224 + c / 4096 ∧ 224 + c / 4096 ≤ 223) := by omega
          have d3 : 224 ≤ 224 + c / 4096 ∧ 224 + c / 4096 ≤ 239 := by omega
          have d4 : (if 224 + c / 4096 = 224 then 160 else 128) ≤ 128 + c / 64 % 64 ∧
              128 + c / 64 % 64 ≤ (if 224 + c / 4096 = 237 then 159 else 191) := by
            constructor
            · by_cases hc4 : 224 + c / 4096 = 224
              · rw [if_pos hc4]
                omega
              · rw [if_neg hc4]
                omega
            · by_cases hc4 : 224 + c / 4096 = 237
              · rw [if_pos hc4]
                omega
              · rw [if_neg hc4]
                omega
          have d5 : 128 ≤ 128 + c % 64 ∧ 128 + c % 64 ≤ 191 := by omega
          simp only [utf8Step, d1, d2, d3, d4, d5, if_true, if_false, ite_true,
            ite_false, and_self, and_true, Prod.mk.injEq]
          omega
        rw [hs]
        simp
      · have he : utf8EncodeChar c =
            [240 + c / 262144, 128 + c / 4096 % 64, 128 + c / 64 % 64,
              128 + c % 64] := by
          rw [utf8EncodeChar, if_neg h1, if_neg h2, if_neg h3]
        rw [he]
        show utf8Decode ((240 + c / 262144) :: ((128 + c / 4096 % 64) ::
          ((128 + c / 64 % 64) :: ((128 + c % 64) :: tail)))) = _
        rw [utf8Decode_cons]
        have hs : utf8Step (240 + c / 262144) ((128 + c / 4096 % 64) ::
            ((128 + c / 64 % 64) :: ((128 + c % 64) :: tail))) = (c, 3) := by
          have d1 : ¬ (240 + c / 262144 < 128) := by omega
          have d2 : ¬ (194 ≤ 240 + c / 262144 ∧ 240 + c / 262144 ≤ 223) := by omega
          have d3 : ¬ (224 ≤ 240 + c / 262144 ∧ 240 + c / 262144 ≤ 239) := by omega
          have d4 : 240 ≤ 240 + c / 262144 ∧ 240 + c / 262144 ≤ 244 := by omega
          have d5 : (if 240 + c / 262144 = 240 then 144 else 128) ≤
                128 + c / 4096 % 64 ∧
              128 + c / 4096 % 64 ≤ (if 240 + c / 262144 = 244 then 143 else 191) := by
            constructor
            · by_cases hc4 : 240 + c / 262144 = 240
              · rw [if_pos hc4]
                omega
              · rw [if_neg hc4]
                omega
            · by_cases hc4 : 240 + c / 262144 = 244
              · rw [if_pos hc4]
                omega
              · rw [if_neg hc4]
                omega
          have d6 : 128 ≤ 128 + c / 64 % 64 ∧ 128 + c / 64 % 64 ≤ 191 := by omega
          have d7 : 128 ≤ 128 + c % 64 ∧ 128 + c % 64 ≤ 191 := by omega
          simp only [utf8Step, d1, d2, d3, d4, d5, d6, d7, if_true, if_false,
            ite_true, ite_false, and_self, and_true, Prod.mk.injEq]
          omega
        rw [hs]
        simp

theorem utf8Decode_utf8Encode (s : List Nat) (hs : ∀ c ∈ s, IsScalar c) :
    utf8Decode (utf8Encode s) = s := by
  induction s with
  | nil => rfl
  | cons c cs ih =>
    rw [show utf8Encode (c :: cs) = utf8EncodeChar c ++ utf8Encode cs by
      simp [utf8Encode]]
    rw [utf8Decode_encChar c (hs c (by simp)) _,
      ih (fun d hd => hs d (List.mem_cons_of_mem _ hd))]

theorem bytesToString_stringToBytes (s : List Nat)
    (hs : ∀ c ∈ s, IsScalar c) (h0 : 0 ∉ s) :
    bytesToString (stringToBytes s) = s := by
  unfold bytesToString stringToBytes
  rw [utf8Decode_utf8Encode s hs]
  refine List.filter_eq_self.mpr (fun c hc => ?_)
  simp only [ne_eq, decide_eq_true_eq]
  exact fun he => h0 (he ▸ hc)

/-! ## Lemmas: the row codec round trip -/

theorem rowGet_zip (cols : List Column) :
    ∀ (vals : List Value), (cols.map Column.name).Nodup →
      ∀ p ∈ cols.zip vals,
        rowGet ((cols.map Column.name).zip vals) p.1.name = some p.2 := by
  induction cols with
  | nil =>
    intro vals _ p hp
    simp at hp
  | cons c cs ih =>
    intro vals hnames p hp
    rcases vals with _ | ⟨v, vs⟩
    · simp at hp
    · simp only [List.zip_cons_cons] at hp
      simp only [List.map_cons, List.nodup_cons] at hnames
      rcases List.mem_cons.mp hp with he | hm
      · rw [he]
        show rowGet ((c.name, v) :: (cs.map Column.name).zip vs) c.name = some v
        rw [rowGet, if_pos rfl]
      · have hne : c.name ≠ p.1.name := by
          intro he
          exact hnames.1 (he ▸ List.mem_map_of_mem Column.name (List.of_mem_zip hm).1)
        show rowGet ((c.name, v) :: (cs.map Column.name).zip vs) p.1.name = some p.2
        rw [rowGet, if_neg hne]
        exact ih vs hnames.2 p hm

theorem serializeRowAux_ok (row : Row) (cols : List Column) :
    ∀ (vals : List Value), vals.length = cols.length →
      (∀ p ∈ cols.zip vals, rowGet row p.1.name = some p.2) →
      serializeRowAux row cols =
        .ok ((cols.zip vals).flatMap (fun p => encCell p.1.type p.2)) := by
  induction cols with
  | nil =>
    intro vals _ _
    rfl
  | cons c cs ih =>
    intro vals hlen hget
    rcases vals with _ | ⟨v, vs⟩
    · simp at hlen
    · have hhead : rowGet row c.name = some v :=
        hget (c, v) (by simp)
      simp only [serializeRowAux, hhead]
      rw [ih vs (by simpa using hlen)
        (fun p hp => hget p (List.mem_cons_of_mem _ (by simpa using hp)))]
      simp [Except.map]

theorem rowSet_append (r : List (String × Value)) (k : String) (v : Value) :
    (∀ p ∈ r, p.1 ≠ k) → rowSet r k v = r ++ [(k, v)] := by
  induction r with
  | nil => intro _; rfl
  | cons q rest ih =>
    intro hk
    show rowSet (q :: rest) k v = _
    rcases q with ⟨k2, v2⟩
    rw [rowSet, if_neg (hk (k2, v2) (by simp))]
    rw [ih (fun p hp => hk p (List.mem_cons_of_mem _ hp))]
    rfl

theorem deserAux_ok (data : List Nat) (cols : List Column) :
    ∀ (vals : List Value) (off : Nat) (acc : List (String × Value)),
      vals.length = cols.length →
      data.drop off = (cols.zip vals).flatMap (fun p => encCell p.1.type p.2) →
      off ≤ data.length →
      (∀ p ∈ cols.zip vals, ValidPair p) →
      (cols.map Column.name).Nodup →
      (∀ p ∈ acc, p.1 ∉ cols.map Column.name) →
      deserAux data cols off acc =
        .ok (acc ++ (cols.map Column.name).zip vals) := by
  induction cols with
  | nil =>
    intro vals off acc _ _ _ _ _ _
    simp [deserAux]
  | cons c cs ih =>
    intro vals off acc hlen hdrop hoff hvalid hnames hdisj
    rcases vals with _ | ⟨v, vs⟩
    · simp at hlen
    · simp only [List.zip_cons_cons, List.flatMap_cons] at hdrop
      have hvp := hvalid (c, v) (by simp)
      simp only [List.map_cons, List.nodup_cons] at hnames
      have hlen2 : vs.length = cs.length := by simpa using hlen
      have hvalid2 : ∀ p ∈ cs.zip vs, ValidPair p :=
        fun p hp => hvalid p (List.mem_cons_of_mem _ (by simpa using hp))
      have h1 := congrArg List.length hdrop
      simp only [List.length_drop, List.length_append, encCell, be16_length] at h1
      have hL : (serializeCol c.type v).length < 65536 := by
        rcases v with i | s
        · obtain ⟨hct, -, -⟩ := hvp
          rw [hct]
          show (be32I i).length < 65536
          rw [be32I_length]
          omega
        · obtain ⟨hct, -, -, hlt⟩ := hvp
          rw [hct]
          exact hlt
      have hg16 : getU16 data off = (serializeCol c.type v).length := by
        rw [getU16_drop, hdrop]
        simp only [encCell, List.append_assoc]
        exact getU16_be16 _ _ hL
      have hd2 : data.drop (off + 2) = serializeCol c.type v ++
          (cs.zip vs).flatMap (fun p => encCell p.1.type p.2) := by
        rw [drop_add, hdrop]
        simp only [encCell, List.append_assoc]
        exact List.drop_left' (be16_length _)
      have hd3 : data.drop (off + 2 + (serializeCol c.type v).length) =
          (cs.zip vs).flatMap (fun p => encCell p.1.type p.2) := by
        rw [drop_add, hd2]
        exact List.drop_left' rfl
      have hc1 : ¬ (data.length < off + 2) := by omega
      have hc2 : ¬ (data.length < off + 2 + (serializeCol c.type v).length) := by
        omega
      have hdisj2 : ∀ w : Value, ∀ p ∈ acc ++ [(c.name, w)],
          p.1 ∉ cs.map Column.name := by
        intro w p hp
        rcases List.mem_append.mp hp with h | h
        · exact fun hin => hdisj p h (List.mem_cons_of_mem _ hin)
        · have : p = (c.name, w) := by simpa using h
          rw [this]
          exact hnames.1
      have hkne : ∀ p ∈ acc, p.1 ≠ c.name := by
        intro p hp he
        exact hdisj p hp (by rw [he]; exact List.mem_cons_self _ _)
      simp only [deserAux, hg16]
      rw [if_neg hc1, if_neg hc2]
      rcases v with i | s
      · obtain ⟨hct, hlo, hhi⟩ := hvp
        have hL4 : (serializeCol c.type (Value.int i)).length = 4 := by
          rw [hct]
          rfl
        simp only [hct]
        rw [if_pos (by omega)]
        have hval : i32OfU32 (getU32 data (off + 2)) = i := by
          rw [getU32_drop, hd2, hct]
          exact i32_roundtrip i _ hlo hhi
        rw [hval]
        rw [rowSet_append acc c.name (.int i) hkne]
        rw [hL4] at hd3
        have hoff2 : off + 2 + 4 ≤ data.length := by omega
        rw [show off + 2 + (serializeCol (ColType.integer) (Value.int i)).length =
          off + 2 + 4 from rfl]
        rw [show acc ++ (List.map Column.name (c :: cs)).zip (Value.int i :: vs) =
          (acc ++ [(c.name, Value.int i)]) ++ (List.map Column.name cs).zip vs by
            simp]
        exact ih vs (off + 2 + 4) (acc ++ [(c.name, Value.int i)]) hlen2 hd3 hoff2
          hvalid2 hnames.2 (hdisj2 (.int i))
      · obtain ⟨hct, hsc, h0, hlt⟩ := hvp
        simp only [hct]
        have hslice : listSlice data (off + 2)
            (serializeCol c.type (Value.str s)).length =
            serializeCol c.type (Value.str s) := by
          unfold listSlice
          rw [hd2]
          exact List.take_left' rfl
        have hval : bytesToString (listSlice data (off + 2)
            (serializeCol c.type (Value.str s)).length) = s := by
          rw [hslice, hct]
          exact bytesToString_stringToBytes s hsc h0
        rw [show serializeCol ColType.text (Value.str s) =
          serializeCol c.type (Value.str s) by rw [hct]] at *
        rw [hval]
        rw [rowSet_append acc c.name (.str s) hkne]
        have hoff2 : off + 2 + (serializeCol c.type (Value.str s)).length ≤
            data.length := by omega
        rw [show acc ++ (List.map Column.name (c :: cs)).zip (Value.str s :: vs) =
          (acc ++ [(c.name, Value.str s)]) ++ (List.map Column.name cs).zip vs by
            simp]
        exact ih vs (off + 2 + (serializeCol c.type (Value.str s)).length)
          (acc ++ [(c.name, Value.str s)]) hlen2 hd3 hoff2 hvalid2 hnames.2
          (hdisj2 (.str s))

/-- C2, corrected: the row codec round-trips only under conditions
stronger than "INTEGER values are 32-bit signed integers, TEXT values
are strings": TEXT values must additionally contain no NUL character
(`bytesToString` strips every zero byte after decoding — see the
counterexample), must consist of Unicode scalar values, and their UTF-8
encoding must fit the 16-bit length field; column names must be
distinct, and the row's bindings follow schema order.  Under those
conditions `deserializeRow (serializeRow row) = row`. -/
theorem claim_C2 (cols : List Column) (vals : List Value)
    (hlen : vals.length = cols.length)
    (hnames : (cols.map Column.name).Nodup)
    (hvalid : ∀ p ∈ cols.zip vals, ValidPair p) :
    ∃ data,
      serializeRow cols ((cols.map Column.name).zip vals) = .ok data ∧
      deserializeRow cols data = .ok ((cols.map Column.name).zip vals) := by
  refine ⟨(cols.zip vals).flatMap (fun p => encCell p.1.type p.2), ?_, ?_⟩
  · unfold serializeRow
    exact serializeRowAux_ok _ cols vals hlen (rowGet_zip cols vals hnames)
  · unfold deserializeRow
    by_cases hz : ((cols.zip vals).flatMap (fun p => encCell p.1.type p.2)).length = 0
    · rw [if_pos hz]
      have hc : cols = [] := by
        rcases hq : cols with _ | ⟨c, cs⟩
        · rfl
        · exfalso
          rcases vals with _ | ⟨v, vs⟩
          · rw [hq] at hlen
            simp at hlen
          · rw [hq] at hz
            simp only [List.zip_cons_cons, List.flatMap_cons, List.length_append,
              encCell, be16_length] at hz
            omega
      subst hc
      have hv : vals = [] := by
        rcases vals with _ | ⟨v, vs⟩
        · rfl
        · simp at hlen
      subst hv
      rfl
    · rw [if_neg hz]
      have := deserAux_ok ((cols.zip vals).flatMap (fun p => encCell p.1.type p.2))
        cols vals 0 [] hlen (by simp) (by omega) hvalid hnames (by simp)
      simpa using this

/-- Counterexample to C2 as stated: the TEXT value "a\0b" (code points
97, 0, 98) is a string, yet serializing and deserializing the row drops
the NUL: the decoder returns "ab". -/
theorem claim_C2_counterexample :
    serializeRow [⟨"t", .text, false⟩] [("t", .str [97, 0, 98])] =
      .ok [0, 3, 97, 0, 98] ∧
    deserializeRow [⟨"t", .text, false⟩] [0, 3, 97, 0, 98] =
      .ok [("t", .str [97, 98])] ∧
    ([("t", Value.str [97, 98])] : Row) ≠ [("t", Value.str [97, 0, 98])] := by
  refine ⟨by decide, ?_, by decide⟩
  decide

/-- Witness for C2: a two-column row (INTEGER 1, TEXT "A") round-trips. -/
theorem claim_C2_witness :
    ∃ data,
      serializeRow [⟨"id", .integer, true⟩, ⟨"name", .text, false⟩]
        (([⟨"id", .integer, true⟩, ⟨"name", .text, false⟩].map Column.name).zip
          [.int 1, .str [65]]) = .ok data ∧
      deserializeRow [⟨"id", .integer, true⟩, ⟨"name", .text, false⟩] data =
        .ok (([⟨"id", .integer, true⟩, ⟨"name", .text, false⟩].map
          Column.name).zip [.int 1, .str [65]]) :=
  claim_C2 [⟨"id", .integer, true⟩, ⟨"name", .text, false⟩]
    [.int 1, .str [65]] (by decide) (by decide) (by decide)

theorem rowSet_keys (r : List (String × Value)) (k : String) (v : Value) :
    ∀ k2 ∈ (rowSet r k v).map Prod.fst, k2 = k ∨ k2 ∈ r.map Prod.fst := by
  induction r with
  | nil =>
    intro k2 h
    simp only [rowSet, List.map_cons, List.map_nil] at h
    exact Or.inl (by simpa using h)
  | cons q rest ih =>
    intro k2 h
    rcases q with ⟨k3, v3⟩
    by_cases he : k3 = k
    · rw [rowSet, if_pos he] at h
      simp only [List.map_cons] at h
      rcases List.mem_cons.mp h with h1 | h1
      · exact Or.inr (by simp [h1])
      · exact Or.inr (by simp [h1])
    · rw [rowSet, if_neg he] at h
      simp only [List.map_cons] at h
      rcases List.mem_cons.mp h with h1 | h1
      · exact Or.inr (by simp [h1])
      · rcases ih k2 h1 with h2 | h2
        · exact Or.inl h2
        · exact Or.inr (by simp [h2])

theorem deserAux_keys (data : List Nat) (cols : List Column) :
    ∀ (off : Nat) (acc : List (String × Value)) (r : Row),
      deserAux data cols off acc = .ok r →
      ∀ k ∈ r.map Prod.fst, k ∈ acc.map Prod.fst ∨ k ∈ cols.map Column.name := by
  induction cols with
  | nil =>
    intro off acc r h k hk
    have : acc = r := by simpa [deserAux] using h
    exact Or.inl (this ▸ hk)
  | cons c cs ih =>
    intro off acc r h k hk
    have lift : k ∈ acc.map Prod.fst ∨ k ∈ cs.map Column.name →
        k ∈ acc.map Prod.fst ∨ k ∈ (c :: cs).map Column.name := by
      rintro (h1 | h1)
      · exact Or.inl h1
      · exact Or.inr (by simp [h1])
    have liftSet : ∀ w : Value,
        k ∈ (rowSet acc c.name w).map Prod.fst ∨ k ∈ cs.map Column.name →
        k ∈ acc.map Prod.fst ∨ k ∈ (c :: cs).map Column.name := by
      rintro w (h1 | h1)
      · rcases rowSet_keys acc c.name w k h1 with h2 | h2
        · exact Or.inr (by simp [h2])
        · exact Or.inl h2
      · exact Or.inr (by simp [h1])
    rw [deserAux] at h
    by_cases h1 : data.length < off + 2
    · rw [if_pos h1] at h
      exact lift (ih off acc r h k hk)
    · rw [if_neg h1] at h
      by_cases h2 : data.length < off + 2 + getU16 data off
      · rw [if_pos h2] at h
        exact lift (ih (off + 2) acc r h k hk)
      · rw [if_neg h2] at h
        rcases hct : c.type with _ | _
        · simp only [hct] at h
          by_cases h3 : off + 2 + 4 ≤ data.length
          · rw [if_pos h3] at h
            exact liftSet _ (ih _ _ r h k hk)
          · rw [if_neg h3] at h
            exact absurd h (by simp)
        · simp only [hct] at h
          exact liftSet _ (ih _ _ r h k hk)

/-- C8, corrected: the decode loop is defensive per column, not
aborting.  A JavaScript `return` inside `forEach` skips only the
current iteration, so when the remaining buffer is too short for a
column, that column alone is skipped — without advancing the offset
for the 2-byte check, after consuming the 2-byte length for the
value-length check — and decoding CONTINUES with the later schema
columns, which can still decode and appear in the result (see the
counterexample); the skipped column itself is absent from the result
when no other column shares its name. -/
theorem claim_C8 (data : List Nat) (c : Column) (cs : List Column) (off : Nat)
    (acc : List (String × Value)) :
    (data.length < off + 2 →
      deserAux data (c :: cs) off acc = deserAux data cs off acc) ∧
    (¬ data.length < off + 2 → data.length < off + 2 + getU16 data off →
      deserAux data (c :: cs) off acc = deserAux data cs (off + 2) acc) ∧
    ((data.length < off + 2 ∨ data.length < off + 2 + getU16 data off) →
      c.name ∉ acc.map Prod.fst → c.name ∉ cs.map Column.name →
      ∀ r, deserAux data (c :: cs) off acc = .ok r →
        c.name ∉ r.map Prod.fst) := by
  have e1 : data.length < off + 2 →
      deserAux data (c :: cs) off acc = deserAux data cs off acc := by
    intro h1
    rw [deserAux, if_pos h1]
  have e2 : ¬ data.length < off + 2 → data.length < off + 2 + getU16 data off →
      deserAux data (c :: cs) off acc = deserAux data cs (off + 2) acc := by
    intro h1 h2
    rw [deserAux, if_neg h1, if_pos h2]
  refine ⟨e1, e2, fun hshort hacc hcs r hok => ?_⟩
  intro hmem
  rcases hshort with h1 | h2
  · rw [e1 h1] at hok
    rcases deserAux_keys data cs off acc r hok c.name hmem with h | h
    · exact hacc h
    · exact hcs h
  · by_cases h1 : data.length < off + 2
    · rw [e1 h1] at hok
      rcases deserAux_keys data cs off acc r hok c.name hmem with h | h
      · exact hacc h
      · exact hcs h
    · rw [e2 h1 h2] at hok
      rcases deserAux_keys data cs (off + 2) acc r hok c.name hmem with h | h
      · exact hacc h
      · exact hcs h

/-- Counterexample to C8 as stated: schema `[c1 TEXT, c2 TEXT]`, buffer
`[0, 5, 0, 0]`.  The buffer is too short for `c1` (value length 5),
yet decoding does not stop: `c2` (length 0, the empty string) still
decodes, so a LATER column is present in the result while the earlier
one is absent. -/
theorem claim_C8_counterexample :
    deserializeRow [⟨"c1", .text, false⟩, ⟨"c2", .text, false⟩] [0, 5, 0, 0] =
      .ok [("c2", .str [])] ∧
    ([0, 5, 0, 0] : List Nat).length <
      0 + 2 + getU16 [0, 5, 0, 0] 0 := by
  refine ⟨?_, by decide⟩
  decide

/-- Witness for C8: both skip equations and the absence property at the
concrete short buffer `[0, 5, 0, 0]` with schema `[c1 TEXT, c2 TEXT]`. -/
theorem claim_C8_witness :
    (([0, 5, 0, 0] : List Nat).length < 0 + 2 →
      deserAux [0, 5, 0, 0] [⟨"c1", .text, false⟩, ⟨"c2", .text, false⟩] 0 [] =
        deserAux [0, 5, 0, 0] [⟨"c2", .text, false⟩] 0 []) ∧
    (¬ ([0, 5, 0, 0] : List Nat).length < 0 + 2 →
      ([0, 5, 0, 0] : List Nat).length < 0 + 2 + getU16 [0, 5, 0, 0] 0 →
      deserAux [0, 5, 0, 0] [⟨"c1", .text, false⟩, ⟨"c2", .text, false⟩] 0 [] =
        deserAux [0, 5, 0, 0] [⟨"c2", .text, false⟩] (0 + 2) []) ∧
    ((([0, 5, 0, 0] : List Nat).length < 0 + 2 ∨
      ([0, 5, 0, 0] : List Nat).length < 0 + 2 + getU16 [0, 5, 0, 0] 0) →
      (⟨"c1", .text, false⟩ : Column).name ∉
        ([] : List (String × Value)).map Prod.fst →
      (⟨"c1", .text, false⟩ : Column).name ∉
        [(⟨"c2", .text, false⟩ : Column)].map Column.name →
      ∀ r, deserAux [0, 5, 0, 0]
          [⟨"c1", .text, false⟩, ⟨"c2", .text, false⟩] 0 [] = .ok r →
        (⟨"c1", .text, false⟩ : Column).name ∉ r.map Prod.fst) :=
  claim_C8 [0, 5, 0, 0] ⟨"c1", .text, false⟩ [⟨"c2", .text, false⟩] 0 []

theorem rowSet_values (r : List (String × Value)) (k : String) (v : Value) :
    ∀ q ∈ (rowSet r k v : List (String × Value)), q.2 = v ∨ q ∈ r := by
  induction r with
  | nil =>
    intro q hq
    simp only [rowSet] at hq
    exact Or.inl (by simp [by simpa using hq])
  | cons p rest ih =>
    intro q hq
    rcases p with ⟨k1, v1⟩
    by_cases he : k1 = k
    · rw [rowSet, if_pos he] at hq
      rcases List.mem_cons.mp hq with h1 | h1
      · exact Or.inl (by simp [h1])
      · exact Or.inr (List.mem_cons_of_mem _ h1)
    · rw [rowSet, if_neg he] at hq
      rcases List.mem_cons.mp hq with h1 | h1
      · exact Or.inr (by simp [h1])
      · rcases ih q h1 with h2 | h2
        · exact Or.inl h2
        · exact Or.inr (List.mem_cons_of_mem _ h2)

theorem bytesToString_noNul (bs : List Nat) : 0 ∉ bytesToString bs := by
  intro h
  have := List.of_mem_filter h
  simp at this

theorem deserAux_noNul (data : List Nat) (cols : List Column) :
    ∀ (off : Nat) (acc : List (String × Value)) (r : List (String × Value)),
      (∀ p ∈ acc, ∀ s, p.2 = Value.str s → 0 ∉ s) →
      deserAux data cols off acc = .ok r →
      ∀ p ∈ r, ∀ s, p.2 = Value.str s → 0 ∉ s := by
  induction cols with
  | nil =>
    intro off acc r hacc h
    have : acc = r := by simpa [deserAux] using h
    exact this ▸ hacc
  | cons c cs ih =>
    intro off acc r hacc h
    rw [deserAux] at h
    by_cases h1 : data.length < off + 2
    · rw [if_pos h1] at h
      exact ih off acc r hacc h
    · rw [if_neg h1] at h
      by_cases h2 : data.length < off + 2 + getU16 data off
      · rw [if_pos h2] at h
        exact ih (off + 2) acc r hacc h
      · rw [if_neg h2] at h
        rcases hct : c.type with _ | _
        · simp only [hct] at h
          by_cases h3 : off + 2 + 4 ≤ data.length
          · rw [if_pos h3] at h
            refine ih _ _ r ?_ h
            intro p hp s hs
            rcases rowSet_values acc c.name _ p hp with h4 | h4
            · rw [h4] at hs
              exact absurd hs (by simp)
            · exact hacc p h4 s hs
          · rw [if_neg h3] at h
            exact absurd h (by simp)
        · simp only [hct] at h
          refine ih _ _ r ?_ h
          intro p hp s hs
          rcases rowSet_values acc c.name _ p hp with h4 | h4
          · rw [h4] at hs
            have : s = bytesToString (listSlice data (off + 2) (getU16 data off)) := by
              injection hs.symm
            rw [this]
            exact bytesToString_noNul _
          · exact hacc p h4 s hs

/-- C10, confirmed: `bytesToString` filters out every NUL code point
after decoding, so no decoded row ever carries a TEXT value containing
U+0000. -/
theorem claim_C10 :
    (∀ bs : List Nat, 0 ∉ bytesToString bs) ∧
    (∀ (cols : List Column) (data : List Nat) (r : List (String × Value)),
      deserializeRow cols data = .ok r →
      ∀ p ∈ r, ∀ s, p.2 = Value.str s → 0 ∉ s) := by
  refine ⟨bytesToString_noNul, fun cols data r h p hp s hs => ?_⟩
  unfold deserializeRow at h
  by_cases hz : data.length = 0
  · rw [if_pos hz] at h
    have : ([] : List (String × Value)) = r := by simpa using h
    rw [← this] at hp
    simp at hp
  · rw [if_neg hz] at h
    exact deserAux_noNul data cols 0 [] r (by simp) h p hp s hs

/-- Witness for C10: the decoded form of a buffer holding "a\0b" is
NUL-free. -/
theorem claim_C10_witness : 0 ∉ bytesToString [97, 0, 98] :=
  claim_C10.1 [97, 0, 98]

/-! ## Lemmas: the virtual disk and rollback -/

theorem applyMut_tx {μ : Type} (d : VDisk μ) (m : Mutation μ)
    (hp : d.txPages.isSome = true) (hm : d.txMeta.isSome = true) :
    (applyMut d m).storePages = d.storePages ∧
    (applyMut d m).storeMeta = d.storeMeta ∧
    (applyMut d m).storeMax = d.storeMax ∧
    (applyMut d m).txPages.isSome = true ∧
    (applyMut d m).txMeta.isSome = true := by
  rcases hq : d.txPages with _ | tx
  · rw [hq] at hp
    simp at hp
  · cases m with
    | writePage id data =>
      simp [applyMut, vdWritePage, hq, hm]
    | allocatePage =>
      simp [applyMut, vdAllocatePage, hq, hp, hm]
    | setMeta k v =>
      rcases hqm2 : d.txMeta with _ | tm
      · rw [hqm2] at hm
        simp at hm
      · simp [applyMut, vdSetMeta, hqm2, hp]
    | readPage id =>
      rcases ha : aGet tx id with _ | pg
      · rcases hc : d.cache id with _ | cp
        · rcases hs : d.storePages id with _ | bytes
          · simp only [applyMut, vdReadPage, vdReadCore, hq, ha, hc, hs]
            exact ⟨trivial, trivial, trivial, rfl, hm⟩
          · simp only [applyMut, vdReadPage, vdReadCore, hq, ha, hc, hs]
            exact ⟨trivial, trivial, trivial, rfl, hm⟩
        · simp only [applyMut, vdReadPage, vdReadCore, hq, ha, hc]
          exact ⟨trivial, trivial, trivial, rfl, hm⟩
      · simp only [applyMut, vdReadPage, hq, ha]
        exact ⟨trivial, trivial, trivial, rfl, hm⟩
    | getMeta k =>
      simp [applyMut, hp, hm]

theorem applyMuts_tx {μ : Type} (ms : List (Mutation μ)) :
    ∀ d : VDisk μ, d.txPages.isSome = true → d.txMeta.isSome = true →
      (applyMuts d ms).storePages = d.storePages ∧
      (applyMuts d ms).storeMeta = d.storeMeta ∧
      (applyMuts d ms).storeMax = d.storeMax ∧
      (applyMuts d ms).txPages.isSome = true ∧
      (applyMuts d ms).txMeta.isSome = true := by
  induction ms with
  | nil =>
    intro d hp hm
    exact ⟨rfl, rfl, rfl, hp, hm⟩
  | cons m rest ih =>
    intro d hp hm
    obtain ⟨h1, h2, h3, h4, h5⟩ := applyMut_tx d m hp hm
    obtain ⟨g1, g2, g3, g4, g5⟩ := ih (applyMut d m) h4 h5
    exact ⟨g1.trans h1, g2.trans h2, g3.trans h3, g4, g5⟩

theorem vdObsPage_restore {μ : Type} (a b : VDisk μ) (id : Nat)
    (hpa : a.txPages = none) (hpb : b.txPages = none)
    (hca : ∀ j, a.cache j = none) (hccb : CacheCoherent b)
    (hsp : a.storePages = b.storePages) :
    vdObsPage a id = vdObsPage b id := by
  unfold vdObsPage vdReadPage
  rw [hpa, hpb]
  unfold vdReadCore
  rw [hca id, hsp]
  rcases hc : b.cache id with _ | p
  · rcases hs : b.storePages id with _ | bytes <;> rfl
  · rw [hccb id p hc]

/-- C3, corrected: after a successful BEGIN, any sequence of disk
mutations, and ROLLBACK, every observable page read and metadata read
equals its value before the BEGIN (given cache coherence, which holds
outside transactions), both transaction buffers are discarded and the
cache is cleared — but `max_page_id` is reloaded from persistent
storage ONLY when a counter was ever persisted (`load()` keeps the
in-memory value when the store holds none), so on a fresh disk a
transactional page allocation survives the rollback (see the
counterexample). -/
theorem claim_C3 {μ : Type} (d : VDisk μ) (ms : List (Mutation μ))
    (hcc : CacheCoherent d) (hqp : d.txPages = none) (hqm : d.txMeta = none) :
    ∃ d1 d3,
      vdBegin d = (.ok (), d1) ∧
      vdRollback (applyMuts d1 ms) = (.ok (), d3) ∧
      (∀ id, vdObsPage d3 id = vdObsPage d id) ∧
      (∀ k, vdObsMeta d3 k = vdObsMeta d k) ∧
      d3.txPages = none ∧ d3.txMeta = none ∧ (∀ id, d3.cache id = none) ∧
      (∀ n, d.storeMax = some n → d3.maxPageId = n) := by
  obtain ⟨h1, h2, h3, h4, h5⟩ :=
    applyMuts_tx ms { d with txPages := some [], txMeta := some [] } rfl rfl
  refine ⟨{ d with txPages := some [], txMeta := some [] },
    vdLoad { applyMuts { d with txPages := some [], txMeta := some [] } ms with
      txPages := none, txMeta := none, cache := fun _ => none },
    ?_, ?_, ?_, ?_, rfl, rfl, fun id => rfl, ?_⟩
  · simp [vdBegin, hqp]
  · unfold vdRollback
    rw [if_pos h4]
  · intro id
    exact vdObsPage_restore _ d id rfl hqp (fun j => rfl) hcc h1
  · intro k
    show vdGetMeta _ k = vdGetMeta d k
    unfold vdGetMeta
    rw [hqm]
    show ((applyMuts { d with txPages := some [], txMeta := some [] } ms).storeMeta k) =
      d.storeMeta k
    rw [h2]
  · intro n hn
    show ((applyMuts { d with txPages := some [], txMeta := some [] } ms).storeMax).getD _ = n
    rw [h3]
    show (d.storeMax).getD _ = n
    rw [hn]
    rfl

/-- Counterexample to C3 as stated: on a fresh disk (no persisted
counter), BEGIN; allocatePage; ROLLBACK leaves `maxPageId = 1` — the
transactional allocation is NOT undone, because `load()` finds no
persisted `{ maxPageId }` blob and keeps the in-memory counter. -/
theorem claim_C3_counterexample :
    ∃ (d d1 : VDisk Nat),
      d.txPages = none ∧ d.txMeta = none ∧ d.storeMax = none ∧
      d.maxPageId = 0 ∧ CacheCoherent d ∧
      vdBegin d = (.ok (), d1) ∧
      (vdRollback (applyMuts d1 [.allocatePage])).1 = .ok () ∧
      (vdRollback (applyMuts d1 [.allocatePage])).2.maxPageId = 1 ∧
      d.maxPageId ≠ (vdRollback (applyMuts d1 [.allocatePage])).2.maxPageId := by
  refine ⟨⟨fun _ => none, fun _ => none, none, fun _ => none, 0, none, none⟩,
    ⟨fun _ => none, fun _ => none, none, fun _ => none, 0, some [], some []⟩,
    rfl, rfl, rfl, rfl, fun _ _ h => Option.noConfusion h, rfl, rfl, rfl,
    by decide⟩

/-- Witness for C3: a disk with a persisted counter 5; BEGIN, a page
write, an allocation and a metadata write, then ROLLBACK restores every
observation. -/
theorem claim_C3_witness :
    ∃ d1 d3,
      vdBegin (⟨fun _ => none, fun _ => none, some 5, fun _ => none, 5,
        none, none⟩ : VDisk Nat) = (.ok (), d1) ∧
      vdRollback (applyMuts d1 [.allocatePage, .writePage 2 [9],
        .setMeta "root" 7]) = (.ok (), d3) ∧
      (∀ id, vdObsPage d3 id = vdObsPage (⟨fun _ => none, fun _ => none, some 5,
        fun _ => none, 5, none, none⟩ : VDisk Nat) id) ∧
      (∀ k, vdObsMeta d3 k = vdObsMeta (⟨fun _ => none, fun _ => none, some 5,
        fun _ => none, 5, none, none⟩ : VDisk Nat) k) ∧
      d3.txPages = none ∧ d3.txMeta = none ∧ (∀ id, d3.cache id = none) ∧
      (∀ n, (⟨fun _ => none, fun _ => none, some 5, fun _ => none, 5,
        none, none⟩ : VDisk Nat).storeMax = some n → d3.maxPageId = n) :=
  claim_C3 ⟨fun _ => none, fun _ => none, some 5, fun _ => none, 5, none, none⟩
    [.allocatePage, .writePage 2 [9], .setMeta "root" 7]
    (fun _ _ h => Option.noConfusion h) rfl rfl

end MiniSql
